import Mathlib

/-!
Verification of the MessageFlow binary message codec.

This file gives a shallow embedding, in Lean 4, of the core of the
`message_stream` Python package: the variable-length integer framing,
the per-kind codecs (sentinels, booleans, integers, byte strings, text,
float64, decimals, timestamps, sequences, mappings and records), the
schema registry, and the stateful encoder and decoder contexts with
inline record declarations and back-reference compression.

Conventions used throughout:
  * machine bytes are `Nat` values kept below 256 by construction;
  * Python `bytes` objects are `List Nat`;
  * Python `str` objects are lists of Unicode code points (`List Nat`);
  * fallible operations return `Except` with an error type mirroring the
    exception taxonomy of the package (`ParseError`, `UnexpectedEof`,
    `UnknownControlCode`, `ValueError`, `KeyError`, ...);
  * `BytesIO.tell` is the length of the bytes emitted so far (encoder)
    or the running read position (decoder).
-/

set_option maxRecDepth 8000

namespace MessageFlow

/-! # Byte-level helpers -/

/-- Big-endian byte decomposition of `v` into `n` bytes, mirroring the
Python expression `v.to_bytes(n, "big")` (the value is assumed to fit). -/
def toBytesBE : Nat → Nat → List Nat
  | 0, _ => []
  | n + 1, v => (v / 256 ^ n) % 256 :: toBytesBE n (v % 256 ^ n)

/-- Big-endian recomposition, mirroring `int.from_bytes(bs, "big")`. -/
def fromBytesBE (bs : List Nat) : Nat :=
  bs.foldl (fun acc b => acc * 256 + b) 0

theorem toBytesBE_length (n v : Nat) : (toBytesBE n v).length = n := by
  induction n generalizing v with
  | zero => rfl
  | succ n ih => simp [toBytesBE, ih]

theorem fromBytesBE_foldl_init (ys : List Nat) (a : Nat) :
    ys.foldl (fun acc b => acc * 256 + b) a = a * 256 ^ ys.length + fromBytesBE ys := by
  induction ys generalizing a with
  | nil => simp [fromBytesBE]
  | cons y ys ih =>
    simp only [List.foldl_cons, List.length_cons, fromBytesBE]
    rw [ih (a * 256 + y), ih (0 * 256 + y)]
    ring

theorem fromBytesBE_append (xs ys : List Nat) :
    fromBytesBE (xs ++ ys) = fromBytesBE xs * 256 ^ ys.length + fromBytesBE ys := by
  simp only [fromBytesBE, List.foldl_append]
  rw [fromBytesBE_foldl_init ys (xs.foldl (fun acc b => acc * 256 + b) 0)]
  rfl

theorem fromBytesBE_toBytesBE (n v : Nat) (h : v < 256 ^ n) :
    fromBytesBE (toBytesBE n v) = v := by
  induction n generalizing v with
  | zero =>
    simp [toBytesBE, fromBytesBE]
    omega
  | succ n ih =>
    have hpow : (0:Nat) < 256 ^ n := Nat.pos_pow_of_pos n (by norm_num)
    have : toBytesBE (n+1) v = [(v / 256 ^ n) % 256] ++ toBytesBE n (v % 256 ^ n) := rfl
    rw [this, fromBytesBE_append, toBytesBE_length, ih _ (Nat.mod_lt _ hpow)]
    have hdiv : v / 256 ^ n < 256 := by
      rw [Nat.div_lt_iff_lt_mul hpow]
      have : 256 ^ (n+1) = 256 ^ n * 256 := by ring
      omega
    rw [Nat.mod_eq_of_lt hdiv]
    simp [fromBytesBE]
    rw [Nat.mul_comm]
    exact Nat.div_add_mod v (256 ^ n)

theorem toBytesBE_lt (n v : Nat) : ∀ b ∈ toBytesBE n v, b < 256 := by
  induction n generalizing v with
  | zero => simp [toBytesBE]
  | succ n ih =>
    intro b hb
    simp only [toBytesBE, List.mem_cons] at hb
    rcases hb with rfl | hb
    · exact Nat.mod_lt _ (by norm_num)
    · exact ih _ b hb

/-! # Error model

Mirrors `message_stream.exceptions` plus the built-in Python exceptions the
package lets escape (`ValueError`, `KeyError`, `TypeError`,
`StopIteration`, `decimal.InvalidOperation`). -/

inductive PyErr where
  /-- message_stream.exceptions.ParseError -/
  | parseError
  /-- message_stream.exceptions.UnexpectedEof (a ParseError) -/
  | unexpectedEof
  /-- message_stream.exceptions.UnknownControlCode (a ParseError), with the code -/
  | unknownControlCode (code : Nat)
  /-- builtin ValueError -/
  | valueError
  /-- builtin KeyError -/
  | keyError
  /-- builtin TypeError -/
  | typeError
  /-- builtin StopIteration, raised by `decode_object` in eof-okay mode -/
  | stopIteration
  /-- decimal.InvalidOperation from the Decimal constructor -/
  | invalidOperation
  /-- out of fuel; never produced by runs with sufficient fuel -/
  | fuelExhausted
  deriving DecidableEq, Repr

/-! # Variable-length integers

Embedding of `EncoderContext.encode_variable_int` and of the two copies of
`DecoderContext.decode_variable_int` found in the repository: the modular
one in `encoder_decoder_context.py` (which masks the width-prefix bits off
the first byte) and the duplicated single-file one in `message_stream.py`
(which keeps the first byte whole).

The Python source writes `(val | P).to_bytes(w, "big")` for a width prefix
P whose set bits are disjoint from any admissible `val`, so the first byte
is written here as the prefix value plus the top bits of `val`; the
remaining bytes are the plain big-endian tail. -/

/-- Embedding of `EncoderContext.encode_variable_int`: returns the bytes
written, or an error for values of 2^60 and above (in which case the
source raises before writing anything). -/
def encode_variable_int (val : Nat) : Except PyErr (List Nat) :=
  if val < 0x80 then .ok [val]
  else if val < 0x4000 then .ok ((0x80 + val / 256) :: toBytesBE 1 (val % 256))
  else if val < 0x20000000 then .ok ((0xC0 + val / 256 ^ 3) :: toBytesBE 3 (val % 256 ^ 3))
  else if val < 0x1000000000000000 then
    .ok ((0xE0 + val / 256 ^ 7) :: toBytesBE 7 (val % 256 ^ 7))
  else .error .valueError

/-- Embedding of the modular `DecoderContext.decode_variable_int`
(`encoder_decoder_context.py`): reads from a byte list, returning the
value and the unconsumed remainder.  The width-prefix bits of the first
byte are masked off (`first_byte & 0x3F`, `& 0x1F`, `& 0x0F`), rendered
arithmetically as subtraction of the prefix value. -/
def decode_variable_int : List Nat → Except PyErr (Nat × List Nat)
  | [] => .error .unexpectedEof
  | b :: rest =>
    if b < 0x80 then .ok (b, rest)
    else if b < 0xC0 then
      match rest with
      | r1 :: rest => .ok ((b - 0x80) * 256 + r1, rest)
      | _ => .error .unexpectedEof
    else if b < 0xE0 then
      match rest with
      | r1 :: r2 :: r3 :: rest => .ok (((b - 0xC0) * 256 ^ 3) + fromBytesBE [r1, r2, r3], rest)
      | _ => .error .unexpectedEof
    else if b < 0xF0 then
      match rest with
      | r1 :: r2 :: r3 :: r4 :: r5 :: r6 :: r7 :: rest =>
        .ok (((b - 0xE0) * 256 ^ 7) + fromBytesBE [r1, r2, r3, r4, r5, r6, r7], rest)
      | _ => .error .unexpectedEof
    else .error .parseError

/-- Embedding of the duplicated single-file `DecoderContext.decode_variable_int`
(`message_stream.py`): identical branch structure, but the first byte is fed
to `int.from_bytes` whole, so the width-prefix bits are kept in the value. -/
def ms_decode_variable_int : List Nat → Except PyErr (Nat × List Nat)
  | [] => .error .unexpectedEof
  | b :: rest =>
    if b < 0x80 then .ok (b, rest)
    else if b < 0xC0 then
      match rest with
      | r1 :: rest => .ok (b * 256 + r1, rest)
      | _ => .error .unexpectedEof
    else if b < 0xE0 then
      match rest with
      | r1 :: r2 :: r3 :: rest => .ok ((b * 256 ^ 3) + fromBytesBE [r1, r2, r3], rest)
      | _ => .error .unexpectedEof
    else if b < 0xF0 then
      match rest with
      | r1 :: r2 :: r3 :: r4 :: r5 :: r6 :: r7 :: rest =>
        .ok ((b * 256 ^ 7) + fromBytesBE [r1, r2, r3, r4, r5, r6, r7], rest)
      | _ => .error .unexpectedEof
    else .error .parseError

theorem encode_variable_int_ok (val : Nat) (h : val < 2 ^ 60) :
    ∃ bs, encode_variable_int val = .ok bs := by
  unfold encode_variable_int
  split
  · exact ⟨_, rfl⟩
  · split
    · exact ⟨_, rfl⟩
    · split
      · exact ⟨_, rfl⟩
      · split
        · exact ⟨_, rfl⟩
        · omega

theorem encode_variable_int_bytes_lt (val : Nat) (bs : List Nat)
    (h : encode_variable_int val = .ok bs) : ∀ b ∈ bs, b < 256 := by
  unfold encode_variable_int at h
  split at h
  · cases h; intro b hb; simp at hb; omega
  · split at h
    · cases h
      intro b hb
      simp only [List.mem_cons] at hb
      rcases hb with rfl | hb
      · omega
      · exact toBytesBE_lt _ _ b hb
    · split at h
      · cases h
        intro b hb
        simp only [List.mem_cons] at hb
        rcases hb with rfl | hb
        · have : val / 256 ^ 3 < 0x20 := by
            rw [Nat.div_lt_iff_lt_mul (by norm_num)]
            omega
          omega
        · exact toBytesBE_lt _ _ b hb
      · split at h
        · cases h
          intro b hb
          simp only [List.mem_cons] at hb
          rcases hb with rfl | hb
          · have : val / 256 ^ 7 < 0x10 := by
              rw [Nat.div_lt_iff_lt_mul (by norm_num)]
              omega
            omega
          · exact toBytesBE_lt _ _ b hb
        · cases h

theorem list_length_seven : ∀ (l : List Nat), l.length = 7 →
    ∃ a1 a2 a3 a4 a5 a6 a7, l = [a1, a2, a3, a4, a5, a6, a7]
  | [a1, a2, a3, a4, a5, a6, a7], _ => ⟨a1, a2, a3, a4, a5, a6, a7, rfl⟩
  | [], h => by simp at h
  | [_], h => by simp at h
  | [_, _], h => by simp at h
  | [_, _, _], h => by simp at h
  | [_, _, _, _], h => by simp at h
  | [_, _, _, _, _], h => by simp at h
  | [_, _, _, _, _, _], h => by simp at h
  | _ :: _ :: _ :: _ :: _ :: _ :: _ :: _ :: _ :: _, h => by simp at h

/-- Round trip of the variable-int framing: whatever `encode_variable_int`
writes, the modular decoder reads back, leaving trailing bytes alone. -/
theorem decode_variable_int_encode (val : Nat) (bs rest : List Nat)
    (h : encode_variable_int val = .ok bs) :
    decode_variable_int (bs ++ rest) = .ok (val, rest) := by
  unfold encode_variable_int at h
  split at h
  · cases h
    simp [decode_variable_int]
    omega
  · split at h
    · cases h
      rename_i h1 h2
      have hd : val / 256 < 0x40 := by
        rw [Nat.div_lt_iff_lt_mul (by norm_num)]
        omega
      simp only [toBytesBE, List.cons_append, List.nil_append, decode_variable_int]
      rw [if_neg (by omega), if_pos (by omega)]
      simp only [Nat.pow_zero, Nat.div_one, Nat.mod_one, Nat.mod_self]
      congr 1
      congr 1
      have := Nat.div_add_mod val 256
      omega
    · split at h
      · cases h
        rename_i h1 h2 h3
        have hd : val / 256 ^ 3 < 0x20 := by
          rw [Nat.div_lt_iff_lt_mul (by norm_num)]
          omega
        have hexp : toBytesBE 3 (val % 256 ^ 3) =
            [val % 256 ^ 3 / 256 ^ 2 % 256, val % 256 ^ 3 % 256 ^ 2 / 256 % 256,
              val % 256 ^ 3 % 256 ^ 2 % 256 % 256] := by
          simp [toBytesBE]
        rw [hexp]
        simp only [List.cons_append, List.nil_append, decode_variable_int]
        rw [if_neg (by omega), if_neg (by omega), if_pos (by omega)]
        congr 1
        congr 1
        have hres : fromBytesBE [val % 256 ^ 3 / 256 ^ 2 % 256, val % 256 ^ 3 % 256 ^ 2 / 256 % 256,
            val % 256 ^ 3 % 256 ^ 2 % 256 % 256] = val % 256 ^ 3 := by
          have : toBytesBE 3 (val % 256 ^ 3) =
              [val % 256 ^ 3 / 256 ^ 2 % 256, val % 256 ^ 3 % 256 ^ 2 / 256 % 256,
                val % 256 ^ 3 % 256 ^ 2 % 256 % 256] := by simp [toBytesBE]
          rw [← this]
          exact fromBytesBE_toBytesBE 3 _ (Nat.mod_lt _ (by norm_num))
        rw [hres]
        have := Nat.div_add_mod val (256 ^ 3)
        omega
      · split at h
        · cases h
          rename_i h1 h2 h3 h4
          have hd : val / 256 ^ 7 < 0x10 := by
            rw [Nat.div_lt_iff_lt_mul (by norm_num)]
            omega
          have hlen : (toBytesBE 7 (val % 256 ^ 7)).length = 7 := toBytesBE_length _ _
          have hfrom : fromBytesBE (toBytesBE 7 (val % 256 ^ 7)) = val % 256 ^ 7 :=
            fromBytesBE_toBytesBE 7 _ (Nat.mod_lt _ (by norm_num))
          obtain ⟨a1, a2, a3, a4, a5, a6, a7, hm⟩ := list_length_seven _ hlen
          rw [hm] at hfrom
          rw [hm]
          simp only [List.cons_append, List.nil_append, decode_variable_int]
          rw [if_neg (by omega), if_neg (by omega), if_neg (by omega), if_pos (by omega)]
          congr 1
          congr 1
          rw [hfrom]
          have := Nat.div_add_mod val (256 ^ 7)
          omega
        · cases h

/-! # UTF-8

The package leans on the Python builtins `str.encode("utf-8")` and
`bytes.decode("utf-8")`; they are embedded here over code-point lists.
Multi-byte sequences are rendered arithmetically: the lead byte is the
marker value plus the high bits of the code point, continuation bytes are
`0x80` plus six-bit groups, exactly the standard UTF-8 layout. -/

/-- Unicode scalar values: the code points Python can UTF-8 encode
(everything except surrogates). -/
def isScalar (c : Nat) : Prop := c < 0x110000 ∧ (c < 0xD800 ∨ 0xE000 ≤ c)

instance (c : Nat) : Decidable (isScalar c) := by unfold isScalar; infer_instance

/-- UTF-8 encoding of one scalar code point. -/
def utf8EncodeChar (c : Nat) : List Nat :=
  if c < 0x80 then [c]
  else if c < 0x800 then [0xC0 + c / 64, 0x80 + c % 64]
  else if c < 0x10000 then [0xE0 + c / 4096, 0x80 + c / 64 % 64, 0x80 + c % 64]
  else [0xF0 + c / 262144, 0x80 + c / 4096 % 64, 0x80 + c / 64 % 64, 0x80 + c % 64]

/-- UTF-8 encoding of a code-point string (the pure byte image). -/
def utf8Bytes (s : List Nat) : List Nat :=
  s.foldr (fun c acc => utf8EncodeChar c ++ acc) []

/-- Embedding of `value.encode("utf-8")`: fails (UnicodeEncodeError, a
ValueError) when the string holds a surrogate or out-of-range code point. -/
def pyStrEncodeUtf8 (s : List Nat) : Except PyErr (List Nat) :=
  if ∀ c ∈ s, isScalar c then .ok (utf8Bytes s) else .error .valueError

/-- Continuation-byte test, `0x80 <= b < 0xC0`. -/
def utf8Cont (b : Nat) : Prop := 0x80 ≤ b ∧ b < 0xC0

instance (b : Nat) : Decidable (utf8Cont b) := by unfold utf8Cont; infer_instance

/-- Two-byte UTF-8 sequence completion given lead byte `b0`. -/
def utf8Tail2 (b0 : Nat) : List Nat → Except PyErr (Nat × List Nat)
  | b1 :: rest =>
    if utf8Cont b1 then
      let c := (b0 - 0xC0) * 64 + (b1 - 0x80)
      if c < 0x80 then .error .valueError else .ok (c, rest)
    else .error .valueError
  | [] => .error .valueError

/-- Three-byte UTF-8 sequence completion given lead byte `b0`. -/
def utf8Tail3 (b0 : Nat) : List Nat → Except PyErr (Nat × List Nat)
  | b1 :: b2 :: rest =>
    if utf8Cont b1 ∧ utf8Cont b2 then
      let c := (b0 - 0xE0) * 4096 + (b1 - 0x80) * 64 + (b2 - 0x80)
      if c < 0x800 ∨ (0xD800 ≤ c ∧ c < 0xE000) then .error .valueError else .ok (c, rest)
    else .error .valueError
  | _ => .error .valueError

/-- Four-byte UTF-8 sequence completion given lead byte `b0`. -/
def utf8Tail4 (b0 : Nat) : List Nat → Except PyErr (Nat × List Nat)
  | b1 :: b2 :: b3 :: rest =>
    if utf8Cont b1 ∧ utf8Cont b2 ∧ utf8Cont b3 then
      let c := (b0 - 0xF0) * 262144 + (b1 - 0x80) * 4096 + (b2 - 0x80) * 64 + (b3 - 0x80)
      if c < 0x10000 ∨ 0x110000 ≤ c then .error .valueError else .ok (c, rest)
    else .error .valueError
  | _ => .error .valueError

/-- Decode one UTF-8 character whose lead byte is `b0` and whose remaining
input is `rest`; returns the code point and the unconsumed bytes. -/
def utf8Step (b0 : Nat) (rest : List Nat) : Except PyErr (Nat × List Nat) :=
  if b0 < 0x80 then .ok (b0, rest)
  else if b0 < 0xC0 then .error .valueError
  else if b0 < 0xE0 then utf8Tail2 b0 rest
  else if b0 < 0xF0 then utf8Tail3 b0 rest
  else if b0 < 0xF8 then utf8Tail4 b0 rest
  else .error .valueError

/-- Fueled UTF-8 decoding loop; every step consumes at least one byte, so
fuel `length + 1` always suffices. -/
def utf8DecodeAux : Nat → List Nat → Except PyErr (List Nat)
  | 0, _ => .error .fuelExhausted
  | _ + 1, [] => .ok []
  | fuel + 1, b0 :: rest =>
    (utf8Step b0 rest).bind (fun cr => (utf8DecodeAux fuel cr.2).map (fun s => cr.1 :: s))

/-- Embedding of `bytes.decode("utf-8")` with full validation (stray or
missing continuation bytes, overlong forms, surrogates and values beyond
U+10FFFF all raise UnicodeDecodeError, a ValueError). -/
def utf8Decode (bs : List Nat) : Except PyErr (List Nat) :=
  utf8DecodeAux (bs.length + 1) bs

theorem utf8Bytes_cons (c : Nat) (s : List Nat) :
    utf8Bytes (c :: s) = utf8EncodeChar c ++ utf8Bytes s := rfl

/-- Shape and step behaviour of the encoding of one scalar code point. -/
theorem utf8Step_encodeChar (c : Nat) (hc : isScalar c) (rest : List Nat) :
    ∃ b0 tl, utf8EncodeChar c = b0 :: tl ∧ utf8Step b0 (tl ++ rest) = .ok (c, rest) := by
  obtain ⟨h1, h2⟩ := hc
  unfold utf8EncodeChar
  split
  · refine ⟨c, [], rfl, ?_⟩
    unfold utf8Step
    rw [if_pos (by omega)]
    simp
  · split
    · rename_i hn hlt
      have hd : 2 ≤ c / 64 := by omega
      have hd2 : c / 64 < 32 := by omega
      refine ⟨0xC0 + c / 64, [0x80 + c % 64], rfl, ?_⟩
      unfold utf8Step
      rw [if_neg (by omega), if_neg (by omega), if_pos (by omega)]
      simp only [List.cons_append, List.nil_append, utf8Tail2]
      rw [if_pos (by unfold utf8Cont; omega)]
      have hval : (0xC0 + c / 64 - 0xC0) * 64 + (0x80 + c % 64 - 0x80) = c := by
        have := Nat.div_add_mod c 64
        omega
      simp only [hval]
      rw [if_neg (by omega)]
    · split
      · rename_i hn1 hn2 hlt
        have hd : c / 4096 < 16 := by omega
        refine ⟨0xE0 + c / 4096, [0x80 + c / 64 % 64, 0x80 + c % 64], rfl, ?_⟩
        unfold utf8Step
        rw [if_neg (by omega), if_neg (by omega), if_neg (by omega), if_pos (by omega)]
        simp only [List.cons_append, List.nil_append, utf8Tail3]
        rw [if_pos (by constructor <;> (unfold utf8Cont; omega))]
        have hval : (0xE0 + c / 4096 - 0xE0) * 4096 + (0x80 + c / 64 % 64 - 0x80) * 64 +
            (0x80 + c % 64 - 0x80) = c := by
          have q1 := Nat.div_add_mod c 64
          have q2 := Nat.div_add_mod (c / 64) 64
          have q3 : c / 64 / 64 = c / 4096 := by rw [Nat.div_div_eq_div_mul]
          omega
        simp only [hval]
        rw [if_neg (by omega)]
      · rename_i hn1 hn2 hn3
        have hd : c / 262144 < 8 := by omega
        refine ⟨0xF0 + c / 262144, [0x80 + c / 4096 % 64, 0x80 + c / 64 % 64, 0x80 + c % 64],
          rfl, ?_⟩
        unfold utf8Step
        rw [if_neg (by omega), if_neg (by omega), if_neg (by omega), if_neg (by omega),
          if_pos (by omega)]
        simp only [List.cons_append, List.nil_append, utf8Tail4]
        rw [if_pos (by refine ⟨?_, ?_, ?_⟩ <;> (unfold utf8Cont; omega))]
        have hval : (0xF0 + c / 262144 - 0xF0) * 262144 + (0x80 + c / 4096 % 64 - 0x80) * 4096 +
            (0x80 + c / 64 % 64 - 0x80) * 64 + (0x80 + c % 64 - 0x80) = c := by
          have q1 := Nat.div_add_mod c 64
          have q2 := Nat.div_add_mod (c / 64) 64
          have q3 : c / 64 / 64 = c / 4096 := by rw [Nat.div_div_eq_div_mul]
          have q4 := Nat.div_add_mod (c / 4096) 64
          have q5 : c / 4096 / 64 = c / 262144 := by rw [Nat.div_div_eq_div_mul]
          omega
        simp only [hval]
        rw [if_neg (by omega)]

theorem utf8DecodeAux_utf8Bytes (s : List Nat) (h : ∀ c ∈ s, isScalar c) :
    ∀ fuel, s.length < fuel → utf8DecodeAux fuel (utf8Bytes s) = .ok s := by
  induction s with
  | nil =>
    intro fuel hf
    match fuel, hf with
    | fuel + 1, _ => rfl
  | cons c s ih =>
    intro fuel hf
    obtain ⟨b0, tl, henc, hstep⟩ := utf8Step_encodeChar c (h c (by simp)) (utf8Bytes s)
    rw [utf8Bytes_cons, henc]
    match fuel, hf with
    | fuel + 1, hf =>
      simp only [List.cons_append, utf8DecodeAux, List.append_eq]
      rw [hstep]
      simp only [Except.bind]
      rw [ih (fun d hd => h d (by simp [hd])) fuel (by simp at hf; omega)]
      rfl

theorem utf8Bytes_length_ge (s : List Nat) : s.length ≤ (utf8Bytes s).length := by
  induction s with
  | nil => simp [utf8Bytes]
  | cons c s ih =>
    rw [utf8Bytes_cons]
    have : 1 ≤ (utf8EncodeChar c).length := by
      unfold utf8EncodeChar
      split
      · simp
      · split
        · simp
        · split <;> simp
    simp only [List.length_append, List.length_cons]
    omega

/-- Decoding inverts encoding for strings of scalar code points. -/
theorem utf8Decode_utf8Bytes (s : List Nat) (h : ∀ c ∈ s, isScalar c) :
    utf8Decode (utf8Bytes s) = .ok s := by
  unfold utf8Decode
  exact utf8DecodeAux_utf8Bytes s h _ (by have := utf8Bytes_length_ge s; omega)

theorem utf8EncodeChar_ne_nil (c : Nat) : utf8EncodeChar c ≠ [] := by
  unfold utf8EncodeChar
  split
  · simp
  · split
    · simp
    · split <;> simp

theorem utf8Bytes_eq_nil (s : List Nat) : utf8Bytes s = [] ↔ s = [] := by
  cases s with
  | nil => simp [utf8Bytes]
  | cons c s =>
    simp only [utf8Bytes_cons, List.append_eq_nil]
    constructor
    · rintro ⟨h, _⟩
      exact absurd h (utf8EncodeChar_ne_nil c)
    · intro h
      cases h

/-! # Decimals

Embedding of `decimal.Decimal` as far as the package exercises it: the
sign/coefficient-digits/exponent triple, the `str` conversion (plain or
scientific notation as in the General Decimal Arithmetic specification
CPython implements), parsing of the digit strings the decoder can build
(digits and at most one decimal point), negation via `0 - value`, and
multiplication by the `1`/`-1` variant key, both of which round to the
default context precision of 28 significant digits. -/

structure PyDecimal where
  /-- sign bit, true for negative (note Decimal("-0") keeps the sign) -/
  sign : Bool
  /-- coefficient digits, most significant first, each 0..9 -/
  digits : List Nat
  /-- exponent: the value is coefficient times 10 ^ exp -/
  exp : Int
  deriving DecidableEq, Repr

/-- Numeric strict negativity of a decimal, as used by `value < 0` in the
source (negative zero is not below zero). -/
def decLtZero (d : PyDecimal) : Prop := d.sign = true ∧ ∃ x ∈ d.digits, x ≠ 0

instance (d : PyDecimal) : Decidable (decLtZero d) := by
  unfold decLtZero; infer_instance

/-- Decimal digits of `n`, most significant first, by fueled division. -/
def natDigitsAux : Nat → Nat → List Nat
  | 0, _ => []
  | fuel + 1, n => if n < 10 then [n] else natDigitsAux fuel (n / 10) ++ [n % 10]

def natDigits (n : Nat) : List Nat := natDigitsAux (n + 1) n

/-- Increment a little-endian digit list by one. -/
def incDigitsRev : List Nat → List Nat
  | [] => [1]
  | d :: rest => if d = 9 then 0 :: incDigitsRev rest else (d + 1) :: rest

/-- ROUND_HALF_EVEN to the default context precision of 28 significant
digits, as CPython decimal arithmetic applies to operation results. -/
def round28 (digits : List Nat) (exp : Int) : List Nat × Int :=
  let keep := digits.take 28
  let dropped := digits.drop 28
  let exp2 := exp + dropped.length
  let roundUp : Bool :=
    match dropped with
    | [] => false
    | d0 :: rest =>
      decide (5 < d0) ||
        (decide (d0 = 5) && (rest.any (fun x => decide (x ≠ 0)) ||
          decide (keep.getLastD 0 % 2 = 1)))
  if roundUp then
    let inc := (incDigitsRev keep.reverse).reverse
    if 28 < inc.length then (inc.take 28, exp2 + 1) else (inc, exp2)
  else (keep, exp2)

/-- The string Python prints for the absolute part of a decimal: plain
notation when `exp <= 0` and the adjusted exponent is at least -6,
scientific notation otherwise.  Characters are code points. -/
def decimalStrAbs (d : PyDecimal) : List Nat :=
  let n := d.digits.length
  let adjusted : Int := d.exp + n - 1
  if d.exp ≤ 0 ∧ -6 ≤ adjusted then
    if d.exp = 0 then d.digits.map (fun x => 48 + x)
    else
      let e := (-d.exp).toNat
      if e < n then
        (d.digits.take (n - e)).map (fun x => 48 + x) ++ [46] ++
          (d.digits.drop (n - e)).map (fun x => 48 + x)
      else [48, 46] ++ List.replicate (e - n) 48 ++ d.digits.map (fun x => 48 + x)
  else
    (match d.digits with
     | [d0] => [48 + d0]
     | d0 :: rest => [48 + d0, 46] ++ rest.map (fun x => 48 + x)
     | [] => [48]) ++
      [69] ++
      (if 0 ≤ adjusted then 43 :: natDigits adjusted.toNat
       else 45 :: natDigits (-adjusted).toNat)

/-- Embedding of `str(value)` on a decimal: minus sign, then the absolute
part. -/
def decimalStr (d : PyDecimal) : List Nat :=
  (if d.sign then [45] else []) ++ decimalStrAbs d

/-- Embedding of `0 - value` for a strictly negative decimal: the exact
difference realigned to exponent `min 0 exp`, rounded to 28 significant
digits when the exact coefficient is longer. -/
def pyDecNegate (d : PyDecimal) : PyDecimal :=
  let digits := if 0 < d.exp then d.digits ++ List.replicate d.exp.toNat 0 else d.digits
  let exp := if 0 < d.exp then 0 else d.exp
  let (digits2, exp2) := if digits.length ≤ 28 then (digits, exp) else round28 digits exp
  { sign := false, digits := digits2, exp := exp2 }

/-- Embedding of `result * variant` for `variant` equal to 1 or -1: the
sign is flipped when the variant is negative, and the result is rounded
to 28 significant digits when the coefficient is longer. -/
def pyDecMulSign (d : PyDecimal) (neg : Bool) : PyDecimal :=
  let (digits2, exp2) :=
    if d.digits.length ≤ 28 then (d.digits, d.exp) else round28 d.digits d.exp
  { sign := xor d.sign neg, digits := digits2, exp := exp2 }

/-- Digit-character test for code point `c` (characters 0 through 9). -/
def isDigitCh (c : Nat) : Bool := decide (48 ≤ c ∧ c < 58)

/-- Leading-zero stripping done by `str(int(...))` in the Decimal parser. -/
def canonDigits (l : List Nat) : List Nat :=
  let t := l.dropWhile (fun x => x == 0)
  if t.isEmpty then [0] else t

/-- Embedding of the `Decimal(string)` constructor restricted to the
strings the decoder can produce (digit characters and periods): an
optional integer part, an optional period with fraction part, at least
one digit overall; anything else raises `decimal.InvalidOperation`. -/
def pyDecimalParse (chars : List Nat) : Except PyErr PyDecimal :=
  let ip := chars.takeWhile isDigitCh
  let r1 := chars.dropWhile isDigitCh
  match r1 with
  | [] =>
    if ip.isEmpty then .error .invalidOperation
    else .ok { sign := false, digits := canonDigits (ip.map (fun c => c - 48)), exp := 0 }
  | 46 :: r2 =>
    let fp := r2.takeWhile isDigitCh
    if (r2.dropWhile isDigitCh).isEmpty then
      if ip.isEmpty ∧ fp.isEmpty then .error .invalidOperation
      else .ok { sign := false, digits := canonDigits ((ip ++ fp).map (fun c => c - 48)),
                 exp := -(fp.length : Int) }
    else .error .invalidOperation
  | _ => .error .invalidOperation

/-! ## The nibble packing of `DecimalEncoder`

`_ENCODE_MAP` sends the characters of `"0123456789."` to their indices
0..10; `_DECODE_MAP` is the inverse table.  A pair of characters packs
into one byte, high nibble first; an odd trailing character is padded
with a low nibble of 0x0F. -/

/-- Embedding of `_ENCODE_MAP[ch]`: index into `"0123456789."`, raising
KeyError for any other character. -/
def decDigitCode (ch : Nat) : Except PyErr Nat :=
  if ch = 46 then .ok 10
  else if 48 ≤ ch ∧ ch < 58 then .ok (ch - 48)
  else .error .keyError

/-- Embedding of `_DECODE_MAP[i]` for an in-range index. -/
def decDigitChar (i : Nat) : Nat := if i = 10 then 46 else 48 + i

/-- Embedding of `DecimalEncoder._encode_iter`: pack characters two
nibbles to a byte, high first, padding an odd final character with 0x0F. -/
def packNibbles : List Nat → Except PyErr (List Nat)
  | [] => .ok []
  | [a] => (decDigitCode a).map (fun ca => [ca * 16 + 0x0F])
  | a :: b :: rest =>
    (decDigitCode a).bind (fun ca =>
      (decDigitCode b).bind (fun cb =>
        (packNibbles rest).map (fun bs => (ca * 16 + cb) :: bs)))

/-- Embedding of `DecimalEncoder.decode`'s `decode_iter`: unpack nibbles
to characters; a nibble outside the table stops iteration silently when
the byte's low nibble is 0x0F and raises ParseError otherwise. -/
def unpackNibbles : List Nat → Except PyErr (List Nat)
  | [] => .ok []
  | b :: rest =>
    if b / 16 ≤ 10 then
      if b % 16 ≤ 10 then
        (unpackNibbles rest).map (fun s => decDigitChar (b / 16) :: decDigitChar (b % 16) :: s)
      else if b % 16 = 15 then .ok [decDigitChar (b / 16)]
      else .error .parseError
    else if b % 16 = 15 then .ok []
    else .error .parseError

/-- Embedding of `DecoderContext.read`: return exactly `n` bytes or raise
UnexpectedEof. -/
def readN (n : Nat) (input : List Nat) : Except PyErr (List Nat × List Nat) :=
  if input.length < n then .error .unexpectedEof else .ok (input.take n, input.drop n)

theorem readN_exact (bs rest : List Nat) :
    readN bs.length (bs ++ rest) = .ok (bs, rest) := by
  unfold readN
  rw [if_neg (by simp)]
  simp

/-! ## Decimal codec lemmas -/

/-- Well-formedness a decimal must satisfy for the codec to reproduce it:
a canonical nonempty coefficient, plain-notation printing (exponent at
most 0, adjusted exponent at least -6), at most the context precision of
28 digits, and not the negative zero. -/
def decOkForStream (d : PyDecimal) : Prop :=
  d.digits ≠ [] ∧ (∀ x ∈ d.digits, x < 10) ∧
  (d.digits.headD 0 = 0 → d.digits = [0]) ∧
  d.exp ≤ 0 ∧ (-6 : Int) ≤ d.exp + d.digits.length - 1 ∧
  d.digits.length ≤ 28 ∧ (d.sign = true → d.digits ≠ [0])

instance (d : PyDecimal) : Decidable (decOkForStream d) := by
  unfold decOkForStream; infer_instance

theorem decDigitCode_char (c : Nat) (h : c = 46 ∨ (48 ≤ c ∧ c < 58)) :
    ∃ k, k ≤ 10 ∧ decDigitCode c = .ok k ∧ decDigitChar k = c := by
  unfold decDigitCode decDigitChar
  rcases h with rfl | h
  · exact ⟨10, by omega, rfl, rfl⟩
  · refine ⟨c - 48, by omega, ?_, ?_⟩
    · rw [if_neg (by omega), if_pos (by omega)]
    · rw [if_neg (by omega)]
      omega

theorem unpack_packNibbles (chars : List Nat)
    (h : ∀ c ∈ chars, c = 46 ∨ (48 ≤ c ∧ c < 58)) :
    ∃ bs, packNibbles chars = .ok bs ∧ unpackNibbles bs = .ok chars ∧
      bs.length = chars.length / 2 + chars.length % 2 := by
  induction chars using packNibbles.induct with
  | case1 =>
    exact ⟨[], rfl, rfl, rfl⟩
  | case2 a =>
    obtain ⟨ka, hka, hcode, hchar⟩ := decDigitCode_char a (h a (by simp))
    refine ⟨[ka * 16 + 0x0F], ?_, ?_, by simp⟩
    · simp [packNibbles, hcode, Except.map]
    · unfold unpackNibbles
      rw [show (ka * 16 + 0x0F) / 16 = ka from by omega,
        show (ka * 16 + 0x0F) % 16 = 15 from by omega]
      rw [if_pos (by omega), if_neg (by omega), if_pos rfl, hchar]
  | case3 a b rest ih =>
    obtain ⟨ka, hka, hcodea, hchara⟩ := decDigitCode_char a (h a (by simp))
    obtain ⟨kb, hkb, hcodeb, hcharb⟩ := decDigitCode_char b (h b (by simp))
    obtain ⟨bs, hpack, hunpack, hlen⟩ := ih (fun c hc => h c (by simp [hc]))
    refine ⟨(ka * 16 + kb) :: bs, ?_, ?_, ?_⟩
    · simp [packNibbles, hcodea, hcodeb, hpack, Except.bind, Except.map]
    · unfold unpackNibbles
      rw [show (ka * 16 + kb) / 16 = ka from by omega,
        show (ka * 16 + kb) % 16 = kb from by omega]
      rw [if_pos (by omega), if_pos (by omega), hchara, hcharb, hunpack]
      rfl
    · simp only [List.length_cons, hlen]
      omega

theorem canonDigits_canonical (l : List Nat) (hne : l ≠ [])
    (hc : l.headD 0 = 0 → l = [0]) : canonDigits l = l := by
  unfold canonDigits
  match l, hne with
  | x :: rest, _ =>
    by_cases hx : x = 0
    · have : x :: rest = [0] := hc (by simp [hx])
      rw [this]
      rfl
    · rw [List.dropWhile_cons_of_neg (by simp [hx])]
      simp

theorem takeWhile_digits_append (l r : List Nat) (hl : ∀ x ∈ l, x < 10)
    (hr : ∀ c, r.head? = some c → isDigitCh c = false) :
    ((l.map (fun x => 48 + x)) ++ r).takeWhile isDigitCh = l.map (fun x => 48 + x) ∧
      ((l.map (fun x => 48 + x)) ++ r).dropWhile isDigitCh = r := by
  induction l with
  | nil =>
    simp only [List.map_nil, List.nil_append]
    match r with
    | [] => simp
    | c :: r2 =>
      have := hr c rfl
      rw [List.takeWhile_cons_of_neg (by simp [this]), List.dropWhile_cons_of_neg (by simp [this])]
      exact ⟨rfl, rfl⟩
  | cons x l ih =>
    have hx : isDigitCh (48 + x) = true := by
      unfold isDigitCh
      have := hl x (by simp)
      simp
      omega
    obtain ⟨ih1, ih2⟩ := ih (fun y hy => hl y (by simp [hy]))
    simp only [List.map_cons, List.cons_append]
    rw [List.takeWhile_cons_of_pos (by simp [hx]), List.dropWhile_cons_of_pos (by simp [hx])]
    exact ⟨by rw [ih1], by rw [ih2]⟩

theorem map_sub_48 (l : List Nat) :
    ((l.map (fun x => 48 + x)).map (fun c => c - 48)) = l := by
  induction l with
  | nil => rfl
  | cons x l ih => simp [ih]

/-- Parsing inverts plain-notation printing for stream-safe decimals. -/
theorem pyDecimalParse_decimalStrAbs (d : PyDecimal) (h : decOkForStream d) :
    pyDecimalParse (decimalStrAbs d) = .ok { sign := false, digits := d.digits, exp := d.exp } := by
  obtain ⟨hne, hdig, hcanon, hexp, hadj, hlen, hnz⟩ := h
  unfold decimalStrAbs
  rw [if_pos (by constructor <;> omega)]
  by_cases h0 : d.exp = 0
  · rw [if_pos h0]
    unfold pyDecimalParse
    obtain ⟨ht, hd⟩ := takeWhile_digits_append d.digits [] hdig (by intro c hc; simp at hc)
    simp only [List.append_nil] at ht hd
    rw [ht, hd]
    simp only
    rw [if_neg (by simp [List.isEmpty_iff, hne]), map_sub_48,
      canonDigits_canonical _ hne hcanon]
    simp [h0]
  · rw [if_neg h0]
    set e := (-d.exp).toNat with he
    have hepos : 1 ≤ e := by omega
    have heint : (e : Int) = -d.exp := by omega
    by_cases hcase : e < d.digits.length
    · rw [if_pos hcase]
      unfold pyDecimalParse
      set n := d.digits.length with hn
      obtain ⟨ht, hd⟩ := takeWhile_digits_append (d.digits.take (n - e))
        ([46] ++ (d.digits.drop (n - e)).map (fun x => 48 + x))
        (fun y hy => hdig y (List.mem_of_mem_take hy))
        (by intro c hc; simp at hc; simp [hc.symm, isDigitCh])
      rw [← List.append_assoc] at ht hd
      rw [ht, hd]
      simp only [List.cons_append, List.nil_append]
      obtain ⟨ht2, hd2⟩ := takeWhile_digits_append (d.digits.drop (n - e)) []
        (fun y hy => hdig y (List.mem_of_mem_drop hy)) (by intro c hc; simp at hc)
      simp only [List.append_nil] at ht2 hd2
      rw [ht2, hd2]
      rw [if_pos (by simp), if_neg ?_]
      · rw [← List.map_append, List.take_append_drop, map_sub_48,
          canonDigits_canonical _ hne hcanon]
        have : ((d.digits.drop (n - e)).map (fun x => 48 + x)).length = e := by
          simp
          omega
        rw [this]
        simp only [Except.ok.injEq, PyDecimal.mk.injEq]
        refine ⟨trivial, trivial, by omega⟩
      · intro hcontr
        obtain ⟨h1, h2⟩ := hcontr
        rw [List.isEmpty_iff] at h1
        simp at h1
        rcases h1 with h1 | h1
        · omega
        · exact hne h1
    · rw [if_neg hcase]
      unfold pyDecimalParse
      have step1 : ([48, 46] ++ List.replicate (e - d.digits.length) 48 ++
          d.digits.map (fun x => 48 + x)) =
          ([0].map (fun x => 48 + x)) ++ (46 :: (List.replicate (e - d.digits.length) 0 ++
            d.digits).map (fun x => 48 + x)) := by
        simp [List.map_replicate]
      rw [step1]
      obtain ⟨ht, hd⟩ := takeWhile_digits_append [0]
        (46 :: (List.replicate (e - d.digits.length) 0 ++ d.digits).map (fun x => 48 + x))
        (by intro y hy; simp at hy; omega)
        (by intro c hc; simp at hc; simp [hc.symm, isDigitCh])
      rw [ht, hd]
      simp only
      obtain ⟨ht2, hd2⟩ := takeWhile_digits_append
        (List.replicate (e - d.digits.length) 0 ++ d.digits) []
        (by
          intro y hy
          simp at hy
          rcases hy with hy | hy
          · omega
          · exact hdig y hy)
        (by intro c hc; simp at hc)
      simp only [List.append_nil] at ht2 hd2
      rw [ht2, hd2]
      rw [if_pos (by simp), if_neg (by simp)]
      have hcoeff : canonDigits ((([0].map (fun x => 48 + x)) ++
          (List.replicate (e - d.digits.length) 0 ++ d.digits).map (fun x => 48 + x)).map
            (fun c => c - 48)) = d.digits := by
        rw [← List.map_append, map_sub_48]
        unfold canonDigits
        have hrepl : ([0] ++ (List.replicate (e - d.digits.length) 0 ++ d.digits)) =
            List.replicate (e - d.digits.length + 1) 0 ++ d.digits := by
          simp [List.replicate_succ]
        rw [hrepl]
        by_cases hz : d.digits.headD 0 = 0
        · have h01 := hcanon hz
          set k := e - d.digits.length with hk
          rw [h01]
          have hall : List.replicate (k + 1) 0 ++ [0] = List.replicate (k + 2) 0 := by
            have h2 := List.replicate_succ' (k + 1) (0 : Nat)
            simpa [List.replicate_succ] using h2.symm
          rw [hall, List.dropWhile_replicate]
          simp [h01]
        · have hdw : (List.replicate (e - d.digits.length + 1) 0 ++ d.digits).dropWhile
              (fun x => x == 0) = d.digits := by
            rw [List.dropWhile_append]
            simp only [List.dropWhile_replicate]
            simp only [beq_self_eq_true, if_pos rfl]
            rw [if_pos (by simp [List.isEmpty_iff])]
            match d.digits, hne, hz with
            | y :: rest, _, hz2 =>
              rw [List.dropWhile_cons_of_neg]
              simp at hz2
              simp [hz2]
          rw [hdw, if_neg (by simp [List.isEmpty_iff, hne])]
      rw [hcoeff]
      have hfp : ((List.replicate (e - d.digits.length) 0 ++ d.digits).map
          (fun x => 48 + x)).length = e := by
        simp
        omega
      rw [hfp]
      simp only [Except.ok.injEq, PyDecimal.mk.injEq]
      refine ⟨trivial, trivial, by omega⟩

theorem pyDecNegate_stream (d : PyDecimal) (h : decOkForStream d) :
    pyDecNegate d = { sign := false, digits := d.digits, exp := d.exp } := by
  obtain ⟨hne, hdig, hcanon, hexp, hadj, hlen, hnz⟩ := h
  have h1 : ¬ 0 < d.exp := by omega
  simp only [pyDecNegate, if_neg h1, if_pos (show d.digits.length ≤ 28 from hlen)]

theorem pyDecMulSign_stream (digits : List Nat) (exp : Int) (neg : Bool)
    (h : digits.length ≤ 28) :
    pyDecMulSign { sign := false, digits := digits, exp := exp } neg =
      { sign := neg, digits := digits, exp := exp } := by
  simp only [pyDecMulSign, if_pos (show digits.length ≤ 28 from h)]
  simp [Bool.xor_comm]

theorem decLtZero_stream (d : PyDecimal) (h : decOkForStream d) :
    (decLtZero d ↔ d.sign = true) := by
  obtain ⟨hne, hdig, hcanon, hexp, hadj, hlen, hnz⟩ := h
  unfold decLtZero
  constructor
  · rintro ⟨hs, _⟩
    exact hs
  · intro hs
    refine ⟨hs, ?_⟩
    have hd0 : d.digits ≠ [0] := hnz hs
    match d.digits, hne, hcanon, hd0 with
    | x :: rest, _, hcanon2, hd02 =>
      refine ⟨x, by simp, ?_⟩
      intro hx
      exact hd02 (hcanon2 (by simp [hx]))

theorem decimalStrAbs_chars (d : PyDecimal) (h : decOkForStream d) :
    ∀ c ∈ decimalStrAbs d, c = 46 ∨ (48 ≤ c ∧ c < 58) := by
  obtain ⟨hne, hdig, hcanon, hexp, hadj, hlen, hnz⟩ := h
  unfold decimalStrAbs
  rw [if_pos (by constructor <;> omega)]
  intro c hc
  by_cases h0 : d.exp = 0
  · rw [if_pos h0] at hc
    simp only [List.mem_map] at hc
    obtain ⟨x, hx, rfl⟩ := hc
    have := hdig x hx
    omega
  · rw [if_neg h0] at hc
    by_cases hcase : (-d.exp).toNat < d.digits.length
    · rw [if_pos hcase] at hc
      simp only [List.mem_append, List.mem_map, List.mem_singleton] at hc
      rcases hc with (⟨x, hx, rfl⟩ | rfl) | ⟨x, hx, rfl⟩
      · have := hdig x (List.mem_of_mem_take hx)
        omega
      · left
        rfl
      · have := hdig x (List.mem_of_mem_drop hx)
        omega
    · rw [if_neg hcase] at hc
      simp only [List.cons_append, List.nil_append, List.mem_cons, List.mem_append,
        List.mem_replicate, List.mem_map] at hc
      rcases hc with rfl | rfl | ⟨_, rfl⟩ | ⟨x, hx, rfl⟩
      · right
        omega
      · left
        rfl
      · right
        omega
      · have := hdig x hx
        omega

theorem decimalStrAbs_length (d : PyDecimal) (h : decOkForStream d) :
    (decimalStrAbs d).length ≤ 63 := by
  obtain ⟨hne, hdig, hcanon, hexp, hadj, hlen, hnz⟩ := h
  unfold decimalStrAbs
  rw [if_pos (by constructor <;> omega)]
  by_cases h0 : d.exp = 0
  · rw [if_pos h0]
    simp
    omega
  · rw [if_neg h0]
    have hbound : (-d.exp).toNat ≤ d.digits.length + 5 := by omega
    by_cases hcase : (-d.exp).toNat < d.digits.length
    · rw [if_pos hcase]
      simp
      omega
    · rw [if_neg hcase]
      simp
      omega

/-- Embedding of `DecimalEncoder._encode`: negate a strictly negative
value, render it, write the varint character count then the packed
nibbles. -/
def decimalEncodePayload (d : PyDecimal) : Except PyErr (List Nat) :=
  let v := if decLtZero d then pyDecNegate d else d
  let sv := decimalStr v
  (encode_variable_int sv.length).bind (fun lenB =>
    (packNibbles sv).map (fun packed => lenB ++ packed))

/-- Embedding of `DecimalEncoder.decode` for variant `neg` (true for the
-1 variant): read the varint character count, read the packed bytes,
unpack, parse, and multiply by the variant. -/
def decimalDecodePayload (neg : Bool) (input : List Nat) :
    Except PyErr (PyDecimal × List Nat) :=
  (decode_variable_int input).bind (fun lr =>
    (readN (lr.1 / 2 + lr.1 % 2) lr.2).bind (fun br =>
      (unpackNibbles br.1).bind (fun chars =>
        (pyDecimalParse chars).map (fun d2 => (pyDecMulSign d2 neg, br.2)))))

theorem decimalStr_stream (d : PyDecimal) (h : decOkForStream d) :
    decimalStr (if decLtZero d then pyDecNegate d else d) = decimalStrAbs d := by
  have habs : ∀ dg ex, decimalStrAbs { sign := false, digits := dg, exp := ex } =
      decimalStrAbs { sign := d.sign, digits := dg, exp := ex } := by
    intro dg ex
    unfold decimalStrAbs
    rfl
  by_cases hneg : decLtZero d
  · rw [if_pos hneg, pyDecNegate_stream d h]
    unfold decimalStr
    simp only [if_neg (by simp : ¬ (false = true))]
    rw [habs d.digits d.exp]
    rfl
  · rw [if_neg hneg]
    have hs : d.sign = false := by
      rcases Bool.eq_false_or_eq_true d.sign with hs | hs
      · exact absurd ((decLtZero_stream d h).mpr hs) hneg
      · exact hs
    unfold decimalStr
    rw [hs]
    simp

/-- Full round trip of the decimal codec payload for stream-safe
decimals: encoding succeeds and decoding with the matching variant
returns the value exactly. -/
theorem decimal_payload_roundtrip (d : PyDecimal) (h : decOkForStream d) :
    ∃ B, decimalEncodePayload d = .ok B ∧
      ∀ rest, decimalDecodePayload d.sign (B ++ rest) = .ok (d, rest) := by
  have hchars := decimalStrAbs_chars d h
  have hlen63 := decimalStrAbs_length d h
  obtain ⟨bs, hpack, hunpack, hblen⟩ := unpack_packNibbles (decimalStrAbs d) hchars
  obtain ⟨lenB, hlenB⟩ := encode_variable_int_ok (decimalStrAbs d).length (by omega)
  refine ⟨lenB ++ bs, ?_, ?_⟩
  · simp only [decimalEncodePayload]
    rw [decimalStr_stream d h, hlenB, hpack]
    rfl
  · intro rest
    unfold decimalDecodePayload
    rw [List.append_assoc]
    rw [decode_variable_int_encode _ _ _ hlenB]
    simp only [Except.bind]
    rw [← hblen, readN_exact]
    simp only [Except.bind]
    rw [hunpack]
    simp only [Except.bind]
    rw [pyDecimalParse_decimalStrAbs d h]
    simp only [Except.map]
    rw [pyDecMulSign_stream _ _ _ (by
      have := h
      unfold decOkForStream at this
      exact this.2.2.2.2.2.1)]

/-! # Integer variant selection

Embedding of `IntEncoderDecoder.select_variant` together with Python
`int.bit_length`. -/

/-- Variant keys: the per-kind discriminators the codecs use (`None`,
`Ellipsis`, booleans, small integers, short strings). -/
inductive VKey where
  | kNone
  | kEllipsis
  | kBool (b : Bool)
  | kInt (i : Int)
  | kStr (s : List Nat)
  deriving DecidableEq, Repr

/-- Fueled halving loop computing the bit length. -/
def bitLenAux : Nat → Nat → Nat
  | 0, _ => 0
  | fuel + 1, n => if n = 0 then 0 else bitLenAux fuel (n / 2) + 1

/-- Embedding of Python `int.bit_length` for non-negative values. -/
def pyBitLength (n : Nat) : Nat := bitLenAux (n + 1) n

theorem bitLenAux_le_iff (fuel : Nat) : ∀ n, n < fuel → ∀ k, (bitLenAux fuel n ≤ k ↔ n < 2 ^ k) := by
  induction fuel with
  | zero => omega
  | succ fuel ih =>
    intro n hn k
    unfold bitLenAux
    by_cases h0 : n = 0
    · rw [if_pos h0]
      subst h0
      simp
    · rw [if_neg h0]
      match k with
      | 0 =>
        constructor
        · omega
        · intro hk
          omega
      | k + 1 =>
        have hrec := ih (n / 2) (by omega) k
        have hpow : (2:Nat) ^ (k + 1) = 2 * 2 ^ k := by ring
        constructor
        · intro hle
          have : bitLenAux fuel (n / 2) ≤ k := by omega
          have := hrec.mp this
          omega
        · intro hlt
          have : n / 2 < 2 ^ k := by omega
          have := hrec.mpr this
          omega

theorem pyBitLength_le_iff (n k : Nat) : pyBitLength n ≤ k ↔ n < 2 ^ k :=
  bitLenAux_le_iff (n + 1) n (by omega) k

/-- Embedding of `IntEncoderDecoder.select_variant`: returns the variant
key and the back-referable flag. -/
def int_select_variant (value : Nat) : VKey × Bool :=
  let length := (7 + pyBitLength value) / 8
  if length = 1 then (VKey.kInt 1, false)
  else if length = 2 then (VKey.kInt 2, false)
  else if length ≤ 4 then (VKey.kInt 4, false)
  else if length ≤ 8 then (VKey.kInt 8, false)
  else (VKey.kEllipsis, true)

/-- Characterization of the variant chosen for positive integers: the
smallest of the fixed widths 1/2/4/8 that fits, or the big variant. -/
theorem int_select_variant_pos (n : Nat) (h : 1 ≤ n) :
    int_select_variant n =
      (if n < 2 ^ 8 then (VKey.kInt 1, false)
       else if n < 2 ^ 16 then (VKey.kInt 2, false)
       else if n < 2 ^ 32 then (VKey.kInt 4, false)
       else if n < 2 ^ 64 then (VKey.kInt 8, false)
       else (VKey.kEllipsis, true)) := by
  unfold int_select_variant
  have h8 := pyBitLength_le_iff n 8
  have h16 := pyBitLength_le_iff n 16
  have h32 := pyBitLength_le_iff n 32
  have h64 := pyBitLength_le_iff n 64
  have h0 := pyBitLength_le_iff n 0
  simp only [pow_zero] at h0
  by_cases c8 : n < 2 ^ 8
  · rw [if_pos (by omega), if_pos c8]
  · rw [if_neg (by omega)]
    by_cases c16 : n < 2 ^ 16
    · rw [if_pos (by omega), if_neg c8, if_pos c16]
    · rw [if_neg (by omega)]
      by_cases c32 : n < 2 ^ 32
      · rw [if_pos (by omega), if_neg c8, if_neg c16, if_pos c32]
      · rw [if_neg (by omega)]
        by_cases c64 : n < 2 ^ 64
        · rw [if_pos (by omega), if_neg c8, if_neg c16, if_neg c32, if_pos c64]
        · rw [if_neg (by omega), if_neg c8, if_neg c16, if_neg c32, if_neg c64]

/-! # Proleptic Gregorian calendar

Embedding of the date arithmetic the `datetime` module performs when a
timedelta is added to or subtracted from an aware datetime (as
`DatetimeEncoder` does through `astimezone`): ordinal day numbers as in
`datetime.toordinal`/`fromordinal`. -/

def isLeap (y : Nat) : Prop := y % 4 = 0 ∧ (y % 100 ≠ 0 ∨ y % 400 = 0)

instance (y : Nat) : Decidable (isLeap y) := by unfold isLeap; infer_instance

def daysInMonth (y m : Nat) : Nat :=
  match m with
  | 1 => 31 | 2 => if isLeap y then 29 else 28 | 3 => 31 | 4 => 30 | 5 => 31 | 6 => 30
  | 7 => 31 | 8 => 31 | 9 => 30 | 10 => 31 | 11 => 30 | 12 => 31 | _ => 0

/-- Cumulative days before month `m` in a non-leap year, the
`_DAYS_BEFORE_MONTH` table of CPython. -/
def daysBeforeMonthBase : Nat → Nat
  | 1 => 0 | 2 => 31 | 3 => 59 | 4 => 90 | 5 => 120 | 6 => 151 | 7 => 181
  | 8 => 212 | 9 => 243 | 10 => 273 | 11 => 304 | 12 => 334 | _ => 0

def daysBeforeMonth (y m : Nat) : Nat :=
  daysBeforeMonthBase m + (if 2 < m ∧ isLeap y then 1 else 0)

def daysInYear (y : Nat) : Nat := if isLeap y then 366 else 365

/-- Days strictly before January 1 of year `y`, i.e.
`datetime.date(y, 1, 1).toordinal() - 1`. -/
def daysBeforeYear (y : Nat) : Nat :=
  (y - 1) * 365 + (y - 1) / 4 - (y - 1) / 100 + (y - 1) / 400

/-- Embedding of `datetime.date.toordinal`. -/
def toOrdinal (y m d : Nat) : Nat := daysBeforeYear y + daysBeforeMonth y m + d

def validDate (y m d : Nat) : Prop :=
  1 ≤ y ∧ y ≤ 9999 ∧ 1 ≤ m ∧ m ≤ 12 ∧ 1 ≤ d ∧ d ≤ daysInMonth y m

instance (y m d : Nat) : Decidable (validDate y m d) := by unfold validDate; infer_instance

set_option maxHeartbeats 1000000 in
theorem daysBeforeYear_succ (y : Nat) (h : 1 ≤ y) :
    daysBeforeYear (y + 1) = daysBeforeYear y + daysInYear y := by
  unfold daysBeforeYear daysInYear isLeap
  by_cases hleap : y % 4 = 0 ∧ (y % 100 ≠ 0 ∨ y % 400 = 0)
  · rw [if_pos hleap]
    omega
  · rw [if_neg hleap]
    omega

theorem daysBeforeYear_mono (a b : Nat) (h : a ≤ b) :
    daysBeforeYear a ≤ daysBeforeYear b := by
  unfold daysBeforeYear
  have h4 : (a - 1) / 4 ≤ (b - 1) / 4 := Nat.div_le_div_right (by omega)
  have h100 : (a - 1) / 100 ≤ (b - 1) / 100 := Nat.div_le_div_right (by omega)
  have h400 : (a - 1) / 400 ≤ (b - 1) / 400 := Nat.div_le_div_right (by omega)
  omega

theorem daysBeforeYear_ge (n : Nat) : n ≤ daysBeforeYear (n + 1) := by
  unfold daysBeforeYear
  omega

theorem daysBeforeMonth_step (y m : Nat) (h1 : 1 ≤ m) (h2 : m ≤ 11) :
    daysBeforeMonth y (m + 1) = daysBeforeMonth y m + daysInMonth y m := by
  unfold daysBeforeMonth daysBeforeMonthBase daysInMonth
  by_cases hleap : isLeap y <;> interval_cases m <;> simp [hleap]

theorem dbm_dim_le (y m : Nat) (h1 : 1 ≤ m) (h2 : m ≤ 12) :
    daysBeforeMonth y m + daysInMonth y m ≤ daysInYear y := by
  unfold daysBeforeMonth daysBeforeMonthBase daysInMonth daysInYear
  by_cases hleap : isLeap y <;> interval_cases m <;> simp [hleap]

theorem daysBeforeMonth_last (y : Nat) :
    daysBeforeMonth y 12 + daysInMonth y 12 = daysInYear y := by
  unfold daysBeforeMonth daysBeforeMonthBase daysInMonth daysInYear
  by_cases hleap : isLeap y <;> simp [hleap]

theorem daysBeforeMonth_one (y : Nat) : daysBeforeMonth y 1 = 0 := by
  unfold daysBeforeMonth daysBeforeMonthBase
  simp

theorem daysBeforeMonthBase_mono :
    ∀ a < 13, ∀ b < 13, a ≤ b → daysBeforeMonthBase a ≤ daysBeforeMonthBase b := by
  decide

theorem daysBeforeMonth_mono (y a b : Nat) (h1 : 1 ≤ a) (h2 : a ≤ b) (h3 : b ≤ 12) :
    daysBeforeMonth y a ≤ daysBeforeMonth y b := by
  unfold daysBeforeMonth
  have hbase := daysBeforeMonthBase_mono a (by omega) b (by omega) h2
  by_cases hleap : isLeap y
  · by_cases ha : 2 < a
    · rw [if_pos ⟨ha, hleap⟩, if_pos ⟨by omega, hleap⟩]
      omega
    · rw [if_neg (fun hc => ha hc.1)]
      by_cases hb : 2 < b
      · rw [if_pos ⟨hb, hleap⟩]
        omega
      · rw [if_neg (fun hc => hb hc.1)]
        omega
  · rw [if_neg (fun hc => hleap hc.2), if_neg (fun hc => hleap hc.2)]
    omega

/-- Year search loop for `fromordinal`: advance while the next year still
starts strictly before ordinal `n`. -/
def yearSearch : Nat → Nat → Nat → Nat
  | 0, y, _ => y
  | fuel + 1, y, n => if daysBeforeYear (y + 1) < n then yearSearch fuel (y + 1) n else y

def yearOfOrdinal (n : Nat) : Nat := yearSearch n 1 n

theorem yearSearch_spec (fuel : Nat) : ∀ y n, daysBeforeYear y < n →
    n ≤ daysBeforeYear (y + fuel) →
    daysBeforeYear (yearSearch fuel y n) < n ∧ n ≤ daysBeforeYear (yearSearch fuel y n + 1) := by
  induction fuel with
  | zero =>
    intro y n h1 h2
    simp only [Nat.add_zero] at h2
    omega
  | succ fuel ih =>
    intro y n h1 h2
    unfold yearSearch
    by_cases hstep : daysBeforeYear (y + 1) < n
    · rw [if_pos hstep]
      exact ih (y + 1) n hstep (by
        have : y + 1 + fuel = y + (fuel + 1) := by omega
        rw [this]
        exact h2)
    · rw [if_neg hstep]
      omega

theorem yearOfOrdinal_spec (n : Nat) (h : 1 ≤ n) :
    daysBeforeYear (yearOfOrdinal n) < n ∧ n ≤ daysBeforeYear (yearOfOrdinal n + 1) := by
  unfold yearOfOrdinal
  refine yearSearch_spec n 1 n ?_ ?_
  · unfold daysBeforeYear
    omega
  · have := daysBeforeYear_ge n
    have := daysBeforeYear_mono (n + 1) (1 + n) (by omega)
    omega

/-- Month search loop for `fromordinal` within a year. -/
def monthSearch (y r : Nat) : Nat → Nat → Nat
  | 0, m => m
  | fuel + 1, m => if m < 12 ∧ daysBeforeMonth y (m + 1) < r then monthSearch y r fuel (m + 1) else m

theorem monthSearch_spec (y r : Nat) (fuel : Nat) : ∀ m, 1 ≤ m → m ≤ 12 →
    daysBeforeMonth y m < r → r ≤ daysInYear y → 12 ≤ m + fuel →
    1 ≤ monthSearch y r fuel m ∧ monthSearch y r fuel m ≤ 12 ∧
      daysBeforeMonth y (monthSearch y r fuel m) < r ∧
      r ≤ daysBeforeMonth y (monthSearch y r fuel m) +
        daysInMonth y (monthSearch y r fuel m) := by
  induction fuel with
  | zero =>
    intro m hm1 hm2 hlt hr hfuel
    have hm12 : m = 12 := by omega
    subst hm12
    have hlast := daysBeforeMonth_last y
    unfold daysInYear at hr hlast
    simp only [monthSearch]
    exact ⟨by omega, by omega, hlt, by omega⟩
  | succ fuel ih =>
    intro m hm1 hm2 hlt hr hfuel
    unfold monthSearch
    by_cases hstep : m < 12 ∧ daysBeforeMonth y (m + 1) < r
    · rw [if_pos hstep]
      exact ih (m + 1) (by omega) (by omega) hstep.2 hr (by omega)
    · rw [if_neg hstep]
      by_cases hm12 : m = 12
      · subst hm12
        have hlast := daysBeforeMonth_last y
        unfold daysInYear at hr hlast
        exact ⟨by omega, by omega, hlt, by omega⟩
      · have hnond : ¬ daysBeforeMonth y (m + 1) < r := by
          intro hcontr
          exact hstep ⟨by omega, hcontr⟩
        have := daysBeforeMonth_step y m (by omega) (by omega)
        exact ⟨by omega, by omega, hlt, by omega⟩

/-- Embedding of `datetime.date.fromordinal`. -/
def fromOrdinal (n : Nat) : Nat × Nat × Nat :=
  let y := yearOfOrdinal n
  let r := n - daysBeforeYear y
  let m := monthSearch y r 12 1
  (y, m, r - daysBeforeMonth y m)

theorem toOrdinal_bounds (y m d : Nat) (h : validDate y m d) :
    daysBeforeYear y < toOrdinal y m d ∧ toOrdinal y m d ≤ daysBeforeYear (y + 1) := by
  obtain ⟨hy1, hy2, hm1, hm2, hd1, hd2⟩ := h
  unfold toOrdinal
  constructor
  · omega
  · rw [daysBeforeYear_succ y hy1]
    have := dbm_dim_le y m hm1 hm2
    omega

/-- Round trip of the ordinal encoding on valid dates. -/
theorem fromOrdinal_toOrdinal (y m d : Nat) (h : validDate y m d) :
    fromOrdinal (toOrdinal y m d) = (y, m, d) := by
  obtain ⟨hy1, hy2, hm1, hm2, hd1, hd2⟩ := h
  set n := toOrdinal y m d with hn
  obtain ⟨hb1, hb2⟩ := toOrdinal_bounds y m d ⟨hy1, hy2, hm1, hm2, hd1, hd2⟩
  have hn1 : 1 ≤ n := by omega
  obtain ⟨hy01, hy02⟩ := yearOfOrdinal_spec n hn1
  have hyear : yearOfOrdinal n = y := by
    by_cases hlt : yearOfOrdinal n < y
    · have := daysBeforeYear_mono (yearOfOrdinal n + 1) y (by omega)
      omega
    · by_cases hgt : y < yearOfOrdinal n
      · have := daysBeforeYear_mono (y + 1) (yearOfOrdinal n) (by omega)
        omega
      · omega
  set r := n - daysBeforeYear y with hr
  have hrval : r = daysBeforeMonth y m + d := by
    unfold toOrdinal at hn
    omega
  have hrub : r ≤ daysInYear y := by
    rw [daysBeforeYear_succ y hy1] at hb2
    omega
  have hspec := monthSearch_spec y r 12 1 (by omega) (by omega)
    (by rw [daysBeforeMonth_one]; omega) hrub (by omega)
  set mr := monthSearch y r 12 1 with hmr
  obtain ⟨hmr1, hmr2, hmrlt, hmrub⟩ := hspec
  have hmonth : mr = m := by
    by_cases hlt : mr < m
    · have hmono := daysBeforeMonth_mono y (mr + 1) m (by omega) (by omega) (by omega)
      have hstep := daysBeforeMonth_step y mr (by omega) (by omega)
      omega
    · by_cases hgt : m < mr
      · have hmono := daysBeforeMonth_mono y (m + 1) mr (by omega) (by omega) (by omega)
        have hstep := daysBeforeMonth_step y m (by omega) (by omega)
        omega
      · omega
  have hfo : fromOrdinal n = (yearOfOrdinal n,
      monthSearch (yearOfOrdinal n) (n - daysBeforeYear (yearOfOrdinal n)) 12 1,
      n - daysBeforeYear (yearOfOrdinal n) -
        daysBeforeMonth (yearOfOrdinal n)
          (monthSearch (yearOfOrdinal n) (n - daysBeforeYear (yearOfOrdinal n)) 12 1)) := rfl
  rw [hyear, ← hr, ← hmr, hmonth] at hfo
  rw [hfo]
  simp only [Prod.mk.injEq]
  refine ⟨trivial, trivial, by omega⟩

/-- The inverse round trip: decomposing any in-range ordinal yields a
valid date mapping back to it. -/
theorem toOrdinal_fromOrdinal (n : Nat) (h1 : 1 ≤ n) (h2 : n ≤ daysBeforeYear 10000) :
    validDate (fromOrdinal n).1 (fromOrdinal n).2.1 (fromOrdinal n).2.2 ∧
      toOrdinal (fromOrdinal n).1 (fromOrdinal n).2.1 (fromOrdinal n).2.2 = n := by
  obtain ⟨hy01, hy02⟩ := yearOfOrdinal_spec n h1
  have hylb : 1 ≤ yearOfOrdinal n := by
    by_contra hcontr
    have hy0 : yearOfOrdinal n = 0 := by omega
    rw [hy0] at hy02
    unfold daysBeforeYear at hy02
    simp at hy02
    omega
  have hyub : yearOfOrdinal n ≤ 9999 := by
    by_contra hcontr
    have := daysBeforeYear_mono 10000 (yearOfOrdinal n) (by omega)
    omega
  have hrub : n - daysBeforeYear (yearOfOrdinal n) ≤ daysInYear (yearOfOrdinal n) := by
    rw [daysBeforeYear_succ _ hylb] at hy02
    omega
  obtain ⟨hmr1, hmr2, hmrlt, hmrub⟩ := monthSearch_spec (yearOfOrdinal n)
    (n - daysBeforeYear (yearOfOrdinal n)) 12 1 (by omega) (by omega)
    (by rw [daysBeforeMonth_one]; omega) hrub (by omega)
  have hfo : fromOrdinal n = (yearOfOrdinal n,
      monthSearch (yearOfOrdinal n) (n - daysBeforeYear (yearOfOrdinal n)) 12 1,
      n - daysBeforeYear (yearOfOrdinal n) - daysBeforeMonth (yearOfOrdinal n)
        (monthSearch (yearOfOrdinal n) (n - daysBeforeYear (yearOfOrdinal n)) 12 1)) := rfl
  rw [hfo]
  dsimp only
  refine ⟨⟨hylb, hyub, hmr1, hmr2, by omega, by omega⟩, ?_⟩
  unfold toOrdinal
  omega

/-! # ISO-8601 rendering and parsing

Embedding of `datetime.isoformat` and `datetime.fromisoformat` for the
strings the codec emits: `YYYY-MM-DDTHH:MM:SS[.ffffff][+HH:MM[:SS]]`
(the `%0kd` paddings are rendered digit by digit). -/

structure DtFields where
  year : Nat
  month : Nat
  day : Nat
  hour : Nat
  minute : Nat
  second : Nat
  micro : Nat
  deriving DecidableEq, Repr

def pad2 (n : Nat) : List Nat := [48 + n / 10 % 10, 48 + n % 10]

def pad4 (n : Nat) : List Nat :=
  [48 + n / 1000 % 10, 48 + n / 100 % 10, 48 + n / 10 % 10, 48 + n % 10]

def pad6 (n : Nat) : List Nat :=
  [48 + n / 100000 % 10, 48 + n / 10000 % 10, 48 + n / 1000 % 10,
   48 + n / 100 % 10, 48 + n / 10 % 10, 48 + n % 10]

/-- The `isoformat` output without any UTC offset suffix. -/
def isoCore (f : DtFields) : List Nat :=
  pad4 f.year ++ [45] ++ pad2 f.month ++ [45] ++ pad2 f.day ++ [84] ++
    pad2 f.hour ++ [58] ++ pad2 f.minute ++ [58] ++ pad2 f.second ++
    (if f.micro = 0 then [] else 46 :: pad6 f.micro)

/-- The `isoformat` UTC offset suffix for a whole-second offset. -/
def isoOffset (off : Int) : List Nat :=
  let a := off.natAbs
  (if off < 0 then [45] else [43]) ++ pad2 (a / 3600) ++ [58] ++ pad2 (a % 3600 / 60) ++
    (if a % 60 = 0 then [] else 58 :: pad2 (a % 60))

def expectCh (ch : Nat) : List Nat → Except PyErr (List Nat)
  | c :: rest => if c = ch then .ok rest else .error .valueError
  | [] => .error .valueError

def parse2 : List Nat → Except PyErr (Nat × List Nat)
  | c0 :: c1 :: rest =>
    if (48 ≤ c0 ∧ c0 < 58) ∧ (48 ≤ c1 ∧ c1 < 58) then
      .ok ((c0 - 48) * 10 + (c1 - 48), rest)
    else .error .valueError
  | _ => .error .valueError

def parse4 : List Nat → Except PyErr (Nat × List Nat)
  | c0 :: c1 :: c2 :: c3 :: rest =>
    if (48 ≤ c0 ∧ c0 < 58) ∧ (48 ≤ c1 ∧ c1 < 58) ∧ (48 ≤ c2 ∧ c2 < 58) ∧
        (48 ≤ c3 ∧ c3 < 58) then
      .ok ((c0 - 48) * 1000 + (c1 - 48) * 100 + (c2 - 48) * 10 + (c3 - 48), rest)
    else .error .valueError
  | _ => .error .valueError

def parse6 : List Nat → Except PyErr (Nat × List Nat)
  | c0 :: c1 :: c2 :: c3 :: c4 :: c5 :: rest =>
    if (48 ≤ c0 ∧ c0 < 58) ∧ (48 ≤ c1 ∧ c1 < 58) ∧ (48 ≤ c2 ∧ c2 < 58) ∧
        (48 ≤ c3 ∧ c3 < 58) ∧ (48 ≤ c4 ∧ c4 < 58) ∧ (48 ≤ c5 ∧ c5 < 58) then
      .ok ((c0 - 48) * 100000 + (c1 - 48) * 10000 + (c2 - 48) * 1000 +
        (c3 - 48) * 100 + (c4 - 48) * 10 + (c5 - 48), rest)
    else .error .valueError
  | _ => .error .valueError

/-- Optional fractional part after the seconds. -/
def parseFrac : List Nat → Except PyErr (Nat × List Nat)
  | [] => .ok (0, [])
  | c :: r2 => if c = 46 then parse6 r2 else .ok (0, c :: r2)

/-- The `HH:MM[:SS]` magnitude of an offset. -/
def parseOffMag (r : List Nat) : Except PyErr (Int × List Nat) :=
  (parse2 r).bind fun p1 =>
    (expectCh 58 p1.2).bind fun r2 =>
      (parse2 r2).bind fun p2 =>
        match p2.2 with
        | 58 :: r3 =>
          (parse2 r3).map fun p3 =>
            (((p1.1 * 3600 + p2.1 * 60 + p3.1 : Nat) : Int), p3.2)
        | r3 => .ok (((p1.1 * 3600 + p2.1 * 60 : Nat) : Int), r3)

/-- Optional signed offset suffix. -/
def parseOffset : List Nat → Except PyErr (Option Int × List Nat)
  | [] => .ok (none, [])
  | 43 :: r2 => (parseOffMag r2).map (fun p => (some p.1, p.2))
  | 45 :: r2 => (parseOffMag r2).map (fun p => (some (-p.1), p.2))
  | _ => .error .valueError

/-- The offset range check `timezone` applies: strictly within one day. -/
def offOk : Option Int → Prop
  | none => True
  | some o => o.natAbs < 86400

instance : ∀ o, Decidable (offOk o)
  | none => .isTrue trivial
  | some o => inferInstanceAs (Decidable (o.natAbs < 86400))

theorem ok_bind {α β : Type} (a : α) (f : α → Except PyErr β) :
    (Except.ok a).bind f = f a := rfl

theorem ok_map {α β : Type} (a : α) (f : α → β) :
    (Except.ok (ε := PyErr) a).map f = .ok (f a) := rfl

/-- Embedding of `datetime.fromisoformat` on the emitted grammar: fields
plus the fixed offset when one is present.  Out-of-range components raise
ValueError exactly as the datetime constructor does. -/
def parseIso (s : List Nat) : Except PyErr (DtFields × Option Int) :=
  (parse4 s).bind fun py =>
  (expectCh 45 py.2).bind fun r1 =>
  (parse2 r1).bind fun pm =>
  (expectCh 45 pm.2).bind fun r2 =>
  (parse2 r2).bind fun pd =>
  match pd.2 with
  | [] =>
    if validDate py.1 pm.1 pd.1 then
      .ok ({ year := py.1, month := pm.1, day := pd.1,
             hour := 0, minute := 0, second := 0, micro := 0 }, none)
    else .error .valueError
  | 84 :: r3 =>
    (parse2 r3).bind fun ph =>
    (expectCh 58 ph.2).bind fun r4 =>
    (parse2 r4).bind fun pmi =>
    (expectCh 58 pmi.2).bind fun r5 =>
    (parse2 r5).bind fun ps =>
    (parseFrac ps.2).bind fun pf =>
    (parseOffset pf.2).bind fun po =>
    match po.2 with
    | [] =>
      if validDate py.1 pm.1 pd.1 ∧ ph.1 < 24 ∧ pmi.1 < 60 ∧ ps.1 < 60 ∧
          pf.1 < 1000000 ∧ offOk po.1 then
        .ok ({ year := py.1, month := pm.1, day := pd.1,
               hour := ph.1, minute := pmi.1, second := ps.1, micro := pf.1 }, po.1)
      else .error .valueError
    | _ => .error .valueError
  | _ => .error .valueError

theorem expectCh_cons (ch : Nat) (r : List Nat) : expectCh ch (ch :: r) = .ok r := by
  simp only [expectCh, if_true]

theorem parse2_pad2 (n : Nat) (h : n < 100) (r : List Nat) :
    parse2 (pad2 n ++ r) = .ok (n, r) := by
  unfold pad2 parse2
  simp only [List.cons_append, List.nil_append]
  rw [if_pos (by omega)]
  congr 2
  omega

theorem parse4_pad4 (n : Nat) (h : n < 10000) (r : List Nat) :
    parse4 (pad4 n ++ r) = .ok (n, r) := by
  unfold pad4 parse4
  simp only [List.cons_append, List.nil_append]
  rw [if_pos (by omega)]
  congr 2
  omega

theorem parse6_pad6 (n : Nat) (h : n < 1000000) (r : List Nat) :
    parse6 (pad6 n ++ r) = .ok (n, r) := by
  unfold pad6 parse6
  simp only [List.cons_append, List.nil_append]
  rw [if_pos (by omega)]
  congr 2
  omega

theorem parse2_pad2_nil (n : Nat) (h : n < 100) : parse2 (pad2 n) = .ok (n, []) := by
  have := parse2_pad2 n h []
  rwa [List.append_nil] at this

theorem parseOffMag_isoOffset (off : Int) (h : off.natAbs < 86400) :
    parseOffMag (pad2 (off.natAbs / 3600) ++ [58] ++ pad2 (off.natAbs % 3600 / 60) ++
      (if off.natAbs % 60 = 0 then [] else 58 :: pad2 (off.natAbs % 60))) =
      .ok ((off.natAbs : Int), []) := by
  unfold parseOffMag
  rw [List.append_assoc, List.append_assoc]
  simp only [parse2_pad2 (off.natAbs / 3600) (by omega), ok_bind,
    List.cons_append, List.nil_append, expectCh_cons]
  by_cases hs : off.natAbs % 60 = 0
  · rw [if_pos hs]
    simp only [List.append_nil]
    simp only [parse2_pad2_nil (off.natAbs % 3600 / 60) (by omega), ok_bind]
    have hval : off.natAbs / 3600 * 3600 + off.natAbs % 3600 / 60 * 60 = off.natAbs := by
      omega
    rw [hval]
  · rw [if_neg hs]
    simp only [parse2_pad2 (off.natAbs % 3600 / 60) (by omega), ok_bind]
    simp only [parse2_pad2_nil (off.natAbs % 60) (by omega), ok_map]
    have hval : off.natAbs / 3600 * 3600 + off.natAbs % 3600 / 60 * 60 + off.natAbs % 60 =
        off.natAbs := by
      omega
    rw [hval]

theorem parseOffset_isoOffset (off : Int) (h : off.natAbs < 86400) :
    parseOffset (isoOffset off) = .ok (some off, []) := by
  have hmag := parseOffMag_isoOffset off h
  simp only [isoOffset]
  by_cases hneg : off < 0
  · rw [if_pos hneg]
    simp only [List.cons_append, List.nil_append]
    simp only [parseOffset]
    rw [hmag, ok_map]
    have : -(off.natAbs : Int) = off := by omega
    rw [this]
  · rw [if_neg hneg]
    simp only [List.cons_append, List.nil_append]
    simp only [parseOffset]
    rw [hmag, ok_map]
    have : (off.natAbs : Int) = off := by omega
    rw [this]

/-! # Datetimes and time zones

A Python datetime is modelled by its seven fields with its tzinfo; a
pytz tzinfo attached to a datetime carries the zone name and the
utcoffset it yields for that datetime (always a whole number of
seconds).  The tz database is a parameter: `isTz` embeds membership in
`pytz.all_timezones_set`, `offset` the zone's utcoffset (in seconds) at
a given UTC instant (seconds since the epoch of `toordinal` day 0). -/

inductive PyTzInfo where
  /-- a naive datetime (tzinfo is None) -/
  | tzNone
  /-- datetime.timezone with a fixed whole-second offset -/
  | tzFixed (offsetSec : Int)
  /-- a pytz zone: name and the utcoffset pytz resolved for this datetime -/
  | tzIana (name : List Nat) (offsetSec : Int)
  deriving DecidableEq, Repr

structure PyDatetime where
  fields : DtFields
  tz : PyTzInfo
  deriving DecidableEq, Repr

structure TzDb where
  isTz : List Nat → Bool
  offset : List Nat → Int → Int

def timeSecOf (f : DtFields) : Nat := f.hour * 3600 + f.minute * 60 + f.second

/-- Absolute position of the wall clock reading, in seconds. -/
def dtInstant (f : DtFields) : Int :=
  (toOrdinal f.year f.month f.day : Int) * 86400 + timeSecOf f

/-- Embedding of adding a whole-second timedelta to a datetime's fields
(the arithmetic `astimezone` performs): normalize seconds into a day
offset and a time of day, and shift the ordinal. -/
def shiftFields (f : DtFields) (delta : Int) : DtFields :=
  let total : Int := (timeSecOf f : Int) + delta
  let dayDelta : Int := total / 86400
  let tod : Nat := (total - 86400 * dayDelta).toNat
  let ord : Nat := ((toOrdinal f.year f.month f.day : Int) + dayDelta).toNat
  let ymd := fromOrdinal ord
  { year := ymd.1, month := ymd.2.1, day := ymd.2.2,
    hour := tod / 3600, minute := tod % 3600 / 60, second := tod % 60,
    micro := f.micro }

def dtTimeRangesOk (f : DtFields) : Prop := f.hour < 24 ∧ f.minute < 60 ∧ f.second < 60

instance (f : DtFields) : Decidable (dtTimeRangesOk f) := by
  unfold dtTimeRangesOk; infer_instance

/-- Behaviour of a whole-second shift on valid fields with a year margin:
the result is again valid, lands in years 1..9999, keeps the
microseconds, and moves the instant by exactly the delta. -/
theorem shiftFields_spec (f : DtFields) (delta : Int) (hv : validDate f.year f.month f.day)
    (hy1 : 2 ≤ f.year) (hy2 : f.year ≤ 9998) (ht : dtTimeRangesOk f)
    (hd : delta.natAbs < 86400) :
    validDate (shiftFields f delta).year (shiftFields f delta).month
        (shiftFields f delta).day ∧
      dtTimeRangesOk (shiftFields f delta) ∧
      (shiftFields f delta).micro = f.micro ∧
      dtInstant (shiftFields f delta) = dtInstant f + delta := by
  obtain ⟨hh, hmi, hs⟩ := ht
  have htime : timeSecOf f < 86400 := by
    unfold timeSecOf
    omega
  have hord1 : daysBeforeYear f.year < toOrdinal f.year f.month f.day ∧
      toOrdinal f.year f.month f.day ≤ daysBeforeYear (f.year + 1) :=
    toOrdinal_bounds _ _ _ hv
  have hord2 : 366 ≤ toOrdinal f.year f.month f.day := by
    have h2 := daysBeforeYear_mono 2 f.year (by omega)
    have : daysBeforeYear 2 = 365 := by unfold daysBeforeYear; norm_num
    omega
  have hordub : toOrdinal f.year f.month f.day ≤ daysBeforeYear 9999 := by
    have := daysBeforeYear_mono (f.year + 1) 9999 (by omega)
    omega
  have hstep9999 : daysBeforeYear 10000 = daysBeforeYear 9999 + daysInYear 9999 := by
    have := daysBeforeYear_succ 9999 (by omega)
    norm_num at this
    exact this
  have hdiy9999 : 365 ≤ daysInYear 9999 := by unfold daysInYear; split <;> omega
  set total : Int := (timeSecOf f : Int) + delta with htotal
  set dayDelta : Int := total / 86400 with hdd
  have hddrange : -1 ≤ dayDelta ∧ dayDelta ≤ 1 := by
    constructor <;> omega
  have htod : 0 ≤ total - 86400 * dayDelta ∧ total - 86400 * dayDelta < 86400 := by
    constructor <;> omega
  set tod : Nat := (total - 86400 * dayDelta).toNat with htodn
  have htodlt : tod < 86400 := by omega
  set ordI : Int := (toOrdinal f.year f.month f.day : Int) + dayDelta with hordI
  have hordpos : 1 ≤ ordI := by omega
  set ord : Nat := ordI.toNat with hordn
  have hordlb : 1 ≤ ord := by omega
  have hordub2 : ord ≤ daysBeforeYear 10000 := by omega
  obtain ⟨hvd, hto⟩ := toOrdinal_fromOrdinal ord hordlb hordub2
  have hshift : shiftFields f delta =
      { year := (fromOrdinal ord).1, month := (fromOrdinal ord).2.1,
        day := (fromOrdinal ord).2.2,
        hour := tod / 3600, minute := tod % 3600 / 60, second := tod % 60,
        micro := f.micro } := rfl
  rw [hshift]
  refine ⟨hvd, ⟨?_, ?_, ?_⟩, rfl, ?_⟩
  · show tod / 3600 < 24
    omega
  · show tod % 3600 / 60 < 60
    omega
  · show tod % 60 < 60
    omega
  · show (toOrdinal (fromOrdinal ord).1 (fromOrdinal ord).2.1 (fromOrdinal ord).2.2 : Int) *
        86400 + ((tod / 3600 * 3600 + tod % 3600 / 60 * 60 + tod % 60 : Nat) : Int) =
        dtInstant f + delta
    have h1 : (ord : Int) = (toOrdinal f.year f.month f.day : Int) + dayDelta := by omega
    have h2 : (tod : Int) = (timeSecOf f : Int) + delta - 86400 * dayDelta := by omega
    have h3 : tod / 3600 * 3600 + tod % 3600 / 60 * 60 + tod % 60 = tod := by omega
    rw [hto]
    unfold dtInstant timeSecOf
    unfold timeSecOf at h2
    omega

/-- Two valid field records with equal instants and equal microseconds
are equal. -/
theorem fields_eq_of_instant (f g : DtFields) (hfv : validDate f.year f.month f.day)
    (hgv : validDate g.year g.month g.day) (hft : dtTimeRangesOk f) (hgt : dtTimeRangesOk g)
    (hmic : f.micro = g.micro) (hinst : dtInstant f = dtInstant g) : f = g := by
  obtain ⟨hfh, hfm, hfs⟩ := hft
  obtain ⟨hgh, hgm, hgs⟩ := hgt
  have hftime : timeSecOf f < 86400 := by unfold timeSecOf; omega
  have hgtime : timeSecOf g < 86400 := by unfold timeSecOf; omega
  have hordeq : toOrdinal f.year f.month f.day = toOrdinal g.year g.month g.day := by
    unfold dtInstant at hinst
    omega
  have htimeeq : timeSecOf f = timeSecOf g := by
    unfold dtInstant at hinst
    omega
  have hfo := fromOrdinal_toOrdinal f.year f.month f.day hfv
  have hgo := fromOrdinal_toOrdinal g.year g.month g.day hgv
  rw [hordeq] at hfo
  rw [hgo] at hfo
  have hy : f.year = g.year := congrArg Prod.fst hfo.symm
  have hm : f.month = g.month := congrArg (fun p => p.2.1) hfo.symm
  have hd : f.day = g.day := congrArg (fun p => p.2.2) hfo.symm
  have hhh : f.hour = g.hour ∧ f.minute = g.minute ∧ f.second = g.second := by
    unfold timeSecOf at htimeeq
    omega
  cases f
  cases g
  simp only at hy hm hd hmic hhh
  simp [hy, hm, hd, hmic, hhh.1, hhh.2.1, hhh.2.2]

theorem daysInMonth_le (y m : Nat) : daysInMonth y m ≤ 31 := by
  unfold daysInMonth
  split <;> try split
  all_goals omega

theorem parse6_pad6_nil (n : Nat) (h : n < 1000000) : parse6 (pad6 n) = .ok (n, []) := by
  have := parse6_pad6 n h []
  rwa [List.append_nil] at this

theorem parseFrac_isoOffset (off : Int) : parseFrac (isoOffset off) = .ok (0, isoOffset off) := by
  unfold isoOffset
  by_cases hneg : off < 0
  · rw [if_pos hneg]
    simp only [List.cons_append, List.nil_append, parseFrac]
    rw [if_neg (by omega)]
  · rw [if_neg hneg]
    simp only [List.cons_append, List.nil_append, parseFrac]
    rw [if_neg (by omega)]

theorem parseIso_isoCore (f : DtFields) (hv : validDate f.year f.month f.day)
    (ht : dtTimeRangesOk f) (hmic : f.micro < 1000000) :
    parseIso (isoCore f) = .ok (f, none) := by
  obtain ⟨hy1, hy2, hm1, hm2, hd1, hd2⟩ := hv
  obtain ⟨hh, hmi, hs⟩ := ht
  have hdim : f.day ≤ 31 := by
    have := daysInMonth_le f.year f.month
    omega
  unfold isoCore parseIso
  simp only [List.append_assoc, List.cons_append, List.singleton_append]
  simp only [parse4_pad4 f.year (by omega), ok_bind, List.nil_append]
  rw [expectCh_cons]
  simp only [ok_bind, List.nil_append, parse2_pad2 f.month (by omega)]
  rw [expectCh_cons]
  simp only [ok_bind, List.nil_append, parse2_pad2 f.day (by omega)]
  simp only [parse2_pad2 f.hour (by omega), ok_bind, List.nil_append]
  rw [expectCh_cons]
  simp only [ok_bind, List.nil_append, parse2_pad2 f.minute (by omega)]
  rw [expectCh_cons]
  simp only [ok_bind]
  by_cases h0 : f.micro = 0
  · rw [if_pos h0]
    simp only [List.append_nil]
    simp only [parse2_pad2_nil f.second (by omega), ok_bind]
    simp only [parseFrac, parseOffset, ok_bind]
    rw [if_pos ⟨⟨hy1, hy2, hm1, hm2, hd1, hd2⟩, hh, hmi, hs, by omega, trivial⟩]
    simp only [Except.ok.injEq, Prod.mk.injEq]
    refine ⟨?_, trivial⟩
    cases f
    simp only at h0
    simp [h0]
  · rw [if_neg h0]
    simp only [parse2_pad2 f.second (by omega), ok_bind]
    simp only [parseFrac, if_true, ok_bind]
    simp only [parse6_pad6_nil f.micro hmic, ok_bind]
    simp only [parseOffset, ok_bind]
    rw [if_pos ⟨⟨hy1, hy2, hm1, hm2, hd1, hd2⟩, hh, hmi, hs, hmic, trivial⟩]

theorem parseIso_isoCore_offset (f : DtFields) (off : Int)
    (hv : validDate f.year f.month f.day) (ht : dtTimeRangesOk f)
    (hmic : f.micro < 1000000) (hoff : off.natAbs < 86400) :
    parseIso (isoCore f ++ isoOffset off) = .ok (f, some off) := by
  obtain ⟨hy1, hy2, hm1, hm2, hd1, hd2⟩ := hv
  obtain ⟨hh, hmi, hs⟩ := ht
  have hdim : f.day ≤ 31 := by
    have := daysInMonth_le f.year f.month
    omega
  unfold isoCore parseIso
  simp only [List.append_assoc, List.cons_append, List.singleton_append]
  simp only [parse4_pad4 f.year (by omega), ok_bind, List.nil_append]
  rw [expectCh_cons]
  simp only [ok_bind, List.nil_append, parse2_pad2 f.month (by omega)]
  rw [expectCh_cons]
  simp only [ok_bind, List.nil_append, parse2_pad2 f.day (by omega)]
  simp only [parse2_pad2 f.hour (by omega), ok_bind, List.nil_append]
  rw [expectCh_cons]
  simp only [ok_bind, List.nil_append, parse2_pad2 f.minute (by omega)]
  rw [expectCh_cons]
  simp only [ok_bind]
  by_cases h0 : f.micro = 0
  · rw [if_pos h0]
    simp only [List.nil_append]
    simp only [parse2_pad2 f.second (by omega), ok_bind]
    simp only [parseFrac_isoOffset off, ok_bind]
    simp only [parseOffset_isoOffset off hoff, ok_bind]
    rw [if_pos ⟨⟨hy1, hy2, hm1, hm2, hd1, hd2⟩, hh, hmi, hs, by omega, hoff⟩]
    simp only [Except.ok.injEq, Prod.mk.injEq]
    refine ⟨?_, trivial⟩
    cases f
    simp only at h0
    simp [h0]
  · rw [if_neg h0]
    simp only [List.cons_append]
    simp only [parse2_pad2 f.second (by omega), ok_bind]
    simp only [parseFrac, if_true, ok_bind]
    simp only [parse6_pad6 f.micro hmic, ok_bind]
    simp only [parseOffset_isoOffset off hoff, ok_bind]
    rw [if_pos ⟨⟨hy1, hy2, hm1, hm2, hd1, hd2⟩, hh, hmi, hs, hmic, hoff⟩]

/-! # The string framing helpers of the contexts -/

/-- Embedding of `EncoderContext.encode_string`: UTF-8 encode, write the
byte count as a varint, then the bytes. -/
def encode_string (s : List Nat) : Except PyErr (List Nat) :=
  (pyStrEncodeUtf8 s).bind fun v =>
    (encode_variable_int v.length).map fun lb => lb ++ v

/-- Embedding of `DecoderContext.decode_string`: read a varint length,
read that many bytes, UTF-8 decode them. -/
def decode_string (input : List Nat) : Except PyErr (List Nat × List Nat) :=
  (decode_variable_int input).bind fun lr =>
    (readN lr.1 lr.2).bind fun br =>
      (utf8Decode br.1).map fun s => (s, br.2)

theorem string_roundtrip (s : List Nat) (hs : ∀ c ∈ s, isScalar c)
    (hlen : (utf8Bytes s).length < 2 ^ 60) :
    ∃ B, encode_string s = .ok B ∧ ∀ rest, decode_string (B ++ rest) = .ok (s, rest) := by
  obtain ⟨lb, hlb⟩ := encode_variable_int_ok (utf8Bytes s).length hlen
  refine ⟨lb ++ utf8Bytes s, ?_, ?_⟩
  · unfold encode_string pyStrEncodeUtf8
    rw [if_pos hs]
    simp only [ok_bind, hlb, ok_map]
  · intro rest
    unfold decode_string
    rw [List.append_assoc, decode_variable_int_encode _ _ _ hlb]
    simp only [ok_bind, readN_exact, utf8Decode_utf8Bytes s hs, ok_map]

/-- ASCII strings (as the ISO renderings are) UTF-8 encode to themselves. -/
theorem utf8Bytes_ascii (s : List Nat) (h : ∀ c ∈ s, c < 0x80) : utf8Bytes s = s := by
  induction s with
  | nil => rfl
  | cons c cs ih =>
    rw [utf8Bytes_cons]
    have hc : utf8EncodeChar c = [c] := by
      unfold utf8EncodeChar
      rw [if_pos (h c (by simp))]
    rw [hc, ih (fun d hd => h d (by simp [hd]))]
    rfl

theorem pad2_ascii (n : Nat) : ∀ c ∈ pad2 n, c < 0x80 := by
  unfold pad2
  intro c hc
  simp at hc
  omega

theorem pad4_ascii (n : Nat) : ∀ c ∈ pad4 n, c < 0x80 := by
  unfold pad4
  intro c hc
  simp at hc
  omega

theorem pad6_ascii (n : Nat) : ∀ c ∈ pad6 n, c < 0x80 := by
  unfold pad6
  intro c hc
  simp at hc
  omega

theorem isoCore_ascii (f : DtFields) : ∀ c ∈ isoCore f, c < 0x80 := by
  intro c hc
  unfold isoCore at hc
  split at hc <;>
    simp only [List.append_assoc, List.cons_append, List.singleton_append, List.append_nil,
      List.mem_append, List.mem_cons] at hc <;>
    repeat' first
      | exact pad4_ascii _ c hc
      | exact pad2_ascii _ c hc
      | exact pad6_ascii _ c hc
      | omega
      | (rcases hc with hc | hc)

theorem isoOffset_ascii (off : Int) : ∀ c ∈ isoOffset off, c < 0x80 := by
  intro c hc
  unfold isoOffset at hc
  split at hc <;>
    simp only [List.append_assoc, List.cons_append, List.singleton_append, List.append_nil,
      List.mem_append, List.mem_cons] at hc <;>
    repeat' first
      | exact pad2_ascii _ c hc
      | omega
      | simp only [List.not_mem_nil] at hc
      | simp only [List.mem_cons] at hc
      | (rcases hc with hc | hc)
      | split at hc

theorem isoCore_length (f : DtFields) : (isoCore f).length ≤ 26 := by
  unfold isoCore pad2 pad4 pad6
  split <;> simp

theorem isoOffset_length (off : Int) : (isoOffset off).length ≤ 9 := by
  simp only [isoOffset, pad2]
  split <;> split <;> simp

/-! # The timestamp codec

Embedding of `DatetimeEncoder`: the iso variant writes one ISO string
with any fixed offset embedded; the iana variant writes the
UTC-normalized naive ISO string followed by the pytz zone name. -/

/-- Embedding of the `select_variant` test
`isinstance(value.tzinfo, pytz.tzinfo.BaseTzInfo) and str(value.tzinfo)
in pytz.all_timezones_set`. -/
def dt_select_iana (db : TzDb) (d : PyDatetime) : Bool :=
  match d.tz with
  | .tzIana name _ => db.isTz name
  | _ => false

/-- Embedding of `value.isoformat()`: fields plus any utcoffset suffix. -/
def pyIsoFormat (d : PyDatetime) : List Nat :=
  isoCore d.fields ++
    (match d.tz with
     | .tzNone => []
     | .tzFixed o => isoOffset o
     | .tzIana _ o => isoOffset o)

/-- Embedding of `DatetimeEncoder._encode_iso` and `_encode_iana`. -/
def datetimeEncodePayload (db : TzDb) (d : PyDatetime) : Except PyErr (List Nat) :=
  match d.tz with
  | .tzIana name off =>
    if db.isTz name then
      (encode_string (isoCore (shiftFields d.fields (-off)))).bind fun b1 =>
        (encode_string name).map fun b2 => b1 ++ b2
    else encode_string (pyIsoFormat d)
  | _ => encode_string (pyIsoFormat d)

/-- Embedding of `DatetimeEncoder.decode` for the two variants: parse the
ISO string; for the iana variant read the zone name, look the zone up
(`pytz.timezone` raises for unknown names) and convert the UTC wall
clock into it. -/
def datetimeDecodePayload (db : TzDb) (iana : Bool) (input : List Nat) :
    Except PyErr (PyDatetime × List Nat) :=
  (decode_string input).bind fun sr =>
    (parseIso sr.1).bind fun p =>
      if iana then
        (decode_string sr.2).bind fun zr =>
          if db.isTz zr.1 then
            .ok ({ fields := shiftFields p.1 (db.offset zr.1 (dtInstant p.1)),
                   tz := .tzIana zr.1 (db.offset zr.1 (dtInstant p.1)) }, zr.2)
          else .error .keyError
      else
        .ok ({ fields := p.1,
               tz := match p.2 with | none => .tzNone | some o => .tzFixed o }, sr.2)

/-- Well-formedness of a timestamp for exact reproduction: valid calendar
fields, a supported year range, and a tzinfo that is either absent, a
fixed sub-day whole-second offset, or a pytz zone known to the database
whose recorded offset is consistent with the database at this instant. -/
def dtOkForStream (db : TzDb) (d : PyDatetime) : Prop :=
  validDate d.fields.year d.fields.month d.fields.day ∧ dtTimeRangesOk d.fields ∧
    d.fields.micro < 1000000 ∧
    (match d.tz with
     | .tzNone => True
     | .tzFixed o => o.natAbs < 86400
     | .tzIana name o =>
       db.isTz name = true ∧ o.natAbs < 86400 ∧ 3 ≤ d.fields.year ∧ d.fields.year ≤ 9997 ∧
         db.offset name (dtInstant d.fields - o) = o ∧ (∀ c ∈ name, isScalar c) ∧
         (utf8Bytes name).length < 2 ^ 60)

theorem ascii_scalar {s : List Nat} (h : ∀ c ∈ s, c < 0x80) : ∀ c ∈ s, isScalar c := by
  intro c hc
  have := h c hc
  exact ⟨by omega, Or.inl (by omega)⟩

/-- A sub-day whole-second shift of a timestamp of year 3..9997 stays in
years 2..9998, leaving one more shift of headroom. -/
theorem shiftFields_year_bounds (f : DtFields) (delta : Int) (hv : validDate f.year f.month f.day)
    (hy1 : 3 ≤ f.year) (hy2 : f.year ≤ 9997) (ht : dtTimeRangesOk f)
    (hd : delta.natAbs < 86400) :
    2 ≤ (shiftFields f delta).year ∧ (shiftFields f delta).year ≤ 9998 := by
  obtain ⟨hgv, hgt, -, hinst⟩ :=
    shiftFields_spec f delta hv (by omega) (by omega) ht hd
  obtain ⟨hfb1, hfb2⟩ := toOrdinal_bounds f.year f.month f.day hv
  obtain ⟨hgb1, hgb2⟩ :=
    toOrdinal_bounds (shiftFields f delta).year (shiftFields f delta).month
      (shiftFields f delta).day hgv
  have hftime : timeSecOf f < 86400 := by
    obtain ⟨a, b, c⟩ := ht
    unfold timeSecOf
    omega
  have hgtime : timeSecOf (shiftFields f delta) < 86400 := by
    obtain ⟨a, b, c⟩ := hgt
    unfold timeSecOf
    omega
  unfold dtInstant at hinst
  have hdby3 : daysBeforeYear 3 = 730 := by unfold daysBeforeYear; norm_num
  have hdby2 : daysBeforeYear 2 = 365 := by unfold daysBeforeYear; norm_num
  have hmono1 := daysBeforeYear_mono 3 f.year (by omega)
  have hmono2 := daysBeforeYear_mono (f.year + 1) 9998 (by omega)
  have hstep := daysBeforeYear_succ 9998 (by omega)
  norm_num at hstep
  have hdiy : 365 ≤ daysInYear 9998 := by unfold daysInYear; split <;> omega
  constructor
  · by_contra hlt
    push_neg at hlt
    have : daysBeforeYear ((shiftFields f delta).year + 1) ≤ daysBeforeYear 2 :=
      daysBeforeYear_mono _ 2 (by omega)
    omega
  · by_contra hgt2
    push_neg at hgt2
    have : daysBeforeYear 9999 ≤ daysBeforeYear (shiftFields f delta).year :=
      daysBeforeYear_mono 9999 _ (by omega)
    omega

/-- The timestamp codec reproduces a well-formed timestamp exactly:
encoding succeeds and decoding the produced payload (with the matching
variant flag) returns the very datetime, leaving trailing bytes alone. -/
theorem datetime_payload_roundtrip (db : TzDb) (d : PyDatetime) (h : dtOkForStream db d) :
    ∃ B, datetimeEncodePayload db d = .ok B ∧ ∀ rest,
      datetimeDecodePayload db (dt_select_iana db d) (B ++ rest) = .ok (d, rest) := by
  rcases d with ⟨f, tz⟩
  rcases tz with _ | o | ⟨name, o⟩
  · obtain ⟨hv, ht, hmic, -⟩ := h
    have hfmt : pyIsoFormat ⟨f, .tzNone⟩ = isoCore f := by simp [pyIsoFormat]
    have hascii := isoCore_ascii f
    have hlen : (utf8Bytes (isoCore f)).length < 2 ^ 60 := by
      rw [utf8Bytes_ascii _ hascii]
      have := isoCore_length f
      omega
    obtain ⟨B, hB, hdec⟩ := string_roundtrip (isoCore f) (ascii_scalar hascii) hlen
    refine ⟨B, ?_, ?_⟩
    · show encode_string (pyIsoFormat ⟨f, .tzNone⟩) = .ok B
      rw [hfmt]
      exact hB
    · intro rest
      have hsel : dt_select_iana db ⟨f, .tzNone⟩ = false := rfl
      rw [hsel]
      unfold datetimeDecodePayload
      rw [hdec rest]
      simp only [ok_bind]
      rw [parseIso_isoCore f hv ht hmic]
      rfl
  · obtain ⟨hv, ht, hmic, hoabs⟩ := h
    have hfmt : pyIsoFormat ⟨f, .tzFixed o⟩ = isoCore f ++ isoOffset o := by
      simp [pyIsoFormat]
    have hascii : ∀ c ∈ isoCore f ++ isoOffset o, c < 0x80 := by
      intro c hc
      rcases List.mem_append.mp hc with hc | hc
      · exact isoCore_ascii f c hc
      · exact isoOffset_ascii o c hc
    have hlen : (utf8Bytes (isoCore f ++ isoOffset o)).length < 2 ^ 60 := by
      rw [utf8Bytes_ascii _ hascii]
      have h1 := isoCore_length f
      have h2 := isoOffset_length o
      simp only [List.length_append]
      omega
    obtain ⟨B, hB, hdec⟩ :=
      string_roundtrip (isoCore f ++ isoOffset o) (ascii_scalar hascii) hlen
    refine ⟨B, ?_, ?_⟩
    · show encode_string (pyIsoFormat ⟨f, .tzFixed o⟩) = .ok B
      rw [hfmt]
      exact hB
    · intro rest
      have hsel : dt_select_iana db ⟨f, .tzFixed o⟩ = false := rfl
      rw [hsel]
      unfold datetimeDecodePayload
      rw [hdec rest]
      simp only [ok_bind]
      rw [parseIso_isoCore_offset f o hv ht hmic hoabs]
      rfl
  · obtain ⟨hv, ht, hmic, htzname, hoabs, hy3, hy97, hcons, hnsc, hnlen⟩ := h
    simp only at hv ht hmic hy3 hy97 hcons
    have hnegabs : (-o).natAbs < 86400 := by rw [Int.natAbs_neg]; exact hoabs
    obtain ⟨huv, hut, humic, huinst⟩ :=
      shiftFields_spec f (-o) hv (by omega) (by omega) ht hnegabs
    obtain ⟨hyl, hyu⟩ := shiftFields_year_bounds f (-o) hv hy3 hy97 ht hnegabs
    have hinstu : dtInstant (shiftFields f (-o)) = dtInstant f - o := by
      rw [huinst]
      omega
    have hoff : db.offset name (dtInstant (shiftFields f (-o))) = o := by
      rw [hinstu]
      exact hcons
    obtain ⟨hvv, hvt, hvmic, hvinst⟩ :=
      shiftFields_spec (shiftFields f (-o)) o huv hyl hyu hut hoabs
    have hback : shiftFields (shiftFields f (-o)) o = f := by
      apply fields_eq_of_instant _ _ hvv hv hvt ht
      · rw [hvmic, humic]
      · rw [hvinst, hinstu]
        omega
    have hascii := isoCore_ascii (shiftFields f (-o))
    have hlen1 : (utf8Bytes (isoCore (shiftFields f (-o)))).length < 2 ^ 60 := by
      rw [utf8Bytes_ascii _ hascii]
      have := isoCore_length (shiftFields f (-o))
      omega
    obtain ⟨B1, hB1, hdec1⟩ :=
      string_roundtrip (isoCore (shiftFields f (-o))) (ascii_scalar hascii) hlen1
    obtain ⟨B2, hB2, hdec2⟩ := string_roundtrip name hnsc hnlen
    refine ⟨B1 ++ B2, ?_, ?_⟩
    · simp only [datetimeEncodePayload]
      rw [if_pos htzname, hB1]
      simp only [ok_bind, hB2, ok_map]
    · intro rest
      have hsel : dt_select_iana db ⟨f, .tzIana name o⟩ = db.isTz name := rfl
      rw [hsel, htzname]
      unfold datetimeDecodePayload
      rw [List.append_assoc, hdec1 (B2 ++ rest)]
      simp only [ok_bind]
      rw [parseIso_isoCore (shiftFields f (-o)) huv hut (by rw [humic]; exact hmic)]
      simp only [ok_bind]
      simp only [if_true]
      rw [hdec2 rest]
      simp only [ok_bind]
      rw [if_pos htzname]
      rw [hoff, hback]

/-! # Association-list embeddings of Python dicts

Insertion-ordered association lists with the update, delete and lookup
semantics of Python dicts (update keeps the original position, delete of
a missing key raises KeyError). -/

def alookup {α β : Type} [DecidableEq α] : List (α × β) → α → Option β
  | [], _ => none
  | (k, v) :: rest, key => if key = k then some v else alookup rest key

def aupd {α β : Type} [DecidableEq α] : List (α × β) → α → β → List (α × β)
  | [], key, val => [(key, val)]
  | (k, v) :: rest, key, val =>
    if key = k then (k, val) :: rest else (k, v) :: aupd rest key val

/-- Embedding of `dict(zip(ks, vs))`: pairs are inserted left to right,
truncating at the shorter list, a repeated key keeping its first position
with the last value. -/
def dictZip {α : Type} [DecidableEq α] (ks : List α) (vs : List Nat) : List (α × Nat) :=
  (List.zip ks vs).foldl (fun m kv => aupd m kv.1 kv.2) []

theorem aupd_not_mem {α β : Type} [DecidableEq α] (m : List (α × β)) (k : α) (v : β)
    (h : k ∉ m.map Prod.fst) : aupd m k v = m ++ [(k, v)] := by
  induction m with
  | nil => rfl
  | cons p rest ih =>
    obtain ⟨k2, v2⟩ := p
    simp only [List.map_cons, List.mem_cons] at h
    push_neg at h
    unfold aupd
    rw [if_neg h.1, ih h.2]
    simp

theorem dictZip_foldl_acc {α : Type} [DecidableEq α] :
    ∀ (ps acc : List (α × Nat)), (ps.map Prod.fst).Nodup →
      (∀ k ∈ ps.map Prod.fst, k ∉ acc.map Prod.fst) →
      ps.foldl (fun m kv => aupd m kv.1 kv.2) acc = acc ++ ps := by
  intro ps
  induction ps with
  | nil => intro acc _ _; simp
  | cons p rest ih =>
    intro acc hnd hdisj
    simp only [List.map_cons, List.nodup_cons] at hnd
    simp only [List.foldl_cons]
    rw [aupd_not_mem acc p.1 p.2 (hdisj p.1 (by simp))]
    rw [ih (acc ++ [(p.1, p.2)]) hnd.2 ?_]
    · simp
    · intro k hk
      simp only [List.map_append, List.mem_append, List.map_cons, List.map_nil,
        List.mem_singleton]
      push_neg
      refine ⟨hdisj k (by simp [hk]), ?_⟩
      intro hkp
      exact hnd.1 (hkp ▸ hk)

theorem map_fst_zip_sub {α : Type} : ∀ (ks : List α) (vs : List Nat),
    ∀ k ∈ (ks.zip vs).map Prod.fst, k ∈ ks := by
  intro ks
  induction ks with
  | nil => intro vs k hk; simp [List.zip] at hk
  | cons a rest ih =>
    intro vs k hk
    cases vs with
    | nil => simp [List.zip] at hk
    | cons v vrest =>
      simp only [List.zip_cons_cons, List.map_cons, List.mem_cons] at hk
      rcases hk with rfl | hk
      · simp
      · simp [ih vrest k hk]

theorem nodup_map_fst_zip {α : Type} (ks : List α) (vs : List Nat) (h : ks.Nodup) :
    ((ks.zip vs).map Prod.fst).Nodup := by
  induction ks generalizing vs with
  | nil => simp [List.zip]
  | cons a rest ih =>
    cases vs with
    | nil => simp [List.zip]
    | cons v vrest =>
      simp only [List.nodup_cons] at h
      simp only [List.zip_cons_cons, List.map_cons, List.nodup_cons]
      exact ⟨fun hmem => h.1 (map_fst_zip_sub rest vrest a hmem), ih vrest h.2⟩

theorem dictZip_nodup {α : Type} [DecidableEq α] (ks : List α) (vs : List Nat)
    (h : ks.Nodup) : dictZip ks vs = ks.zip vs := by
  unfold dictZip
  rw [dictZip_foldl_acc (ks.zip vs) [] (nodup_map_fst_zip ks vs h) (by simp)]
  simp

theorem map_snd_zip_take {α : Type} : ∀ (ks : List α) (vs : List Nat),
    (ks.zip vs).map Prod.snd = vs.take ks.length := by
  intro ks
  induction ks with
  | nil => intro vs; simp [List.zip]
  | cons a rest ih =>
    intro vs
    cases vs with
    | nil => simp [List.zip]
    | cons v vrest => simp [List.zip_cons_cons, ih vrest]

theorem zip_length_of_le {α : Type} (ks : List α) (vs : List Nat)
    (h : ks.length ≤ vs.length) : (ks.zip vs).length = ks.length := by
  simp [List.length_zip]
  omega

theorem zip_length_lt {α : Type} (ks : List α) (vs : List Nat)
    (h : vs.length < ks.length) : (ks.zip vs).length = vs.length := by
  simp [List.length_zip]
  omega

/-! # Embedding of `Schema.add_type`

The schema's `_decoders` dict is represented by its key list (insertion
order); the codec by its variant list.  The optional `control_codes` is
either omitted or a list (the single-int shorthand is the singleton
list). -/

/-- `max(self._decoders) + 1`, or 9 when the dict is empty (the
`ValueError` of `max` on an empty dict is caught). -/
def autoStart (decoders : List Nat) : Nat :=
  match decoders with
  | [] => 9
  | d :: ds => ds.foldl Nat.max d + 1

def add_type (decoders : List Nat) (variants : List VKey)
    (control_codes : Option (List Nat)) : Except PyErr (List (VKey × Nat) × List Nat) :=
  let codes :=
    match control_codes with
    | none => List.range' (autoStart decoders) variants.length
    | some cs => cs
  let vm := dictZip variants codes
  if vm.length ≠ variants.length then .error .valueError
  else if ¬ (vm.map Prod.snd).Nodup then .error .valueError
  else if (vm.map Prod.snd).any (fun c => decide (c ∈ decoders)) then .error .valueError
  else .ok (vm, decoders ++ vm.map Prod.snd)

theorem foldl_max_le_self : ∀ (l : List Nat) (a : Nat), a ≤ l.foldl Nat.max a := by
  intro l
  induction l with
  | nil => intro a; simp
  | cons b rest ih =>
    intro a
    simp only [List.foldl_cons]
    exact le_trans (Nat.le_max_left a b) (ih (Nat.max a b))

theorem foldl_max_mem_le : ∀ (l : List Nat) (a : Nat), ∀ x ∈ l, x ≤ l.foldl Nat.max a := by
  intro l
  induction l with
  | nil => intro a x hx; simp at hx
  | cons b rest ih =>
    intro a x hx
    simp only [List.mem_cons] at hx
    rcases hx with rfl | hx
    · exact le_trans (Nat.le_max_right a x) (foldl_max_le_self rest (Nat.max a x))
    · exact ih (Nat.max a b) x hx

/-! # Embedding of `Schema.define_structure` (single-type call)

Python dict keys may be of any hashable type; the source deletes
`by_name[struct_def[0]]` where `struct_def[0]` is the *class* (the
`encode_type` slot of the `StructDefinition` tuple), not the stored wire
name, so the key space mixes strings and classes. -/

inductive NameVal where
  | nstr (s : List Nat)
  | nty (sid : Nat)
  deriving DecidableEq, Repr

/-- The `StructDefinition` named tuple: slot 0 is `encode_type`. -/
structure StructDefn where
  encodeType : Nat
  decodeType : Nat
  structName : NameVal
  fields : List (List Nat)
  deriving DecidableEq, Repr

structure StructTables where
  byType : List (Nat × StructDefn)
  byName : List (NameVal × StructDefn)
  deriving DecidableEq, Repr

def adel {α β : Type} [DecidableEq α] : List (α × β) → α → List (α × β)
  | [], _ => []
  | (k, v) :: rest, key => if key = k then rest else (k, v) :: adel rest key

/-- Embedding of the `eval_name` closure for the type being defined:
an explicit string name wins; otherwise an already-defined type yields
`new_structures_by_type[type_class][0]` — the *class*, not its name —
and only an unknown type falls back to `type_class.__name__`. -/
def eval_name (tb : StructTables) (sid : Nat) (pyname : List Nat)
    (name : Option (List Nat)) : NameVal :=
  match name with
  | some s => .nstr s
  | none =>
    match alookup tb.byType sid with
    | some sd => .nty sd.encodeType
    | none => .nstr pyname

/-- Embedding of `Schema.define_structure` for a call defining the single
type `sid` with the given field names: when the type is already defined
under a different name the source does
`del new_structures_by_name[new_structures_by_type[new_type][0]]`, a
delete keyed by the class, raising KeyError when absent; a wire-name
collision raises ValueError; otherwise both tables are updated. -/
def define_structure (tb : StructTables) (sid : Nat) (pyname : List Nat)
    (fields : List (List Nat)) (name : Option (List Nat)) : Except PyErr StructTables :=
  let newName := eval_name tb sid pyname name
  let step1 : Except PyErr (List (NameVal × StructDefn)) :=
    match alookup tb.byType sid with
    | some sd =>
      if newName ≠ .nty sd.encodeType then
        if (alookup tb.byName (.nty sd.encodeType)).isSome then
          .ok (adel tb.byName (.nty sd.encodeType))
        else .error .keyError
      else .ok tb.byName
    | none => .ok tb.byName
  step1.bind fun byName1 =>
    if (alookup byName1 newName).isSome then .error .valueError
    else .ok ⟨aupd tb.byType sid ⟨sid, sid, newName, fields⟩,
              aupd byName1 newName ⟨sid, sid, newName, fields⟩⟩

/-! # Claim theorems for the varint, integer, decimal and schema layers -/

/-- C2: the varint encoder writes exactly the boundary table —
00 -> 00, 7F -> 7F, 80 -> 80 80, 3FFF -> BF FF, 4000 -> C0 00 40 00,
1FFFFFFF -> DF FF FF FF, 20000000 -> E0 00 00 00 20 00 00 00,
0FFFFFFFFFFFFFFF -> EF FF FF FF FF FF FF FF — and for every value of
2^60 and above it raises the out-of-range ValueError before writing
anything. -/
theorem varint_boundary_exact :
    encode_variable_int 0x00 = .ok [0x00] ∧
    encode_variable_int 0x7F = .ok [0x7F] ∧
    encode_variable_int 0x80 = .ok [0x80, 0x80] ∧
    encode_variable_int 0x3FFF = .ok [0xBF, 0xFF] ∧
    encode_variable_int 0x4000 = .ok [0xC0, 0x00, 0x40, 0x00] ∧
    encode_variable_int 0x1FFFFFFF = .ok [0xDF, 0xFF, 0xFF, 0xFF] ∧
    encode_variable_int 0x20000000 = .ok [0xE0, 0x00, 0x00, 0x00, 0x20, 0x00, 0x00, 0x00] ∧
    encode_variable_int 0x0FFFFFFFFFFFFFFF =
      .ok [0xEF, 0xFF, 0xFF, 0xFF, 0xFF, 0xFF, 0xFF, 0xFF] ∧
    ∀ v : Nat, 2 ^ 60 ≤ v → encode_variable_int v = .error .valueError := by
  refine ⟨rfl, rfl, rfl, rfl, rfl, rfl, rfl, rfl, ?_⟩
  intro v hv
  unfold encode_variable_int
  rw [if_neg (by omega), if_neg (by omega), if_neg (by omega), if_neg (by omega)]

/-- Witness for C2 at the first failing value 2^60. -/
theorem varint_boundary_exact_witness :
    encode_variable_int 0x1000000000000000 = .error .valueError :=
  varint_boundary_exact.2.2.2.2.2.2.2.2 0x1000000000000000 (by norm_num)

/-- C3: the modular decoder masks the width prefix, so the non-minimal
two-byte varint 80 00 decodes to 0; the duplicated single-file decoder
keeps the prefix bits and returns 0x8000 for the very same bytes, so the
claimed tolerance does not hold for both copies. -/
theorem varint_nonminimal_copies_diverge :
    decode_variable_int [0x80, 0x00] = .ok (0, []) ∧
    ms_decode_variable_int [0x80, 0x00] = .ok (0x8000, []) ∧
    (0x8000 : Nat) ≠ 0 :=
  ⟨rfl, rfl, by omega⟩

/-- C6 counterexample: the value 0 has bit length 0, giving
`length = int(7/8) = 0`, which falls through the 1- and 2-byte tests to
the `length <= 4` branch: 0 is encoded with the 4-byte variant, not the
claimed 1-byte variant. -/
theorem int_smallest_width_counterexample :
    int_select_variant 0 = (VKey.kInt 4, false) ∧
    int_select_variant 0 ≠ (VKey.kInt 1, false) :=
  ⟨rfl, by decide⟩

/-- C6 (amended): for non-negative integers, `select_variant` picks the
smallest sufficient width among 1/2/4/8 bytes (big with back-references
above 8 bytes) for every positive value, while the value 0 is encoded
with the 4-byte variant. -/
theorem int_smallest_width_amended (n : Nat) :
    int_select_variant n =
      (if n = 0 then (VKey.kInt 4, false)
       else if n < 2 ^ 8 then (VKey.kInt 1, false)
       else if n < 2 ^ 16 then (VKey.kInt 2, false)
       else if n < 2 ^ 32 then (VKey.kInt 4, false)
       else if n < 2 ^ 64 then (VKey.kInt 8, false)
       else (VKey.kEllipsis, true)) := by
  by_cases h0 : n = 0
  · subst h0
    rfl
  · rw [if_neg h0]
    exact int_select_variant_pos n (by omega)

/-- C7 counterexample: the digit map of `DecimalEncoder` sends the
characters 0..9 to nibbles 0..9 and the period to 10 — not 1..10 and 11 —
so the six characters of "1.2345" pack to 1A 23 45, not the claimed
12 34 5B. -/
theorem decimal_wire_counterexample :
    decimalEncodePayload ⟨false, [1, 2, 3, 4, 5], -4⟩ = .ok [6, 0x1A, 0x23, 0x45] ∧
    ([6, 0x1A, 0x23, 0x45] : List Nat) ≠ [6, 0x12, 0x34, 0x5B] :=
  ⟨rfl, by decide⟩

/-- C7 (amended): the decimal codec packs the digit characters two
nibbles per byte, high first, under the map 0..9 -> 0..9 and period -> 10
with low-nibble padding 0x0F for an odd count, so decimal 1.2345 writes
varint 6 then 1A 23 45; on decode a nibble above 10 is a parse error
unless it is a low (or first-of-byte high) nibble 0x0F, which silently
ends the digits; stream-safe decimals round-trip exactly. -/
theorem decimal_wire_amended :
    (∀ c : Nat, 48 ≤ c → c < 58 → decDigitCode c = .ok (c - 48)) ∧
    decDigitCode 46 = .ok 10 ∧
    decimalEncodePayload ⟨false, [1, 2, 3, 4, 5], -4⟩ = .ok [6, 0x1A, 0x23, 0x45] ∧
    unpackNibbles [0x2F] = .ok [50] ∧
    unpackNibbles [0x1B] = .error .parseError ∧
    unpackNibbles [0xFF] = .ok [] ∧
    ∀ d, decOkForStream d → ∃ B, decimalEncodePayload d = .ok B ∧
      ∀ rest, decimalDecodePayload d.sign (B ++ rest) = .ok (d, rest) := by
  refine ⟨?_, rfl, rfl, rfl, rfl, rfl, decimal_payload_roundtrip⟩
  intro c h1 h2
  unfold decDigitCode
  rw [if_neg (by omega), if_pos ⟨h1, h2⟩]

/-- Witness for C7 on the decimal 0.5 and digit character 7. -/
theorem decimal_wire_amended_witness :
    decDigitCode 55 = .ok 7 ∧
    ∃ B, decimalEncodePayload ⟨false, [5], -1⟩ = .ok B ∧
      decimalDecodePayload false (B ++ []) = .ok (⟨false, [5], -1⟩, []) := by
  obtain ⟨hmap, -, -, -, -, -, hrt⟩ := decimal_wire_amended
  obtain ⟨B, hB, hdec⟩ := hrt ⟨false, [5], -1⟩ (by decide)
  exact ⟨hmap 55 (by decide) (by decide), B, hB, hdec []⟩

/-- C9 counterexample: `add_type` with two control codes supplied for a
one-variant codec does not fail — `dict(zip(...))` silently drops the
surplus code 41 — contradicting that it fails exactly when the count
differs from the variant count. -/
theorem add_type_surplus_counterexample :
    add_type [9] [VKey.kNone] (some [40, 41]) = .ok ([(VKey.kNone, 40)], [9, 40]) :=
  rfl

/-- C9 (amended): with control codes omitted, `add_type` assigns the
variants the contiguous run starting at max(existing codes)+1, or at 9
when the schema has none; with an explicit list it fails exactly when the
list is shorter than the variant count, or its first variant-count
entries repeat or collide with an existing code — surplus entries beyond
the variant count are silently ignored. -/
theorem add_type_amended (decoders : List Nat) (variants : List VKey) (cs : List Nat)
    (hvar : variants.Nodup) :
    (add_type decoders variants none =
      .ok (variants.zip (List.range' (autoStart decoders) variants.length),
        decoders ++ List.range' (autoStart decoders) variants.length)) ∧
    (add_type decoders variants (some cs) =
      if variants.length ≤ cs.length ∧ (cs.take variants.length).Nodup ∧
          ∀ c ∈ cs.take variants.length, c ∉ decoders
      then .ok (variants.zip cs, decoders ++ cs.take variants.length)
      else .error .valueError) := by
  have hstart : ∀ c ∈ decoders, c < autoStart decoders := by
    cases decoders with
    | nil => intro c hc; simp at hc
    | cons d ds =>
      intro c hc
      simp only [List.mem_cons] at hc
      show c < ds.foldl Nat.max d + 1
      rcases hc with rfl | hc
      · have := foldl_max_le_self ds c
        omega
      · have := foldl_max_mem_le ds d c hc
        omega
  have hauto : add_type decoders variants none =
      add_type decoders variants
        (some (List.range' (autoStart decoders) variants.length)) := rfl
  have core : ∀ codes : List Nat,
      add_type decoders variants (some codes) =
        if variants.length ≤ codes.length ∧ (codes.take variants.length).Nodup ∧
            ∀ c ∈ codes.take variants.length, c ∉ decoders
        then .ok (variants.zip codes, decoders ++ codes.take variants.length)
        else .error .valueError := by
    intro codes
    simp only [add_type]
    rw [dictZip_nodup variants codes hvar, map_snd_zip_take]
    by_cases hlen : variants.length ≤ codes.length
    · have hz : (variants.zip codes).length = variants.length := zip_length_of_le _ _ hlen
      rw [if_neg (by omega)]
      by_cases hnd : (codes.take variants.length).Nodup
      · rw [if_neg (fun h => h hnd)]
        by_cases hcol : ∃ c ∈ codes.take variants.length, c ∈ decoders
        · rw [if_pos (by simpa [List.any_eq_true] using hcol)]
          rw [if_neg ?_]
          intro h
          obtain ⟨c, hc1, hc2⟩ := hcol
          exact h.2.2 c hc1 hc2
        · rw [if_neg (by simpa [List.any_eq_true] using hcol)]
          push_neg at hcol
          rw [if_pos ⟨hlen, hnd, hcol⟩]
      · rw [if_pos (fun h => hnd h), if_neg (fun h => hnd h.2.1)]
    · have hz : (variants.zip codes).length = codes.length := zip_length_lt _ _ (by omega)
      rw [if_pos (by omega), if_neg (fun h => hlen h.1)]
  have hcol2 : ∀ c ∈ List.range' (autoStart decoders) variants.length, c ∉ decoders := by
    intro c hc hmem
    rw [List.mem_range'_1] at hc
    have := hstart c hmem
    omega
  refine ⟨?_, core cs⟩
  rw [hauto, core (List.range' (autoStart decoders) variants.length)]
  rw [List.take_of_length_le (by simp)]
  rw [if_pos ⟨by simp, List.nodup_range' _ variants.length 1 (by norm_num), hcol2⟩]

/-- Witness for C9: two sentinel variants over a schema holding codes
9 and 10 get the contiguous run 11, 12; supplying the colliding list
[10, 11] fails. -/
theorem add_type_amended_witness :
    add_type [9, 10] [VKey.kNone, VKey.kEllipsis] none =
      .ok ([(VKey.kNone, 11), (VKey.kEllipsis, 12)], [9, 10, 11, 12]) ∧
    add_type [9, 10] [VKey.kNone, VKey.kEllipsis] (some [10, 11]) = .error .valueError := by
  have h := add_type_amended [9, 10] [VKey.kNone, VKey.kEllipsis] [10, 11] (by decide)
  exact ⟨h.1.trans rfl, h.2.trans (if_neg (by decide))⟩

/-- C8: `define_structure` rejects a second type claiming an existing
wire name with ValueError, but re-defining an already-defined type under
a new name does not succeed and remove the old entry: the source deletes
`by_name[struct_def[0]]`, keyed by the *class* (slot 0 of the
`StructDefinition` tuple) instead of the stored wire name, which raises
KeyError, so the promised re-naming always fails on a type defined under
an explicit name. -/
theorem define_structure_rename_bug :
    define_structure ⟨[], []⟩ 0 [84] [[120]] (some [79, 108, 100]) =
      .ok ⟨[(0, ⟨0, 0, .nstr [79, 108, 100], [[120]]⟩)],
           [(.nstr [79, 108, 100], ⟨0, 0, .nstr [79, 108, 100], [[120]]⟩)]⟩ ∧
    define_structure ⟨[(0, ⟨0, 0, .nstr [79, 108, 100], [[120]]⟩)],
        [(.nstr [79, 108, 100], ⟨0, 0, .nstr [79, 108, 100], [[120]]⟩)]⟩
      1 [85] [[121]] (some [79, 108, 100]) = .error .valueError ∧
    define_structure ⟨[(0, ⟨0, 0, .nstr [79, 108, 100], [[120]]⟩)],
        [(.nstr [79, 108, 100], ⟨0, 0, .nstr [79, 108, 100], [[120]]⟩)]⟩
      0 [84] [[120]] (some [78, 101, 119]) = .error .keyError :=
  ⟨rfl, rfl, rfl⟩

/-! # The value model

Python object graphs restricted to trees over the kinds registered in the
default schema, with explicit object identities (`id(value)`) on every
node.  Container contents are spine constructors of the same inductive so
that all recursion over values is plain structural recursion: `onil` /
`ocons` build the element spine of tuples, lists, sets and the field
values of records, `odnil` / `odcons` the key-value spine of dicts.
A float is carried as the 64-bit pattern `struct.Struct('d')` packs. -/

inductive Obj where
  | oskip (oid : Nat)
  | onone (oid : Nat)
  | oellipsis (oid : Nat)
  | obool (oid : Nat) (b : Bool)
  | oint (oid : Nat) (n : Nat)
  | obytes (oid : Nat) (bs : List Nat)
  | ostr (oid : Nat) (s : List Nat)
  | ofloat (oid : Nat) (bits : Nat)
  | odec (oid : Nat) (d : PyDecimal)
  | odt (oid : Nat) (dt : PyDatetime)
  | otuple (oid : Nat) (xs : Obj)
  | olist (oid : Nat) (xs : Obj)
  | oset (oid : Nat) (xs : Obj)
  | odict (oid : Nat) (xs : Obj)
  | ostruct (oid : Nat) (sid : Nat) (xs : Obj)
  | onil
  | ocons (hd : Obj) (tl : Obj)
  | odnil
  | odcons (k : Obj) (v : Obj) (tl : Obj)
  deriving DecidableEq, Repr

/-- Decoded values: what `decode_object` returns, with no identities.
`vstruct` is a host record rebuilt through a known schema entry (its
field values in wire order); `vmap` is the generic dict fallback for an
unknown record type. -/
inductive Val where
  | vskip
  | vnone
  | vellipsis
  | vbool (b : Bool)
  | vint (n : Nat)
  | vbytes (bs : List Nat)
  | vstr (s : List Nat)
  | vfloat (bits : Nat)
  | vdec (d : PyDecimal)
  | vdt (dt : PyDatetime)
  | vtuple (xs : List Val)
  | vlist (xs : List Val)
  | vset (xs : List Val)
  | vdict (xs : List (Val × Val))
  | vstruct (sid : Nat) (xs : List Val)
  | vmap (name : List Nat) (fields : List (List Nat × Val))

def Val.isSkip : Val → Bool
  | .vskip => true
  | _ => false

/-- Value, element-spine and pair-spine erasure of an object tree, in one
structurally recursive pass (the first component is meaningful on value
nodes, the second on `onil`/`ocons` spines, the third on `odnil`/`odcons`
spines). -/
def eraseB : Obj → Val × List Val × List (Val × Val)
  | .oskip _ => (.vskip, [], [])
  | .onone _ => (.vnone, [], [])
  | .oellipsis _ => (.vellipsis, [], [])
  | .obool _ b => (.vbool b, [], [])
  | .oint _ n => (.vint n, [], [])
  | .obytes _ bs => (.vbytes bs, [], [])
  | .ostr _ s => (.vstr s, [], [])
  | .ofloat _ bits => (.vfloat bits, [], [])
  | .odec _ d => (.vdec d, [], [])
  | .odt _ dt => (.vdt dt, [], [])
  | .otuple _ xs => (.vtuple (eraseB xs).2.1, [], [])
  | .olist _ xs => (.vlist (eraseB xs).2.1, [], [])
  | .oset _ xs => (.vset (eraseB xs).2.1, [], [])
  | .odict _ xs => (.vdict (eraseB xs).2.2, [], [])
  | .ostruct _ sid xs => (.vstruct sid (eraseB xs).2.1, [], [])
  | .onil => (.vnone, [], [])
  | .ocons a tl => (.vnone, (eraseB a).1 :: (eraseB tl).2.1, [])
  | .odnil => (.vnone, [], [])
  | .odcons k v tl => (.vnone, [], ((eraseB k).1, (eraseB v).1) :: (eraseB tl).2.2)

def erase (v : Obj) : Val := (eraseB v).1

def eraseL (v : Obj) : List Val := (eraseB v).2.1

def eraseP (v : Obj) : List (Val × Val) := (eraseB v).2.2

/-- `len(value)` of a container: the length of its spine. -/
def objLen : Obj → Nat
  | .ocons _ tl => objLen tl + 1
  | .odcons _ _ tl => objLen tl + 1
  | _ => 0

/-- `id(value)` of a value node (spine nodes carry no identity). -/
def oidOf : Obj → Nat
  | .oskip i => i
  | .onone i => i
  | .oellipsis i => i
  | .obool i _ => i
  | .oint i _ => i
  | .obytes i _ => i
  | .ostr i _ => i
  | .ofloat i _ => i
  | .odec i _ => i
  | .odt i _ => i
  | .otuple i _ => i
  | .olist i _ => i
  | .oset i _ => i
  | .odict i _ => i
  | .ostruct i _ _ => i
  | .onil => 0
  | .ocons _ _ => 0
  | .odnil => 0
  | .odcons _ _ _ => 0

/-- The `allow_backref` flag `select_variant` returns for a value of each
kind: single-variant encoders except the sentinels support
back-references, integers only in the big variant, strings only in the
length-prefixed variant. -/
def backrefOk : Obj → Bool
  | .oint _ n => decide (8 < (7 + pyBitLength n) / 8)
  | .obytes _ _ => true
  | .ostr _ s => decide (2 ≤ s.length)
  | .ofloat _ _ => true
  | .odt _ _ => true
  | .otuple _ _ => true
  | .olist _ _ => true
  | .oset _ _ => true
  | .odict _ _ => true
  | .ostruct _ _ _ => true
  | _ => false

/-- Structural size (number of nodes). -/
def objSize : Obj → Nat
  | .otuple _ xs => objSize xs + 1
  | .olist _ xs => objSize xs + 1
  | .oset _ xs => objSize xs + 1
  | .odict _ xs => objSize xs + 1
  | .ostruct _ _ xs => objSize xs + 1
  | .ocons a tl => objSize a + objSize tl + 1
  | .odcons k v tl => objSize k + objSize v + objSize tl + 1
  | _ => 1

/-- Every value node of the tree (the node itself included); spine nodes
contribute their members. -/
def subObjs : Obj → List Obj
  | .otuple i xs => .otuple i xs :: subObjs xs
  | .olist i xs => .olist i xs :: subObjs xs
  | .oset i xs => .oset i xs :: subObjs xs
  | .odict i xs => .odict i xs :: subObjs xs
  | .ostruct i s xs => .ostruct i s xs :: subObjs xs
  | .ocons a tl => subObjs a ++ subObjs tl
  | .odcons k v tl => subObjs k ++ subObjs v ++ subObjs tl
  | .onil => []
  | .odnil => []
  | v => [v]

/-- Identity coherence of a tree: `id` determines the object, as it does
in a Python object graph. -/
def Coherent (R : Obj) : Prop :=
  ∀ u ∈ subObjs R, ∀ w ∈ subObjs R, oidOf u = oidOf w → u = w

instance (R : Obj) : Decidable (Coherent R) := by
  unfold Coherent
  infer_instance

/-- List-spine test (`onil`-terminated `ocons` chain). -/
def isLSpine : Obj → Bool
  | .onil => true
  | .ocons _ tl => isLSpine tl
  | _ => false

/-- Pair-spine test (`odnil`-terminated `odcons` chain). -/
def isPSpine : Obj → Bool
  | .odnil => true
  | .odcons _ _ tl => isPSpine tl
  | _ => false

/-- No direct element of a record's field spine is the SKIP sentinel. -/
def spineNoSkip : Obj → Bool
  | .ocons (.oskip _) _ => false
  | .ocons _ tl => spineNoSkip tl
  | _ => true

/-- A value node (everything except the four spine constructors). -/
def isValObj : Obj → Bool
  | .onil => false
  | .ocons _ _ => false
  | .odnil => false
  | .odcons _ _ _ => false
  | _ => true

/-- The Bool form of the timestamp well-formedness `dtOkForStream`. -/
def dtOkB (db : TzDb) (d : PyDatetime) : Bool :=
  decide (validDate d.fields.year d.fields.month d.fields.day) &&
  decide (dtTimeRangesOk d.fields) &&
  decide (d.fields.micro < 1000000) &&
  (match d.tz with
   | .tzNone => true
   | .tzFixed o => decide (o.natAbs < 86400)
   | .tzIana name o =>
     db.isTz name && decide (o.natAbs < 86400) &&
       decide (3 ≤ d.fields.year) && decide (d.fields.year ≤ 9997) &&
       decide (db.offset name (dtInstant d.fields - o) = o) &&
       decide (∀ c ∈ name, isScalar c) && decide ((utf8Bytes name).length < 2 ^ 60))

theorem dtOkB_sound (db : TzDb) (d : PyDatetime) (h : dtOkB db d = true) :
    dtOkForStream db d := by
  unfold dtOkB at h
  unfold dtOkForStream
  rcases d with ⟨f, tz⟩
  rcases tz with _ | o | ⟨name, o⟩ <;>
    simp only [Bool.and_eq_true, decide_eq_true_eq] at h <;>
    simp only <;>
    tauto

/-- Well-formedness of a value for the default schema extended with the
given structure table: every leaf is within its codec's reproducible
class, containers have encodable lengths and proper spines, records are
in the schema with matching field counts and no SKIP field values. -/
def wfObj (db : TzDb) (structs : List (Nat × List Nat × List (List Nat))) : Obj → Bool
  | .oskip _ => true
  | .onone _ => true
  | .oellipsis _ => true
  | .obool _ _ => true
  | .oint _ n => decide ((7 + pyBitLength n) / 8 < 2 ^ 60)
  | .obytes _ bs => bs.all (fun b => decide (b < 256)) && decide (bs.length < 2 ^ 60)
  | .ostr _ s => decide (∀ c ∈ s, isScalar c) && decide ((utf8Bytes s).length < 2 ^ 60)
  | .ofloat _ bits => decide (bits < 2 ^ 64)
  | .odec _ d => decide (decOkForStream d)
  | .odt _ dt => dtOkB db dt
  | .otuple _ xs => isLSpine xs && decide (objLen xs < 2 ^ 60) && wfObj db structs xs
  | .olist _ xs => isLSpine xs && decide (objLen xs < 2 ^ 60) && wfObj db structs xs
  | .oset _ xs => isLSpine xs && decide (objLen xs < 2 ^ 60) && wfObj db structs xs
  | .odict _ xs => isPSpine xs && decide (objLen xs < 2 ^ 60) && wfObj db structs xs
  | .ostruct _ sid xs =>
    (match alookup structs sid with
     | some nf => decide (objLen xs = nf.2.length)
     | none => false) &&
      isLSpine xs && spineNoSkip xs && wfObj db structs xs
  | .onil => true
  | .ocons a tl => isValObj a && wfObj db structs a && wfObj db structs tl
  | .odnil => true
  | .odcons k v tl => isValObj k && isValObj v &&
      wfObj db structs k && wfObj db structs v && wfObj db structs tl

/-! # The encoder context

State of an `EncoderContext` writing one stream: the write position
(`tell()`), the back-reference dict `id -> position`, the control codes
allocated so far to declared structures, and `_max_control_code` (31
after the default registrations).  `encObj` returns the bytes a call
writes together with the updated state. -/

structure EncSt where
  pos : Nat
  backrefs : List (Nat × Nat)
  structCodes : List (Nat × Nat)
  maxCode : Nat
  deriving DecidableEq, Repr

def advance (st : EncSt) (n : Nat) : EncSt := { st with pos := st.pos + n }

/-- `_encode_back_reference`: the control code 1 (always the single byte
01) followed by the varint offset from the current position back to the
recorded one. -/
def backrefBytes (p pos : Nat) : Except PyErr (List Nat) :=
  (encode_variable_int (pos - p)).map fun ob => 1 :: ob

/-- Lookup of a structure by wire name (`_structures_in_schema` of the
decoder is keyed by name). -/
def slookupName (structs : List (Nat × List Nat × List (List Nat))) (name : List Nat) :
    Option (Nat × List (List Nat)) :=
  match structs with
  | [] => none
  | (sid, n, fs) :: rest =>
    if n = name then some (sid, fs) else slookupName rest name

/-- The field strings of a declaration, in order. -/
def encStrList : List (List Nat) → Except PyErr (List Nat)
  | [] => .ok []
  | f :: rest =>
    (encode_string f).bind fun fb =>
      (encStrList rest).map fun rb => fb ++ rb

/-- Bytes of `_declare_structure`: varint 0, the struct name, the variant
count 1, the allocated control code, the encoding of the single variant
value `None` (its control code 10), the field count, then the field
names. -/
def declBytes (name : List Nat) (code : Nat) (fields : List (List Nat)) :
    Except PyErr (List Nat) :=
  (encode_string name).bind fun nb =>
  (encode_variable_int code).bind fun cb =>
  (encode_variable_int fields.length).bind fun fb =>
  (encStrList fields).map fun fsb =>
    0 :: nb ++ 1 :: cb ++ 10 :: fb ++ fsb

/-- Embedding of `EncoderContext.encode_object` over the default schema
plus the given structure table: dispatch on the value's type, choose the
variant, write a back-reference when the identity was already written and
the variant allows it, otherwise write the control code and payload and
record back-referable identities; an unregistered record type is declared
first. -/
def encObj (db : TzDb) (structs : List (Nat × List Nat × List (List Nat))) :
    Obj → EncSt → Except PyErr (List Nat × EncSt)
  | .oskip _, st => .ok ([9], advance st 1)
  | .onone _, st => .ok ([10], advance st 1)
  | .oellipsis _, st => .ok ([11], advance st 1)
  | .obool _ b, st => .ok ([if b then 13 else 12], advance st 1)
  | .oint i n, st =>
    if (7 + pyBitLength n) / 8 = 1 then
      .ok (14 :: toBytesBE 1 n, advance st 2)
    else if (7 + pyBitLength n) / 8 = 2 then
      .ok (15 :: toBytesBE 2 n, advance st 3)
    else if (7 + pyBitLength n) / 8 ≤ 4 then
      .ok (16 :: toBytesBE 4 n, advance st 5)
    else if (7 + pyBitLength n) / 8 ≤ 8 then
      .ok (17 :: toBytesBE 8 n, advance st 9)
    else
      match alookup st.backrefs i with
      | some p => (backrefBytes p st.pos).map fun b => (b, advance st b.length)
      | none =>
        (encode_variable_int ((7 + pyBitLength n) / 8)).map fun lb =>
          (18 :: lb ++ toBytesBE ((7 + pyBitLength n) / 8) n,
           { advance st (1 + lb.length + (7 + pyBitLength n) / 8) with
             backrefs := (i, st.pos) :: st.backrefs })
  | .obytes i bs, st =>
    match alookup st.backrefs i with
    | some p => (backrefBytes p st.pos).map fun b => (b, advance st b.length)
    | none =>
      (encode_variable_int bs.length).map fun lb =>
        (19 :: lb ++ bs,
         { advance st (1 + lb.length + bs.length) with
           backrefs := (i, st.pos) :: st.backrefs })
  | .ostr i s, st =>
    if s.length = 0 then .ok ([21], advance st 1)
    else if s.length = 1 then
      (pyStrEncodeUtf8 s).map fun content =>
        (20 :: content, advance st (1 + content.length))
    else
      match alookup st.backrefs i with
      | some p => (backrefBytes p st.pos).map fun b => (b, advance st b.length)
      | none =>
        (encode_string s).map fun sb =>
          (22 :: sb,
           { advance st (1 + sb.length) with
             backrefs := (i, st.pos) :: st.backrefs })
  | .ofloat i bits, st =>
    match alookup st.backrefs i with
    | some p => (backrefBytes p st.pos).map fun b => (b, advance st b.length)
    | none =>
      .ok (23 :: toBytesBE 8 bits,
        { advance st 9 with backrefs := (i, st.pos) :: st.backrefs })
  | .odec _ d, st =>
    (decimalEncodePayload d).map fun pb =>
      ((if decLtZero d then 25 else 24) :: pb, advance st (1 + pb.length))
  | .odt i dt, st =>
    match alookup st.backrefs i with
    | some p => (backrefBytes p st.pos).map fun b => (b, advance st b.length)
    | none =>
      (datetimeEncodePayload db dt).map fun pb =>
        ((if dt_select_iana db dt then 27 else 26) :: pb,
         { advance st (1 + pb.length) with
           backrefs := (i, st.pos) :: st.backrefs })
  | .otuple i xs, st =>
    match alookup st.backrefs i with
    | some p => (backrefBytes p st.pos).map fun b => (b, advance st b.length)
    | none =>
      (encode_variable_int (objLen xs)).bind fun lb =>
      (encObj db structs xs (advance st (1 + lb.length))).map fun r =>
        (28 :: lb ++ r.1, { r.2 with backrefs := (i, st.pos) :: r.2.backrefs })
  | .olist i xs, st =>
    match alookup st.backrefs i with
    | some p => (backrefBytes p st.pos).map fun b => (b, advance st b.length)
    | none =>
      (encode_variable_int (objLen xs)).bind fun lb =>
      (encObj db structs xs (advance st (1 + lb.length))).map fun r =>
        (29 :: lb ++ r.1, { r.2 with backrefs := (i, st.pos) :: r.2.backrefs })
  | .oset i xs, st =>
    match alookup st.backrefs i with
    | some p => (backrefBytes p st.pos).map fun b => (b, advance st b.length)
    | none =>
      (encode_variable_int (objLen xs)).bind fun lb =>
      (encObj db structs xs (advance st (1 + lb.length))).map fun r =>
        (30 :: lb ++ r.1, { r.2 with backrefs := (i, st.pos) :: r.2.backrefs })
  | .odict i xs, st =>
    match alookup st.backrefs i with
    | some p => (backrefBytes p st.pos).map fun b => (b, advance st b.length)
    | none =>
      (encode_variable_int (objLen xs)).bind fun lb =>
      (encObj db structs xs (advance st (1 + lb.length))).map fun r =>
        (31 :: lb ++ r.1, { r.2 with backrefs := (i, st.pos) :: r.2.backrefs })
  | .ostruct i sid xs, st =>
    match alookup st.structCodes sid with
    | some code =>
      match alookup st.backrefs i with
      | some p => (backrefBytes p st.pos).map fun b => (b, advance st b.length)
      | none =>
        (encode_variable_int code).bind fun cb =>
        (encObj db structs xs (advance st cb.length)).map fun r =>
          (cb ++ r.1, { r.2 with backrefs := (i, st.pos) :: r.2.backrefs })
    | none =>
      match alookup structs sid with
      | none => .error .valueError
      | some nf =>
        (declBytes nf.1 (st.maxCode + 1) nf.2).bind fun dcl =>
        let st1 : EncSt :=
          { advance st dcl.length with
            structCodes := (sid, st.maxCode + 1) :: st.structCodes,
            maxCode := st.maxCode + 1 }
        (encode_variable_int (st.maxCode + 1)).bind fun cb =>
        (encObj db structs xs (advance st1 cb.length)).map fun r =>
          (dcl ++ cb ++ r.1, { r.2 with backrefs := (i, st1.pos) :: r.2.backrefs })
  | .onil, st => .ok ([], st)
  | .ocons a tl, st =>
    (encObj db structs a st).bind fun ra =>
    (encObj db structs tl ra.2).map fun rt => (ra.1 ++ rt.1, rt.2)
  | .odnil, st => .ok ([], st)
  | .odcons k v tl, st =>
    (encObj db structs k st).bind fun rk =>
    (encObj db structs v rk.2).bind fun rv =>
    (encObj db structs tl rv.2).map fun rt => (rk.1 ++ rv.1 ++ rt.1, rt.2)

/-! # The decoder context

State of a `DecoderContext`: the read position (`tell()`), the
back-reference dict `position -> value`, and the control codes gained
from inline structure declarations.  All recursion is fueled; every
recursive call decreases the fuel, and a fuel of 0 yields the sentinel
error `fuelExhausted` (the source's recursion has no such bound; the
round-trip theorems supply sufficient fuel). -/

inductive StructCodec where
  | known (sid : Nat) (targets : List (List Nat))
  | generic (name : List Nat) (fields : List (List Nat))

structure DecSt where
  pos : Nat
  backrefs : List (Nat × Val)
  codeTable : List (Nat × StructCodec)

def dadv (st : DecSt) (n : Nat) : DecSt := { st with pos := st.pos + n }

/-- Reading the declared field names. -/
def readStrings : Nat → List Nat → Except PyErr (List (List Nat) × List Nat)
  | 0, rem => .ok ([], rem)
  | n + 1, rem =>
    (decode_string rem).bind fun sr =>
      (readStrings n sr.2).map fun rr => (sr.1 :: rr.1, rr.2)

/-- `expected_fields[f]` for each declared wire field: a wire field
missing from the schema's definition raises KeyError. -/
def matchFields (schemaFields : List (List Nat)) : List (List Nat) → Except PyErr (List (List Nat))
  | [] => .ok []
  | f :: rest =>
    if f ∈ schemaFields then (matchFields schemaFields rest).map fun ts => f :: ts
    else .error .keyError

mutual

/-- Embedding of `DecoderContext.decode_object` (`eof_okay=False`): read
the control code; a declaration installs a decoder and loops; a
back-reference resolves against the recorded position; anything else
dispatches on the code, and the result is recorded at the object's start
position. -/
def decodeObjF (db : TzDb) (structsD : List (Nat × List Nat × List (List Nat))) :
    Nat → Bool → List Nat → DecSt → Except PyErr (Val × List Nat × DecSt)
  | 0, _, _, _ => .error .fuelExhausted
  | fuel + 1, tdo, rem, st =>
    (decode_variable_int rem).bind fun cr =>
    if cr.1 = 0 then
      if tdo then
        (declDecode db structsD fuel cr.2 (dadv st (rem.length - cr.2.length))).bind fun r =>
          decodeObjF db structsD fuel tdo r.1 r.2
      else .error .parseError
    else if cr.1 = 1 then
      (decode_variable_int cr.2).bind fun orr =>
        match alookup st.backrefs (st.pos - orr.1) with
        | some v => .ok (v, orr.2, dadv st (rem.length - orr.2.length))
        | none => .error .parseError
    else
      (decodePayload db structsD fuel cr.1 cr.2 (dadv st (rem.length - cr.2.length))).map
        fun r => (r.1, r.2.1, { r.2.2 with backrefs := (st.pos, r.1) :: r.2.2.backrefs })

/-- Dispatch on a non-structural control code of the default schema, or
on a structure decoder installed by a declaration. -/
def decodePayload (db : TzDb) (structsD : List (Nat × List Nat × List (List Nat))) :
    Nat → Nat → List Nat → DecSt → Except PyErr (Val × List Nat × DecSt)
  | 0, _, _, _ => .error .fuelExhausted
  | fuel + 1, code, rem, st =>
    if code = 9 then .ok (.vskip, rem, st)
    else if code = 10 then .ok (.vnone, rem, st)
    else if code = 11 then .ok (.vellipsis, rem, st)
    else if code = 12 then .ok (.vbool false, rem, st)
    else if code = 13 then .ok (.vbool true, rem, st)
    else if code = 14 then
      (readN 1 rem).map fun br => (.vint (fromBytesBE br.1), br.2, dadv st 1)
    else if code = 15 then
      (readN 2 rem).map fun br => (.vint (fromBytesBE br.1), br.2, dadv st 2)
    else if code = 16 then
      (readN 4 rem).map fun br => (.vint (fromBytesBE br.1), br.2, dadv st 4)
    else if code = 17 then
      (readN 8 rem).map fun br => (.vint (fromBytesBE br.1), br.2, dadv st 8)
    else if code = 18 then
      (decode_variable_int rem).bind fun lr =>
      (readN lr.1 lr.2).map fun br =>
        (.vint (fromBytesBE br.1), br.2, dadv st (rem.length - br.2.length))
    else if code = 19 then
      (decode_variable_int rem).bind fun lr =>
      (readN lr.1 lr.2).map fun br =>
        (.vbytes br.1, br.2, dadv st (rem.length - br.2.length))
    else if code = 20 then
      (readN 1 rem).bind fun br =>
      let b0 := br.1.headD 0
      (if b0 < 0x80 then .ok ([b0], br.2)
       else if b0 < 0xC0 then .error .parseError
       else if b0 < 0xE0 then (readN 1 br.2).map fun br2 => (b0 :: br2.1, br2.2)
       else if b0 < 0xF0 then (readN 2 br.2).map fun br2 => (b0 :: br2.1, br2.2)
       else if b0 < 0xF8 then (readN 3 br.2).map fun br2 => (b0 :: br2.1, br2.2)
       else .error .parseError).bind fun cr =>
      (utf8Decode cr.1).map fun s =>
        (.vstr s, cr.2, dadv st (rem.length - cr.2.length))
    else if code = 21 then .ok (.vstr [], rem, st)
    else if code = 22 then
      (decode_string rem).map fun sr =>
        (.vstr sr.1, sr.2, dadv st (rem.length - sr.2.length))
    else if code = 23 then
      (readN 8 rem).map fun br => (.vfloat (fromBytesBE br.1), br.2, dadv st 8)
    else if code = 24 then
      (decimalDecodePayload false rem).map fun dr =>
        (.vdec dr.1, dr.2, dadv st (rem.length - dr.2.length))
    else if code = 25 then
      (decimalDecodePayload true rem).map fun dr =>
        (.vdec dr.1, dr.2, dadv st (rem.length - dr.2.length))
    else if code = 26 then
      (datetimeDecodePayload db false rem).map fun dr =>
        (.vdt dr.1, dr.2, dadv st (rem.length - dr.2.length))
    else if code = 27 then
      (datetimeDecodePayload db true rem).map fun dr =>
        (.vdt dr.1, dr.2, dadv st (rem.length - dr.2.length))
    else if code = 28 then
      (decode_variable_int rem).bind fun nr =>
      (decodeManyF db structsD fuel nr.1 nr.2 (dadv st (rem.length - nr.2.length))).map fun r =>
        (.vtuple r.1, r.2)
    else if code = 29 then
      (decode_variable_int rem).bind fun nr =>
      (decodeManyF db structsD fuel nr.1 nr.2 (dadv st (rem.length - nr.2.length))).map fun r =>
        (.vlist r.1, r.2)
    else if code = 30 then
      (decode_variable_int rem).bind fun nr =>
      (decodeManyF db structsD fuel nr.1 nr.2 (dadv st (rem.length - nr.2.length))).map fun r =>
        (.vset r.1, r.2)
    else if code = 31 then
      (decode_variable_int rem).bind fun nr =>
      (decodePairsF db structsD fuel nr.1 nr.2 (dadv st (rem.length - nr.2.length))).map fun r =>
        (.vdict r.1, r.2)
    else
      match alookup st.codeTable code with
      | some (.known sid targets) =>
        (decodeManyF db structsD fuel targets.length rem st).bind fun r =>
          if r.1.any Val.isSkip then .error .typeError
          else .ok (.vstruct sid r.1, r.2)
      | some (.generic name fields) =>
        (decodeManyF db structsD fuel fields.length rem st).map fun r =>
          (.vmap name ((List.zip fields r.1).filter fun p => ! p.2.isSkip), r.2)
      | none => .error (.unknownControlCode code)

/-- `_declare_structure` of the decoder: read the name, the variant list
(control code and variant value pairs), and the field names; match the
fields against the schema entry of that name, or fall back to a generic
dict decoder when the name is unknown; install the decoder under each
declared control code. -/
def declDecode (db : TzDb) (structsD : List (Nat × List Nat × List (List Nat))) :
    Nat → List Nat → DecSt → Except PyErr (List Nat × DecSt)
  | 0, _, _ => .error .fuelExhausted
  | fuel + 1, rem, st =>
    (decode_string rem).bind fun nr =>
    (decode_variable_int nr.2).bind fun vcr =>
    (decodeVariantsF db structsD fuel vcr.1 vcr.2
        (dadv st (rem.length - vcr.2.length))).bind fun vr =>
    (decode_variable_int vr.2.1).bind fun fcr =>
    (readStrings fcr.1 fcr.2).bind fun fr =>
    (match slookupName structsD nr.1 with
     | some sf => (matchFields sf.2 fr.1).map fun ts => StructCodec.known sf.1 ts
     | none => .ok (StructCodec.generic nr.1 fr.1)).map fun codec =>
      (fr.2,
       { dadv vr.2.2 (vr.2.1.length - fr.2.length) with
         codeTable := vr.1.foldl
           (fun (tbl : List (Nat × StructCodec)) (cv : Nat × Val) => aupd tbl cv.1 codec)
           vr.2.2.codeTable })

/-- The declaration's variant list: pairs of a varint control code and a
variant value decoded with `type_def_okay=False`. -/
def decodeVariantsF (db : TzDb) (structsD : List (Nat × List Nat × List (List Nat))) :
    Nat → Nat → List Nat → DecSt → Except PyErr (List (Nat × Val) × List Nat × DecSt)
  | 0, _, _, _ => .error .fuelExhausted
  | _ + 1, 0, rem, st => .ok ([], rem, st)
  | fuel + 1, n + 1, rem, st =>
    (decode_variable_int rem).bind fun cr =>
    (decodeObjF db structsD fuel false cr.2 (dadv st (rem.length - cr.2.length))).bind fun vr =>
    (decodeVariantsF db structsD fuel n vr.2.1 vr.2.2).map fun rr =>
      ((cr.1, vr.1) :: rr.1, rr.2)

/-- A counted run of `decode_object()` calls, as the sequence, set and
struct decoders perform. -/
def decodeManyF (db : TzDb) (structsD : List (Nat × List Nat × List (List Nat))) :
    Nat → Nat → List Nat → DecSt → Except PyErr (List Val × List Nat × DecSt)
  | 0, _, _, _ => .error .fuelExhausted
  | _ + 1, 0, rem, st => .ok ([], rem, st)
  | fuel + 1, n + 1, rem, st =>
    (decodeObjF db structsD fuel true rem st).bind fun vr =>
    (decodeManyF db structsD fuel n vr.2.1 vr.2.2).map fun rr => (vr.1 :: rr.1, rr.2)

/-- A counted run of key-value pairs, as the dict decoder performs. -/
def decodePairsF (db : TzDb) (structsD : List (Nat × List Nat × List (List Nat))) :
    Nat → Nat → List Nat → DecSt → Except PyErr (List (Val × Val) × List Nat × DecSt)
  | 0, _, _, _ => .error .fuelExhausted
  | _ + 1, 0, rem, st => .ok ([], rem, st)
  | fuel + 1, n + 1, rem, st =>
    (decodeObjF db structsD fuel true rem st).bind fun kr =>
    (decodeObjF db structsD fuel true kr.2.1 kr.2.2).bind fun vr =>
    (decodePairsF db structsD fuel n vr.2.1 vr.2.2).map fun rr =>
      ((kr.1, vr.1) :: rr.1, rr.2)

end

/-! # Support lemmas for the context synchronization -/

theorem alookup_eq_none {α β : Type} [DecidableEq α] :
    ∀ (m : List (α × β)) (k : α), alookup m k = none ↔ k ∉ m.map Prod.fst := by
  intro m k
  induction m with
  | nil => simp [alookup]
  | cons p rest ih =>
    unfold alookup
    by_cases hk : k = p.1
    · rw [if_pos hk]
      simp [hk]
    · rw [if_neg hk]
      simp [hk, ih]

theorem alookup_mem {α β : Type} [DecidableEq α] :
    ∀ (m : List (α × β)) (k : α) (v : β), alookup m k = some v → (k, v) ∈ m := by
  intro m k v
  induction m with
  | nil => intro h; simp [alookup] at h
  | cons p rest ih =>
    unfold alookup
    by_cases hk : k = p.1
    · rw [if_pos hk]
      intro h
      cases h
      simp [hk]
    · rw [if_neg hk]
      intro h
      simp [ih h]

theorem alookup_aupd_self {α β : Type} [DecidableEq α] :
    ∀ (m : List (α × β)) (k : α) (v : β), alookup (aupd m k v) k = some v := by
  intro m k v
  induction m with
  | nil => simp [aupd, alookup]
  | cons p rest ih =>
    unfold aupd
    by_cases hk : k = p.1
    · rw [if_pos hk]
      unfold alookup
      rw [if_pos hk]
    · rw [if_neg hk]
      unfold alookup
      rw [if_neg hk]
      exact ih

theorem alookup_aupd_ne {α β : Type} [DecidableEq α] :
    ∀ (m : List (α × β)) (k k2 : α) (v : β), k2 ≠ k →
      alookup (aupd m k v) k2 = alookup m k2 := by
  intro m k k2 v hne
  induction m with
  | nil => simp [aupd, alookup, if_neg hne]
  | cons p rest ih =>
    unfold aupd
    by_cases hk : k = p.1
    · rw [if_pos hk]
      unfold alookup
      rw [if_neg (by rw [← hk]; exact hne), if_neg (by rw [← hk]; exact hne)]
    · rw [if_neg hk]
      unfold alookup
      by_cases hk2 : k2 = p.1
      · rw [if_pos hk2, if_pos hk2]
      · rw [if_neg hk2, if_neg hk2]
        exact ih

theorem subObjs_trans : ∀ (R u w : Obj), u ∈ subObjs R → w ∈ subObjs u → w ∈ subObjs R := by
  intro R
  induction R with
  | otuple i xs ih =>
    intro u w hu hw
    simp only [subObjs, List.mem_cons] at hu ⊢
    rcases hu with rfl | hu
    · simp only [subObjs, List.mem_cons] at hw
      exact hw
    · exact Or.inr (ih u w hu hw)
  | olist i xs ih =>
    intro u w hu hw
    simp only [subObjs, List.mem_cons] at hu ⊢
    rcases hu with rfl | hu
    · simp only [subObjs, List.mem_cons] at hw
      exact hw
    · exact Or.inr (ih u w hu hw)
  | oset i xs ih =>
    intro u w hu hw
    simp only [subObjs, List.mem_cons] at hu ⊢
    rcases hu with rfl | hu
    · simp only [subObjs, List.mem_cons] at hw
      exact hw
    · exact Or.inr (ih u w hu hw)
  | odict i xs ih =>
    intro u w hu hw
    simp only [subObjs, List.mem_cons] at hu ⊢
    rcases hu with rfl | hu
    · simp only [subObjs, List.mem_cons] at hw
      exact hw
    · exact Or.inr (ih u w hu hw)
  | ostruct i sid xs ih =>
    intro u w hu hw
    simp only [subObjs, List.mem_cons] at hu ⊢
    rcases hu with rfl | hu
    · simp only [subObjs, List.mem_cons] at hw
      exact hw
    · exact Or.inr (ih u w hu hw)
  | ocons a tl iha ihtl =>
    intro u w hu hw
    simp only [subObjs, List.mem_append] at hu ⊢
    rcases hu with hu | hu
    · exact Or.inl (iha u w hu hw)
    · exact Or.inr (ihtl u w hu hw)
  | odcons k v tl ihk ihv ihtl =>
    intro u w hu hw
    simp only [subObjs, List.mem_append] at hu ⊢
    rcases hu with (hu | hu) | hu
    · exact Or.inl (Or.inl (ihk u w hu hw))
    · exact Or.inl (Or.inr (ihv u w hu hw))
    · exact Or.inr (ihtl u w hu hw)
  | onil =>
    intro u w hu hw
    simp [subObjs] at hu
  | odnil =>
    intro u w hu hw
    simp [subObjs] at hu
  | oskip i =>
    intro u w hu hw
    simp only [subObjs, List.mem_singleton] at hu
    subst hu
    exact hw
  | onone i =>
    intro u w hu hw
    simp only [subObjs, List.mem_singleton] at hu
    subst hu
    exact hw
  | oellipsis i =>
    intro u w hu hw
    simp only [subObjs, List.mem_singleton] at hu
    subst hu
    exact hw
  | obool i b =>
    intro u w hu hw
    simp only [subObjs, List.mem_singleton] at hu
    subst hu
    exact hw
  | oint i n =>
    intro u w hu hw
    simp only [subObjs, List.mem_singleton] at hu
    subst hu
    exact hw
  | obytes i bs =>
    intro u w hu hw
    simp only [subObjs, List.mem_singleton] at hu
    subst hu
    exact hw
  | ostr i s =>
    intro u w hu hw
    simp only [subObjs, List.mem_singleton] at hu
    subst hu
    exact hw
  | ofloat i bits =>
    intro u w hu hw
    simp only [subObjs, List.mem_singleton] at hu
    subst hu
    exact hw
  | odec i d =>
    intro u w hu hw
    simp only [subObjs, List.mem_singleton] at hu
    subst hu
    exact hw
  | odt i dt =>
    intro u w hu hw
    simp only [subObjs, List.mem_singleton] at hu
    subst hu
    exact hw

/-- Erasing a non-SKIP value node never yields the SKIP sentinel. -/
theorem eraseL_no_skip : ∀ xs : Obj, isLSpine xs = true → spineNoSkip xs = true →
    (eraseL xs).any Val.isSkip = false := by
  intro xs
  induction xs with
  | ocons a tl iha ihtl =>
    intro hL hS
    have hLt : isLSpine tl = true := hL
    have hSt : spineNoSkip tl = true := by
      cases a <;> first
        | exact hS
        | (exfalso; exact absurd hS (by simp [spineNoSkip]))
    have htl := ihtl hLt hSt
    have hhd : (erase a).isSkip = false := by
      cases a <;> first
        | rfl
        | (exfalso; exact absurd hS (by simp [spineNoSkip]))
    show ((erase a :: eraseL tl).any Val.isSkip) = false
    simp only [List.any_cons, htl, hhd, Bool.or_false]
  | onil => intro _ _; rfl
  | odnil => intro h _; cases h
  | odcons k v tl ihk ihv ihtl => intro h; cases h
  | oskip i => intro h; cases h
  | onone i => intro h; cases h
  | oellipsis i => intro h; cases h
  | obool i b => intro h; cases h
  | oint i n => intro h; cases h
  | obytes i bs => intro h; cases h
  | ostr i s => intro h; cases h
  | ofloat i bits => intro h; cases h
  | odec i d => intro h; cases h
  | odt i dt => intro h; cases h
  | otuple i xs ih => intro h; cases h
  | olist i xs ih => intro h; cases h
  | oset i xs ih => intro h; cases h
  | odict i xs ih => intro h; cases h
  | ostruct i sid xs ih => intro h; cases h

/-- Decoding inverts `encode_string` whenever the encoding succeeded. -/
theorem decode_string_of_encode (s B : List Nat) (h : encode_string s = .ok B) :
    ∀ rest, decode_string (B ++ rest) = .ok (s, rest) := by
  unfold encode_string pyStrEncodeUtf8 at h
  by_cases hs : ∀ c ∈ s, isScalar c
  · rw [if_pos hs] at h
    simp only [ok_bind] at h
    cases hlb : encode_variable_int (utf8Bytes s).length with
    | error e => rw [hlb] at h; cases h
    | ok lb =>
      rw [hlb] at h
      simp only [Except.map] at h
      cases h
      intro rest
      unfold decode_string
      rw [List.append_assoc, decode_variable_int_encode _ _ _ hlb]
      simp only [ok_bind, readN_exact, utf8Decode_utf8Bytes s hs, ok_map]
  · rw [if_neg hs] at h
    cases h

theorem readStrings_encStrList : ∀ (fs : List (List Nat)) (B : List Nat),
    encStrList fs = .ok B → ∀ rest, readStrings fs.length (B ++ rest) = .ok (fs, rest) := by
  intro fs
  induction fs with
  | nil =>
    intro B h rest
    unfold encStrList at h
    cases h
    rfl
  | cons f rest2 ih =>
    intro B h rest
    unfold encStrList at h
    cases hfb : encode_string f with
    | error e => rw [hfb] at h; cases h
    | ok fb =>
      rw [hfb] at h
      simp only [ok_bind] at h
      cases hrb : encStrList rest2 with
      | error e => rw [hrb] at h; cases h
      | ok rb =>
        rw [hrb] at h
        simp only [ok_map] at h
        cases h
        show readStrings (rest2.length + 1) ((fb ++ rb) ++ rest) = _
        unfold readStrings
        rw [List.append_assoc, decode_string_of_encode f fb hfb]
        simp only [ok_bind, ih rb hrb rest, ok_map]

theorem matchFields_self (fs : List (List Nat)) :
    ∀ fs2 : List (List Nat), (∀ f ∈ fs2, f ∈ fs) → matchFields fs fs2 = .ok fs2 := by
  intro fs2
  induction fs2 with
  | nil => intro _; rfl
  | cons f rest ih =>
    intro h
    unfold matchFields
    rw [if_pos (h f (by simp))]
    rw [ih (fun g hg => h g (by simp [hg]))]
    rfl

theorem slookupName_of_mem : ∀ (structs : List (Nat × List Nat × List (List Nat)))
    (sid : Nat) (name : List Nat) (fields : List (List Nat)),
    (sid, name, fields) ∈ structs → (structs.map (fun s => s.2.1)).Nodup →
    slookupName structs name = some (sid, fields) := by
  intro structs
  induction structs with
  | nil => intro sid name fields h _; simp at h
  | cons p rest ih =>
    intro sid name fields hmem hnd
    obtain ⟨psid, pname, pfields⟩ := p
    simp only [List.mem_cons] at hmem
    simp only [List.map_cons, List.nodup_cons] at hnd
    unfold slookupName
    rcases hmem with heq | hmem
    · cases heq
      rw [if_pos rfl]
    · rw [if_neg ?_]
      · exact ih sid name fields hmem hnd.2
      · intro heq
        subst heq
        exact hnd.1 (by
          refine List.mem_map.mpr ⟨(sid, pname, fields), hmem, rfl⟩)

/-! # The encoder/decoder synchronization invariant -/

/-- Well-formedness of a structure table shared by encoder and decoder:
distinct type ids, distinct wire names, and encodable names and field
names. -/
def wfStructs (structs : List (Nat × List Nat × List (List Nat))) : Prop :=
  (structs.map Prod.fst).Nodup ∧ (structs.map (fun s => s.2.1)).Nodup ∧
  ∀ s ∈ structs, (∀ c ∈ s.2.1, isScalar c) ∧ (utf8Bytes s.2.1).length < 2 ^ 60 ∧
    s.2.2.length < 2 ^ 60 ∧ ∀ f ∈ s.2.2, (∀ c ∈ f, isScalar c) ∧ (utf8Bytes f).length < 2 ^ 60

/-- The relation between an encoder state and a decoder state reading the
encoder's output, relative to the root object `R` being encoded: the
positions agree; every structure code the encoder allocated is above the
default range, at most `_max_control_code`, in the schema, and installed
in the decoder's table; and every recorded back-reference points strictly
backwards to a position where the decoder stored the erasure of the
back-referable subobject carrying that identity. -/
def SyncInv (structs : List (Nat × List Nat × List (List Nat))) (R : Obj)
    (est : EncSt) (dst : DecSt) : Prop :=
  dst.pos = est.pos ∧
  31 ≤ est.maxCode ∧
  (∀ p ∈ est.structCodes, 31 < p.2 ∧ p.2 ≤ est.maxCode ∧
    ∃ nf, alookup structs p.1 = some nf ∧
      alookup dst.codeTable p.2 = some (.known p.1 nf.2)) ∧
  (∀ q ∈ est.backrefs, q.2 < est.pos ∧
    ∃ w, w ∈ subObjs R ∧ oidOf w = q.1 ∧ backrefOk w = true ∧
      alookup dst.backrefs q.2 = some (erase w)) ∧
  (∀ q ∈ dst.backrefs, q.1 < dst.pos)

/-- Soundness of one object: a successful encoding decodes back to the
erasure, consuming exactly the produced bytes, for every sufficient fuel,
preserving the invariant. -/
def PObj (db : TzDb) (structs : List (Nat × List Nat × List (List Nat))) (R v : Obj) : Prop :=
  ∀ est dst B est2, wfObj db structs v = true → v ∈ subObjs R →
    encObj db structs v est = .ok (B, est2) → SyncInv structs R est dst →
    1 ≤ B.length ∧ est2.pos = est.pos + B.length ∧
    ∃ dst2, SyncInv structs R est2 dst2 ∧
      (∀ q ∈ dst2.backrefs, q ∈ dst.backrefs ∨ dst.pos ≤ q.1) ∧
      ∀ fuel, 5 * B.length + 2 ≤ fuel → ∀ rest,
        decodeObjF db structs fuel true (B ++ rest) dst = .ok (erase v, rest, dst2)

/-- Soundness of an element spine under `decodeManyF`. -/
def PSpine (db : TzDb) (structs : List (Nat × List Nat × List (List Nat))) (R v : Obj) : Prop :=
  isLSpine v = true →
  ∀ est dst B est2, wfObj db structs v = true → (∀ u ∈ subObjs v, u ∈ subObjs R) →
    encObj db structs v est = .ok (B, est2) → SyncInv structs R est dst →
    est2.pos = est.pos + B.length ∧
    ∃ dst2, SyncInv structs R est2 dst2 ∧
      (∀ q ∈ dst2.backrefs, q ∈ dst.backrefs ∨ dst.pos ≤ q.1) ∧
      ∀ fuel, 5 * B.length + 3 ≤ fuel → ∀ rest,
        decodeManyF db structs fuel (objLen v) (B ++ rest) dst = .ok (eraseL v, rest, dst2)

/-- Soundness of a key-value spine under `decodePairsF`. -/
def PPSpine (db : TzDb) (structs : List (Nat × List Nat × List (List Nat))) (R v : Obj) : Prop :=
  isPSpine v = true →
  ∀ est dst B est2, wfObj db structs v = true → (∀ u ∈ subObjs v, u ∈ subObjs R) →
    encObj db structs v est = .ok (B, est2) → SyncInv structs R est dst →
    est2.pos = est.pos + B.length ∧
    ∃ dst2, SyncInv structs R est2 dst2 ∧
      (∀ q ∈ dst2.backrefs, q ∈ dst.backrefs ∨ dst.pos ≤ q.1) ∧
      ∀ fuel, 5 * B.length + 3 ≤ fuel → ∀ rest,
        decodePairsF db structs fuel (objLen v) (B ++ rest) dst = .ok (eraseP v, rest, dst2)

theorem decode_variable_int_small (c : Nat) (tail : List Nat) (hc : c < 0x80) :
    decode_variable_int (c :: tail) = .ok (c, tail) := by
  simp only [decode_variable_int]
  rw [if_pos hc]

/-- Unfolding of `decode_object` on an ordinary control code. -/
theorem decodeObjF_code (db : TzDb) (s : List (Nat × List Nat × List (List Nat)))
    (f : Nat) (tdo : Bool) (c : Nat) (tail : List Nat) (dst : DecSt)
    (h0 : c ≠ 0) (h1 : c ≠ 1) (hc : c < 0x80) :
    decodeObjF db s (f + 1) tdo (c :: tail) dst =
      (decodePayload db s f c tail (dadv dst 1)).map fun r =>
        (r.1, r.2.1, { r.2.2 with backrefs := (dst.pos, r.1) :: r.2.2.backrefs }) := by
  simp only [decodeObjF, decode_variable_int_small c tail hc, ok_bind]
  rw [if_neg h0, if_neg h1]
  have hl : (c :: tail).length - tail.length = 1 := by simp
  rw [hl]

/-- Unfolding of `decode_object` on the declaration code 0. -/
theorem decodeObjF_zero (db : TzDb) (s : List (Nat × List Nat × List (List Nat)))
    (f : Nat) (tail : List Nat) (dst : DecSt) :
    decodeObjF db s (f + 1) true (0 :: tail) dst =
      (declDecode db s f tail (dadv dst 1)).bind fun r =>
        decodeObjF db s f true r.1 r.2 := by
  simp only [decodeObjF, decode_variable_int_small 0 tail (by norm_num), ok_bind]
  simp only [if_true]
  have hl : ((0 : Nat) :: tail).length - tail.length = 1 := by simp
  rw [hl]

/-- Unfolding of `decode_object` on the back-reference code 1. -/
theorem decodeObjF_backref (db : TzDb) (s : List (Nat × List Nat × List (List Nat)))
    (f : Nat) (tail : List Nat) (dst : DecSt) :
    decodeObjF db s (f + 1) true (1 :: tail) dst =
      (decode_variable_int tail).bind fun orr =>
        match alookup dst.backrefs (dst.pos - orr.1) with
        | some v => .ok (v, orr.2, dadv dst ((1 :: tail).length - orr.2.length))
        | none => .error .parseError := by
  simp only [decodeObjF, decode_variable_int_small 1 tail (by norm_num), ok_bind]
  norm_num

/-! ## Erasure and length equations -/

theorem erase_oskip (i : Nat) : erase (.oskip i) = .vskip := rfl

theorem erase_otuple (i : Nat) (xs : Obj) : erase (.otuple i xs) = .vtuple (eraseL xs) := rfl

theorem erase_olist (i : Nat) (xs : Obj) : erase (.olist i xs) = .vlist (eraseL xs) := rfl

theorem erase_oset (i : Nat) (xs : Obj) : erase (.oset i xs) = .vset (eraseL xs) := rfl

theorem erase_odict (i : Nat) (xs : Obj) : erase (.odict i xs) = .vdict (eraseP xs) := rfl

theorem erase_ostruct (i sid : Nat) (xs : Obj) :
    erase (.ostruct i sid xs) = .vstruct sid (eraseL xs) := rfl

theorem eraseL_onil : eraseL .onil = [] := rfl

theorem eraseL_ocons (a tl : Obj) : eraseL (.ocons a tl) = erase a :: eraseL tl := rfl

theorem eraseP_odnil : eraseP .odnil = [] := rfl

theorem eraseP_odcons (k v tl : Obj) :
    eraseP (.odcons k v tl) = (erase k, erase v) :: eraseP tl := rfl

/-! ## Invariant transport lemmas -/

/-- Stepping the invariant over a non-back-referable write of `n ≥ 1`
bytes: the decoder stores the value at the start position. -/
theorem inv_step_plain (structs : List (Nat × List Nat × List (List Nat))) (R : Obj)
    (est : EncSt) (dst : DecSt) (hinv : SyncInv structs R est dst)
    (n : Nat) (hn : 1 ≤ n) (val : Val) :
    SyncInv structs R (advance est n)
      ⟨dst.pos + n, (dst.pos, val) :: dst.backrefs, dst.codeTable⟩ := by
  obtain ⟨hpos, hmax, hsc, hbr, hdk⟩ := hinv
  refine ⟨by simp [advance, hpos], hmax, hsc, ?_, ?_⟩
  · intro q hq
    obtain ⟨hqlt, w, hw, hoid, hok, hlook⟩ := hbr q hq
    refine ⟨by simp [advance] <;> omega, w, hw, hoid, hok, ?_⟩
    show alookup ((dst.pos, val) :: dst.backrefs) q.2 = some (erase w)
    unfold alookup
    rw [if_neg (by omega), hlook]
  · intro q hq
    simp only [List.mem_cons] at hq
    rcases hq with rfl | hq
    · simp
      omega
    · have := hdk q hq
      simp
      omega

/-- Stepping the invariant over a back-referable write of `n ≥ 1` bytes:
both sides gain an entry at the start position. -/
theorem inv_step_backref (structs : List (Nat × List Nat × List (List Nat))) (R : Obj)
    (est : EncSt) (dst : DecSt) (hinv : SyncInv structs R est dst)
    (n : Nat) (hn : 1 ≤ n) (v : Obj) (hv : v ∈ subObjs R) (hok : backrefOk v = true) :
    SyncInv structs R
      { advance est n with backrefs := (oidOf v, est.pos) :: est.backrefs }
      ⟨dst.pos + n, (dst.pos, erase v) :: dst.backrefs, dst.codeTable⟩ := by
  obtain ⟨hpos, hmax, hsc, hbr, hdk⟩ := hinv
  refine ⟨by simp [advance, hpos], hmax, hsc, ?_, ?_⟩
  · intro q hq
    simp only [List.mem_cons] at hq
    rcases hq with rfl | hq
    · refine ⟨by simp [advance]; omega, v, hv, rfl, hok, ?_⟩
      show alookup ((dst.pos, erase v) :: dst.backrefs) est.pos = some (erase v)
      unfold alookup
      rw [if_pos (by omega)]
    · obtain ⟨hqlt, w, hw, hoid, hok2, hlook⟩ := hbr q hq
      refine ⟨by simp [advance]; omega, w, hw, hoid, hok2, ?_⟩
      show alookup ((dst.pos, erase v) :: dst.backrefs) q.2 = some (erase w)
      unfold alookup
      rw [if_neg (by omega), hlook]
  · intro q hq
    simp only [List.mem_cons] at hq
    rcases hq with rfl | hq
    · simp
      omega
    · have := hdk q hq
      simp
      omega

/-- Stepping the invariant over a pure advance (the back-reference hit:
the decoder stores nothing). -/
theorem inv_step_adv (structs : List (Nat × List Nat × List (List Nat))) (R : Obj)
    (est : EncSt) (dst : DecSt) (hinv : SyncInv structs R est dst) (n : Nat) :
    SyncInv structs R (advance est n) (dadv dst n) := by
  obtain ⟨hpos, hmax, hsc, hbr, hdk⟩ := hinv
  refine ⟨by simp [advance, dadv, hpos], hmax, hsc, ?_, ?_⟩
  · intro q hq
    obtain ⟨hqlt, hrest⟩ := hbr q hq
    exact ⟨by simp [advance]; omega, hrest⟩
  · intro q hq
    have := hdk q hq
    simp [dadv]
    omega

/-! ## Per-code unfoldings of the payload dispatch -/

theorem dp9 (db : TzDb) (s : List (Nat × List Nat × List (List Nat)))
    (f : Nat) (rem : List Nat) (st : DecSt) :
    decodePayload db s (f + 1) 9 rem st = .ok (.vskip, rem, st) := by
  simp only [decodePayload]
  norm_num

theorem dp10 (db : TzDb) (s : List (Nat × List Nat × List (List Nat)))
    (f : Nat) (rem : List Nat) (st : DecSt) :
    decodePayload db s (f + 1) 10 rem st = .ok (.vnone, rem, st) := by
  simp only [decodePayload]
  norm_num

theorem dp11 (db : TzDb) (s : List (Nat × List Nat × List (List Nat)))
    (f : Nat) (rem : List Nat) (st : DecSt) :
    decodePayload db s (f + 1) 11 rem st = .ok (.vellipsis, rem, st) := by
  simp only [decodePayload]
  norm_num

theorem dp12 (db : TzDb) (s : List (Nat × List Nat × List (List Nat)))
    (f : Nat) (rem : List Nat) (st : DecSt) :
    decodePayload db s (f + 1) 12 rem st = .ok (.vbool false, rem, st) := by
  simp only [decodePayload]
  norm_num

theorem dp13 (db : TzDb) (s : List (Nat × List Nat × List (List Nat)))
    (f : Nat) (rem : List Nat) (st : DecSt) :
    decodePayload db s (f + 1) 13 rem st = .ok (.vbool true, rem, st) := by
  simp only [decodePayload]
  norm_num

theorem dp14 (db : TzDb) (s : List (Nat × List Nat × List (List Nat)))
    (f : Nat) (rem : List Nat) (st : DecSt) :
    decodePayload db s (f + 1) 14 rem st = (readN 1 rem).map fun br => (.vint (fromBytesBE br.1), br.2, dadv st 1) := by
  simp only [decodePayload]
  norm_num

theorem dp15 (db : TzDb) (s : List (Nat × List Nat × List (List Nat)))
    (f : Nat) (rem : List Nat) (st : DecSt) :
    decodePayload db s (f + 1) 15 rem st = (readN 2 rem).map fun br => (.vint (fromBytesBE br.1), br.2, dadv st 2) := by
  simp only [decodePayload]
  norm_num

theorem dp16 (db : TzDb) (s : List (Nat × List Nat × List (List Nat)))
    (f : Nat) (rem : List Nat) (st : DecSt) :
    decodePayload db s (f + 1) 16 rem st = (readN 4 rem).map fun br => (.vint (fromBytesBE br.1), br.2, dadv st 4) := by
  simp only [decodePayload]
  norm_num

theorem dp17 (db : TzDb) (s : List (Nat × List Nat × List (List Nat)))
    (f : Nat) (rem : List Nat) (st : DecSt) :
    decodePayload db s (f + 1) 17 rem st = (readN 8 rem).map fun br => (.vint (fromBytesBE br.1), br.2, dadv st 8) := by
  simp only [decodePayload]
  norm_num

theorem dp18 (db : TzDb) (s : List (Nat × List Nat × List (List Nat)))
    (f : Nat) (rem : List Nat) (st : DecSt) :
    decodePayload db s (f + 1) 18 rem st = (decode_variable_int rem).bind fun lr =>
      (readN lr.1 lr.2).map fun br =>
        (.vint (fromBytesBE br.1), br.2, dadv st (rem.length - br.2.length)) := by
  simp only [decodePayload]
  norm_num

theorem dp19 (db : TzDb) (s : List (Nat × List Nat × List (List Nat)))
    (f : Nat) (rem : List Nat) (st : DecSt) :
    decodePayload db s (f + 1) 19 rem st = (decode_variable_int rem).bind fun lr =>
      (readN lr.1 lr.2).map fun br =>
        (.vbytes br.1, br.2, dadv st (rem.length - br.2.length)) := by
  simp only [decodePayload]
  norm_num

theorem dp20 (db : TzDb) (s : List (Nat × List Nat × List (List Nat)))
    (f : Nat) (rem : List Nat) (st : DecSt) :
    decodePayload db s (f + 1) 20 rem st = (readN 1 rem).bind fun br =>
      (if br.1.headD 0 < 0x80 then .ok ([br.1.headD 0], br.2)
       else if br.1.headD 0 < 0xC0 then .error .parseError
       else if br.1.headD 0 < 0xE0 then (readN 1 br.2).map fun br2 => (br.1.headD 0 :: br2.1, br2.2)
       else if br.1.headD 0 < 0xF0 then (readN 2 br.2).map fun br2 => (br.1.headD 0 :: br2.1, br2.2)
       else if br.1.headD 0 < 0xF8 then (readN 3 br.2).map fun br2 => (br.1.headD 0 :: br2.1, br2.2)
       else .error .parseError).bind fun cr =>
      (utf8Decode cr.1).map fun s2 =>
        (.vstr s2, cr.2, dadv st (rem.length - cr.2.length)) := by
  simp only [decodePayload]
  norm_num

theorem dp21 (db : TzDb) (s : List (Nat × List Nat × List (List Nat)))
    (f : Nat) (rem : List Nat) (st : DecSt) :
    decodePayload db s (f + 1) 21 rem st = .ok (.vstr [], rem, st) := by
  simp only [decodePayload]
  norm_num

theorem dp22 (db : TzDb) (s : List (Nat × List Nat × List (List Nat)))
    (f : Nat) (rem : List Nat) (st : DecSt) :
    decodePayload db s (f + 1) 22 rem st = (decode_string rem).map fun sr =>
      (.vstr sr.1, sr.2, dadv st (rem.length - sr.2.length)) := by
  simp only [decodePayload]
  norm_num

theorem dp23 (db : TzDb) (s : List (Nat × List Nat × List (List Nat)))
    (f : Nat) (rem : List Nat) (st : DecSt) :
    decodePayload db s (f + 1) 23 rem st = (readN 8 rem).map fun br => (.vfloat (fromBytesBE br.1), br.2, dadv st 8) := by
  simp only [decodePayload]
  norm_num

theorem dp24 (db : TzDb) (s : List (Nat × List Nat × List (List Nat)))
    (f : Nat) (rem : List Nat) (st : DecSt) :
    decodePayload db s (f + 1) 24 rem st = (decimalDecodePayload false rem).map fun dr =>
      (.vdec dr.1, dr.2, dadv st (rem.length - dr.2.length)) := by
  simp only [decodePayload]
  norm_num

theorem dp25 (db : TzDb) (s : List (Nat × List Nat × List (List Nat)))
    (f : Nat) (rem : List Nat) (st : DecSt) :
    decodePayload db s (f + 1) 25 rem st = (decimalDecodePayload true rem).map fun dr =>
      (.vdec dr.1, dr.2, dadv st (rem.length - dr.2.length)) := by
  simp only [decodePayload]
  norm_num

theorem dp26 (db : TzDb) (s : List (Nat × List Nat × List (List Nat)))
    (f : Nat) (rem : List Nat) (st : DecSt) :
    decodePayload db s (f + 1) 26 rem st = (datetimeDecodePayload db false rem).map fun dr =>
      (.vdt dr.1, dr.2, dadv st (rem.length - dr.2.length)) := by
  simp only [decodePayload]
  norm_num

theorem dp27 (db : TzDb) (s : List (Nat × List Nat × List (List Nat)))
    (f : Nat) (rem : List Nat) (st : DecSt) :
    decodePayload db s (f + 1) 27 rem st = (datetimeDecodePayload db true rem).map fun dr =>
      (.vdt dr.1, dr.2, dadv st (rem.length - dr.2.length)) := by
  simp only [decodePayload]
  norm_num

theorem dp28 (db : TzDb) (s : List (Nat × List Nat × List (List Nat)))
    (f : Nat) (rem : List Nat) (st : DecSt) :
    decodePayload db s (f + 1) 28 rem st = (decode_variable_int rem).bind fun nr =>
      (decodeManyF db s f nr.1 nr.2 (dadv st (rem.length - nr.2.length))).map fun r =>
        (.vtuple r.1, r.2) := by
  simp only [decodePayload]
  norm_num

theorem dp29 (db : TzDb) (s : List (Nat × List Nat × List (List Nat)))
    (f : Nat) (rem : List Nat) (st : DecSt) :
    decodePayload db s (f + 1) 29 rem st = (decode_variable_int rem).bind fun nr =>
      (decodeManyF db s f nr.1 nr.2 (dadv st (rem.length - nr.2.length))).map fun r =>
        (.vlist r.1, r.2) := by
  simp only [decodePayload]
  norm_num

theorem dp30 (db : TzDb) (s : List (Nat × List Nat × List (List Nat)))
    (f : Nat) (rem : List Nat) (st : DecSt) :
    decodePayload db s (f + 1) 30 rem st = (decode_variable_int rem).bind fun nr =>
      (decodeManyF db s f nr.1 nr.2 (dadv st (rem.length - nr.2.length))).map fun r =>
        (.vset r.1, r.2) := by
  simp only [decodePayload]
  norm_num

theorem dp31 (db : TzDb) (s : List (Nat × List Nat × List (List Nat)))
    (f : Nat) (rem : List Nat) (st : DecSt) :
    decodePayload db s (f + 1) 31 rem st = (decode_variable_int rem).bind fun nr =>
      (decodePairsF db s f nr.1 nr.2 (dadv st (rem.length - nr.2.length))).map fun r =>
        (.vdict r.1, r.2) := by
  simp only [decodePayload]
  norm_num

theorem dpTable (db : TzDb) (s : List (Nat × List Nat × List (List Nat)))
    (f : Nat) (code : Nat) (rem : List Nat) (st : DecSt) (hc : 31 < code) :
    decodePayload db s (f + 1) code rem st =
      (match alookup st.codeTable code with
       | some (.known sid targets) =>
         (decodeManyF db s f targets.length rem st).bind fun r =>
           if r.1.any Val.isSkip then .error .typeError
           else .ok (.vstruct sid r.1, r.2)
       | some (.generic name fields) =>
         (decodeManyF db s f fields.length rem st).map fun r =>
           (.vmap name ((List.zip fields r.1).filter fun p => ! p.2.isSkip), r.2)
       | none => .error (.unknownControlCode code)) := by
  simp only [decodePayload]
  iterate 23 rw [if_neg (by omega)]

/-! ## Concluding steps for the object cases -/

/-- Assemble the `PObj` conclusion for a non-back-referable leaf whose
payload decodes deterministically. -/
theorem pobj_leaf_conclude (db : TzDb) (structs : List (Nat × List Nat × List (List Nat)))
    (R v : Obj) (code : Nat) (payload : List Nat) (est : EncSt) (dst : DecSt)
    (hinv : SyncInv structs R est dst) (hc0 : 1 < code) (hcs : code < 0x80)
    (hdec : ∀ (f : Nat) (rest : List Nat) (dst2 : DecSt), 5 * (payload.length + 1) ≤ f + 1 →
      decodePayload db structs (f + 1) code (payload ++ rest) dst2 =
        .ok (erase v, rest, dadv dst2 payload.length)) :
    1 ≤ (code :: payload).length ∧
    (advance est (1 + payload.length)).pos = est.pos + (code :: payload).length ∧
    ∃ dst2, SyncInv structs R (advance est (1 + payload.length)) dst2 ∧
      (∀ q ∈ dst2.backrefs, q ∈ dst.backrefs ∨ dst.pos ≤ q.1) ∧
      ∀ fuel, 5 * (code :: payload).length + 2 ≤ fuel → ∀ rest,
        decodeObjF db structs fuel true ((code :: payload) ++ rest) dst =
          .ok (erase v, rest, dst2) := by
  refine ⟨by simp, by simp [advance]; omega, ?_⟩
  refine ⟨⟨dst.pos + (1 + payload.length), (dst.pos, erase v) :: dst.backrefs, dst.codeTable⟩,
    inv_step_plain structs R est dst hinv (1 + payload.length) (by omega) (erase v), ?_, ?_⟩
  · intro q hq
    rcases List.mem_cons.mp hq with rfl | hq
    · exact Or.inr (le_refl _)
    · exact Or.inl hq
  intro fuel hfuel rest
  obtain ⟨f2, rfl⟩ : ∃ k, fuel = k + 2 := ⟨fuel - 2, by omega⟩
  rw [show (code :: payload) ++ rest = code :: (payload ++ rest) from rfl]
  rw [decodeObjF_code db structs (f2 + 1) true code (payload ++ rest) dst
    (by omega) (by omega) hcs]
  rw [hdec f2 rest (dadv dst 1) (by simp at hfuel ⊢; omega)]
  simp only [ok_map, dadv]
  rw [show dst.pos + 1 + payload.length = dst.pos + (1 + payload.length) from by omega]

/-- Assemble the `PObj` conclusion for a back-referable value freshly
encoded (its identity was not yet recorded). -/
theorem pobj_leafref_conclude (db : TzDb) (structs : List (Nat × List Nat × List (List Nat)))
    (R v : Obj) (code : Nat) (payload : List Nat) (est : EncSt) (dst : DecSt)
    (hinv : SyncInv structs R est dst) (hc0 : 1 < code) (hcs : code < 0x80)
    (hok : backrefOk v = true) (hv : v ∈ subObjs R)
    (hdec : ∀ (f : Nat) (rest : List Nat) (dst2 : DecSt), 5 * (payload.length + 1) ≤ f + 1 →
      decodePayload db structs (f + 1) code (payload ++ rest) dst2 =
        .ok (erase v, rest, dadv dst2 payload.length)) :
    1 ≤ (code :: payload).length ∧
    ({ advance est (1 + payload.length) with
       backrefs := (oidOf v, est.pos) :: est.backrefs } : EncSt).pos =
      est.pos + (code :: payload).length ∧
    ∃ dst2, SyncInv structs R
        { advance est (1 + payload.length) with
          backrefs := (oidOf v, est.pos) :: est.backrefs } dst2 ∧
      (∀ q ∈ dst2.backrefs, q ∈ dst.backrefs ∨ dst.pos ≤ q.1) ∧
      ∀ fuel, 5 * (code :: payload).length + 2 ≤ fuel → ∀ rest,
        decodeObjF db structs fuel true ((code :: payload) ++ rest) dst =
          .ok (erase v, rest, dst2) := by
  refine ⟨by simp, by simp [advance]; omega, ?_⟩
  refine ⟨⟨dst.pos + (1 + payload.length), (dst.pos, erase v) :: dst.backrefs, dst.codeTable⟩,
    inv_step_backref structs R est dst hinv (1 + payload.length) (by omega) v hv hok, ?_, ?_⟩
  · intro q hq
    rcases List.mem_cons.mp hq with rfl | hq
    · exact Or.inr (le_refl _)
    · exact Or.inl hq
  intro fuel hfuel rest
  obtain ⟨f2, rfl⟩ : ∃ k, fuel = k + 2 := ⟨fuel - 2, by omega⟩
  rw [show (code :: payload) ++ rest = code :: (payload ++ rest) from rfl]
  rw [decodeObjF_code db structs (f2 + 1) true code (payload ++ rest) dst
    (by omega) (by omega) hcs]
  rw [hdec f2 rest (dadv dst 1) (by simp at hfuel ⊢; omega)]
  simp only [ok_map, dadv]
  rw [show dst.pos + 1 + payload.length = dst.pos + (1 + payload.length) from by omega]

/-- Assemble the `PObj` conclusion for a back-reference hit: the encoder
writes the control code 1 and the varint offset, the decoder resolves the
recorded erasure, and by identity coherence that erasure is the value's
own. -/
theorem pobj_backref_hit (db : TzDb) (structs : List (Nat × List Nat × List (List Nat)))
    (R v : Obj) (p : Nat) (est : EncSt) (dst : DecSt)
    (hinv : SyncInv structs R est dst) (hcoh : Coherent R) (hv : v ∈ subObjs R)
    (hlk : alookup est.backrefs (oidOf v) = some p)
    (ob : List Nat) (hob : encode_variable_int (est.pos - p) = .ok ob) :
    1 ≤ (1 :: ob).length ∧
    (advance est (1 :: ob).length).pos = est.pos + (1 :: ob).length ∧
    ∃ dst2, SyncInv structs R (advance est (1 :: ob).length) dst2 ∧
      (∀ q ∈ dst2.backrefs, q ∈ dst.backrefs ∨ dst.pos ≤ q.1) ∧
      ∀ fuel, 5 * (1 :: ob).length + 2 ≤ fuel → ∀ rest,
        decodeObjF db structs fuel true ((1 :: ob) ++ rest) dst =
          .ok (erase v, rest, dst2) := by
  obtain ⟨hpos, hmax, hsc, hbr, hdk⟩ := hinv
  obtain ⟨hplt, w, hw, hoid, hok, hlook⟩ := hbr (oidOf v, p) (alookup_mem _ _ _ hlk)
  have hwv : w = v := hcoh w hw v hv hoid
  subst hwv
  refine ⟨by simp, by simp [advance], ?_⟩
  refine ⟨dadv dst (1 :: ob).length,
    inv_step_adv structs R est dst ⟨hpos, hmax, hsc, hbr, hdk⟩ (1 :: ob).length,
    fun q hq => Or.inl hq, ?_⟩
  intro fuel hfuel rest
  obtain ⟨f2, rfl⟩ : ∃ k, fuel = k + 1 := ⟨fuel - 1, by omega⟩
  rw [show (1 :: ob) ++ rest = 1 :: (ob ++ rest) from rfl]
  rw [decodeObjF_backref db structs f2 (ob ++ rest) dst]
  rw [decode_variable_int_encode _ _ _ hob]
  simp only [ok_bind]
  rw [hpos, show est.pos - (est.pos - p) = p from by omega, hlook]
  have hlen : (1 :: (ob ++ rest)).length - rest.length = 1 + ob.length := by
    simp
    omega
  rw [hlen, show 1 + ob.length = (1 :: ob).length from by simp [Nat.add_comm]]

/-! ## The object cases: sentinels and booleans -/

theorem pobj_oskip (db : TzDb) (structs : List (Nat × List Nat × List (List Nat)))
    (R : Obj) (i : Nat) : PObj db structs R (.oskip i) := by
  intro est dst B est2 hwf hmem henc hinv
  simp only [encObj, Except.ok.injEq, Prod.mk.injEq] at henc
  obtain ⟨hB, hst⟩ := henc
  subst hB
  subst hst
  exact pobj_leaf_conclude db structs R (.oskip i) 9 [] est dst hinv (by omega) (by omega)
    (fun f rest dst2 hf => by rw [show ([] : List Nat) ++ rest = rest from rfl, dp9]; rfl)

theorem pobj_onone (db : TzDb) (structs : List (Nat × List Nat × List (List Nat)))
    (R : Obj) (i : Nat) : PObj db structs R (.onone i) := by
  intro est dst B est2 hwf hmem henc hinv
  simp only [encObj, Except.ok.injEq, Prod.mk.injEq] at henc
  obtain ⟨hB, hst⟩ := henc
  subst hB
  subst hst
  exact pobj_leaf_conclude db structs R (.onone i) 10 [] est dst hinv (by omega) (by omega)
    (fun f rest dst2 hf => by rw [show ([] : List Nat) ++ rest = rest from rfl, dp10]; rfl)

theorem pobj_oellipsis (db : TzDb) (structs : List (Nat × List Nat × List (List Nat)))
    (R : Obj) (i : Nat) : PObj db structs R (.oellipsis i) := by
  intro est dst B est2 hwf hmem henc hinv
  simp only [encObj, Except.ok.injEq, Prod.mk.injEq] at henc
  obtain ⟨hB, hst⟩ := henc
  subst hB
  subst hst
  exact pobj_leaf_conclude db structs R (.oellipsis i) 11 [] est dst hinv (by omega) (by omega)
    (fun f rest dst2 hf => by rw [show ([] : List Nat) ++ rest = rest from rfl, dp11]; rfl)

theorem pobj_obool (db : TzDb) (structs : List (Nat × List Nat × List (List Nat)))
    (R : Obj) (i : Nat) (b : Bool) : PObj db structs R (.obool i b) := by
  intro est dst B est2 hwf hmem henc hinv
  simp only [encObj, Except.ok.injEq, Prod.mk.injEq] at henc
  obtain ⟨hB, hst⟩ := henc
  subst hB
  subst hst
  cases b
  · exact pobj_leaf_conclude db structs R (.obool i false) 12 [] est dst hinv
      (by omega) (by omega)
      (fun f rest dst2 hf => by rw [show ([] : List Nat) ++ rest = rest from rfl, dp12]; rfl)
  · exact pobj_leaf_conclude db structs R (.obool i true) 13 [] est dst hinv
      (by omega) (by omega)
      (fun f rest dst2 hf => by rw [show ([] : List Nat) ++ rest = rest from rfl, dp13]; rfl)

theorem len_sub_rest (B rest : List Nat) : (B ++ rest).length - rest.length = B.length := by
  simp

theorem pow256_of_bitlen (n L : Nat) (h : pyBitLength n ≤ 8 * L) : n < 256 ^ L := by
  have h1 : n < 2 ^ pyBitLength n := (pyBitLength_le_iff n (pyBitLength n)).mp (le_refl _)
  have h2 : (2 : Nat) ^ pyBitLength n ≤ 2 ^ (8 * L) := Nat.pow_le_pow_right (by norm_num) h
  have h3 : (256 : Nat) ^ L = 2 ^ (8 * L) := by
    rw [show (256 : Nat) = 2 ^ 8 from rfl, ← pow_mul]
  omega

theorem pobj_oint (db : TzDb) (structs : List (Nat × List Nat × List (List Nat)))
    (R : Obj) (hcoh : Coherent R) (i n : Nat) : PObj db structs R (.oint i n) := by
  intro est dst B est2 hwf hmem henc hinv
  simp only [encObj] at henc
  by_cases hL1 : (7 + pyBitLength n) / 8 = 1
  · rw [if_pos hL1] at henc
    simp only [Except.ok.injEq, Prod.mk.injEq] at henc
    obtain ⟨hB, hst⟩ := henc
    subst hB
    subst hst
    refine pobj_leaf_conclude db structs R (.oint i n) 14 (toBytesBE 1 n) est dst hinv
      (by omega) (by omega) ?_
    intro f rest dst2 hf
    rw [dp14]
    have hr := readN_exact (toBytesBE 1 n) rest
    rw [toBytesBE_length] at hr
    rw [hr]
    simp only [ok_map]
    rw [fromBytesBE_toBytesBE 1 n (pow256_of_bitlen n 1 (by omega))]
    rfl
  · rw [if_neg hL1] at henc
    by_cases hL2 : (7 + pyBitLength n) / 8 = 2
    · rw [if_pos hL2] at henc
      simp only [Except.ok.injEq, Prod.mk.injEq] at henc
      obtain ⟨hB, hst⟩ := henc
      subst hB
      subst hst
      refine pobj_leaf_conclude db structs R (.oint i n) 15 (toBytesBE 2 n) est dst hinv
        (by omega) (by omega) ?_
      intro f rest dst2 hf
      rw [dp15]
      have hr := readN_exact (toBytesBE 2 n) rest
      rw [toBytesBE_length] at hr
      rw [hr]
      simp only [ok_map]
      rw [fromBytesBE_toBytesBE 2 n (pow256_of_bitlen n 2 (by omega))]
      rfl
    · rw [if_neg hL2] at henc
      by_cases hL4 : (7 + pyBitLength n) / 8 ≤ 4
      · rw [if_pos hL4] at henc
        simp only [Except.ok.injEq, Prod.mk.injEq] at henc
        obtain ⟨hB, hst⟩ := henc
        subst hB
        subst hst
        refine pobj_leaf_conclude db structs R (.oint i n) 16 (toBytesBE 4 n) est dst hinv
          (by omega) (by omega) ?_
        intro f rest dst2 hf
        rw [dp16]
        have hr := readN_exact (toBytesBE 4 n) rest
        rw [toBytesBE_length] at hr
        rw [hr]
        simp only [ok_map]
        rw [fromBytesBE_toBytesBE 4 n (pow256_of_bitlen n 4 (by omega))]
        rfl
      · rw [if_neg hL4] at henc
        by_cases hL8 : (7 + pyBitLength n) / 8 ≤ 8
        · rw [if_pos hL8] at henc
          simp only [Except.ok.injEq, Prod.mk.injEq] at henc
          obtain ⟨hB, hst⟩ := henc
          subst hB
          subst hst
          refine pobj_leaf_conclude db structs R (.oint i n) 17 (toBytesBE 8 n) est dst hinv
            (by omega) (by omega) ?_
          intro f rest dst2 hf
          rw [dp17]
          have hr := readN_exact (toBytesBE 8 n) rest
          rw [toBytesBE_length] at hr
          rw [hr]
          simp only [ok_map]
          rw [fromBytesBE_toBytesBE 8 n (pow256_of_bitlen n 8 (by omega))]
          rfl
        · rw [if_neg hL8] at henc
          cases hlk : alookup est.backrefs i with
          | some p =>
            rw [hlk] at henc
            simp only [backrefBytes] at henc
            cases hob : encode_variable_int (est.pos - p) with
            | error e =>
              rw [hob] at henc
              exact absurd henc (by simp [Except.map])
            | ok ob =>
              rw [hob] at henc
              simp only [ok_map, Except.ok.injEq, Prod.mk.injEq] at henc
              obtain ⟨hB, hst⟩ := henc
              subst hB
              subst hst
              exact pobj_backref_hit db structs R (.oint i n) p est dst hinv hcoh hmem hlk
                ob hob
          | none =>
            rw [hlk] at henc
            cases hob : encode_variable_int ((7 + pyBitLength n) / 8) with
            | error e =>
              rw [hob] at henc
              exact absurd henc (by simp [Except.map])
            | ok lb =>
              rw [hob] at henc
              simp only [ok_map, Except.ok.injEq, Prod.mk.injEq] at henc
              obtain ⟨hB, hst⟩ := henc
              subst hB
              subst hst
              have hlen2 : 1 + lb.length + (7 + pyBitLength n) / 8 =
                  1 + (lb ++ toBytesBE ((7 + pyBitLength n) / 8) n).length := by
                simp [toBytesBE_length]
                omega
              rw [hlen2]
              refine pobj_leafref_conclude db structs R (.oint i n) 18
                (lb ++ toBytesBE ((7 + pyBitLength n) / 8) n) est dst hinv
                (by omega) (by omega) (by simp [backrefOk]; omega) hmem ?_
              intro f rest dst2 hf
              rw [dp18, List.append_assoc, decode_variable_int_encode _ _ _ hob]
              simp only [ok_bind]
              have hr := readN_exact (toBytesBE ((7 + pyBitLength n) / 8) n) rest
              rw [toBytesBE_length] at hr
              rw [hr]
              simp only [ok_map]
              rw [fromBytesBE_toBytesBE _ n (pow256_of_bitlen n _ (by omega))]
              rw [show (lb ++ (toBytesBE ((7 + pyBitLength n) / 8) n ++ rest)).length -
                  rest.length = (lb ++ toBytesBE ((7 + pyBitLength n) / 8) n).length from by
                simp
                omega]
              rfl

theorem pobj_obytes (db : TzDb) (structs : List (Nat × List Nat × List (List Nat)))
    (R : Obj) (hcoh : Coherent R) (i : Nat) (bs : List Nat) :
    PObj db structs R (.obytes i bs) := by
  intro est dst B est2 hwf hmem henc hinv
  simp only [encObj] at henc
  cases hlk : alookup est.backrefs i with
  | some p =>
    rw [hlk] at henc
    simp only [backrefBytes] at henc
    cases hob : encode_variable_int (est.pos - p) with
    | error e =>
      rw [hob] at henc
      exact absurd henc (by simp [Except.map])
    | ok ob =>
      rw [hob] at henc
      simp only [ok_map, Except.ok.injEq, Prod.mk.injEq] at henc
      obtain ⟨hB, hst⟩ := henc
      subst hB
      subst hst
      exact pobj_backref_hit db structs R (.obytes i bs) p est dst hinv hcoh hmem hlk ob hob
  | none =>
    rw [hlk] at henc
    cases hob : encode_variable_int bs.length with
    | error e =>
      rw [hob] at henc
      exact absurd henc (by simp [Except.map])
    | ok lb =>
      rw [hob] at henc
      simp only [ok_map, Except.ok.injEq, Prod.mk.injEq] at henc
      obtain ⟨hB, hst⟩ := henc
      subst hB
      subst hst
      have hlen2 : 1 + lb.length + bs.length = 1 + (lb ++ bs).length := by
        simp
        omega
      rw [hlen2]
      refine pobj_leafref_conclude db structs R (.obytes i bs) 19 (lb ++ bs) est dst hinv
        (by omega) (by omega) (by simp [backrefOk]) hmem ?_
      intro f rest dst2 hf
      rw [dp19, List.append_assoc, decode_variable_int_encode _ _ _ hob]
      simp only [ok_bind]
      rw [readN_exact bs rest]
      simp only [ok_map]
      rw [show (lb ++ (bs ++ rest)).length - rest.length = (lb ++ bs).length from by
        simp
        omega]
      rfl

theorem pobj_ofloat (db : TzDb) (structs : List (Nat × List Nat × List (List Nat)))
    (R : Obj) (hcoh : Coherent R) (i bits : Nat) : PObj db structs R (.ofloat i bits) := by
  intro est dst B est2 hwf hmem henc hinv
  have hbits : bits < 2 ^ 64 := by
    simp only [wfObj, decide_eq_true_eq] at hwf
    exact hwf
  simp only [encObj] at henc
  cases hlk : alookup est.backrefs i with
  | some p =>
    rw [hlk] at henc
    simp only [backrefBytes] at henc
    cases hob : encode_variable_int (est.pos - p) with
    | error e =>
      rw [hob] at henc
      exact absurd henc (by simp [Except.map])
    | ok ob =>
      rw [hob] at henc
      simp only [ok_map, Except.ok.injEq, Prod.mk.injEq] at henc
      obtain ⟨hB, hst⟩ := henc
      subst hB
      subst hst
      exact pobj_backref_hit db structs R (.ofloat i bits) p est dst hinv hcoh hmem hlk ob hob
  | none =>
    rw [hlk] at henc
    simp only [Except.ok.injEq, Prod.mk.injEq] at henc
    obtain ⟨hB, hst⟩ := henc
    subst hB
    subst hst
    refine pobj_leafref_conclude db structs R (.ofloat i bits) 23 (toBytesBE 8 bits) est dst
      hinv (by omega) (by omega) (by simp [backrefOk]) hmem ?_
    intro f rest dst2 hf
    rw [dp23]
    have hr := readN_exact (toBytesBE 8 bits) rest
    rw [toBytesBE_length] at hr
    rw [hr]
    simp only [ok_map]
    rw [fromBytesBE_toBytesBE 8 bits (by norm_num at hbits ⊢; omega)]
    rfl

theorem pobj_odec (db : TzDb) (structs : List (Nat × List Nat × List (List Nat)))
    (R : Obj) (i : Nat) (d : PyDecimal) : PObj db structs R (.odec i d) := by
  intro est dst B est2 hwf hmem henc hinv
  have hok : decOkForStream d := by
    simp only [wfObj, decide_eq_true_eq] at hwf
    exact hwf
  simp only [encObj] at henc
  cases hpb : decimalEncodePayload d with
  | error e =>
    rw [hpb] at henc
    exact absurd henc (by simp [Except.map])
  | ok pb =>
    rw [hpb] at henc
    simp only [ok_map, Except.ok.injEq, Prod.mk.injEq] at henc
    obtain ⟨hB, hst⟩ := henc
    subst hB
    subst hst
    obtain ⟨B2, hB2, hdec2⟩ := decimal_payload_roundtrip d hok
    rw [hpb] at hB2
    have hBeq : pb = B2 := by
      cases hB2
      rfl
    subst hBeq
    by_cases hneg : decLtZero d
    · have hsign : d.sign = true := (decLtZero_stream d hok).mp hneg
      rw [if_pos hneg]
      refine pobj_leaf_conclude db structs R (.odec i d) 25 pb est dst hinv
        (by omega) (by omega) ?_
      intro f rest dst2 hf
      rw [dp25]
      have := hdec2 rest
      rw [hsign] at this
      rw [this]
      simp only [ok_map]
      rw [len_sub_rest]
      rfl
    · have hsign : d.sign = false := by
        rcases Bool.eq_false_or_eq_true d.sign with hs | hs
        · exact absurd ((decLtZero_stream d hok).mpr hs) hneg
        · exact hs
      rw [if_neg hneg]
      refine pobj_leaf_conclude db structs R (.odec i d) 24 pb est dst hinv
        (by omega) (by omega) ?_
      intro f rest dst2 hf
      rw [dp24]
      have := hdec2 rest
      rw [hsign] at this
      rw [this]
      simp only [ok_map]
      rw [len_sub_rest]
      rfl

theorem pobj_odt (db : TzDb) (structs : List (Nat × List Nat × List (List Nat)))
    (R : Obj) (hcoh : Coherent R) (i : Nat) (dt : PyDatetime) :
    PObj db structs R (.odt i dt) := by
  intro est dst B est2 hwf hmem henc hinv
  have hok : dtOkForStream db dt := dtOkB_sound db dt hwf
  simp only [encObj] at henc
  cases hlk : alookup est.backrefs i with
  | some p =>
    rw [hlk] at henc
    simp only [backrefBytes] at henc
    cases hob : encode_variable_int (est.pos - p) with
    | error e =>
      rw [hob] at henc
      exact absurd henc (by simp [Except.map])
    | ok ob =>
      rw [hob] at henc
      simp only [ok_map, Except.ok.injEq, Prod.mk.injEq] at henc
      obtain ⟨hB, hst⟩ := henc
      subst hB
      subst hst
      exact pobj_backref_hit db structs R (.odt i dt) p est dst hinv hcoh hmem hlk ob hob
  | none =>
    rw [hlk] at henc
    cases hpb : datetimeEncodePayload db dt with
    | error e =>
      rw [hpb] at henc
      exact absurd henc (by simp [Except.map])
    | ok pb =>
      rw [hpb] at henc
      simp only [ok_map, Except.ok.injEq, Prod.mk.injEq] at henc
      obtain ⟨hB, hst⟩ := henc
      subst hB
      subst hst
      obtain ⟨B2, hB2, hdec2⟩ := datetime_payload_roundtrip db dt hok
      rw [hpb] at hB2
      have hBeq : pb = B2 := by
        cases hB2
        rfl
      subst hBeq
      by_cases hsel : dt_select_iana db dt = true
      · rw [if_pos hsel]
        refine pobj_leafref_conclude db structs R (.odt i dt) 27 pb est dst hinv
          (by omega) (by omega) (by simp [backrefOk]) hmem ?_
        intro f rest dst2 hf
        rw [dp27]
        have := hdec2 rest
        rw [hsel] at this
        rw [this]
        simp only [ok_map]
        rw [len_sub_rest]
        rfl
      · rw [if_neg hsel]
        refine pobj_leafref_conclude db structs R (.odt i dt) 26 pb est dst hinv
          (by omega) (by omega) (by simp [backrefOk]) hmem ?_
        intro f rest dst2 hf
        rw [dp26]
        have := hdec2 rest
        rw [Bool.not_eq_true] at hsel
        rw [hsel] at this
        rw [this]
        simp only [ok_map]
        rw [len_sub_rest]
        rfl

theorem pobj_ostr (db : TzDb) (structs : List (Nat × List Nat × List (List Nat)))
    (R : Obj) (hcoh : Coherent R) (i : Nat) (s : List Nat) :
    PObj db structs R (.ostr i s) := by
  intro est dst B est2 hwf hmem henc hinv
  have hsc : ∀ c ∈ s, isScalar c := by
    simp only [wfObj, Bool.and_eq_true, decide_eq_true_eq] at hwf
    exact hwf.1
  simp only [encObj] at henc
  by_cases h0 : s.length = 0
  · rw [if_pos h0] at henc
    simp only [Except.ok.injEq, Prod.mk.injEq] at henc
    obtain ⟨hB, hst⟩ := henc
    subst hB
    subst hst
    have hs0 : s = [] := List.length_eq_zero.mp h0
    subst hs0
    exact pobj_leaf_conclude db structs R (.ostr i []) 21 [] est dst hinv (by omega) (by omega)
      (fun f rest dst2 hf => by rw [show ([] : List Nat) ++ rest = rest from rfl, dp21]; rfl)
  · rw [if_neg h0] at henc
    by_cases h1 : s.length = 1
    · rw [if_pos h1] at henc
      obtain ⟨c, hs1⟩ : ∃ c, s = [c] := by
        cases s with
        | nil => simp at h1
        | cons c t =>
          cases t with
          | nil => exact ⟨c, rfl⟩
          | cons d t2 => simp at h1
      subst hs1
      have hc : isScalar c := hsc c (by simp)
      obtain ⟨hcu, -⟩ := hc
      simp only [pyStrEncodeUtf8, if_pos hsc, ok_map, Except.ok.injEq, Prod.mk.injEq] at henc
      obtain ⟨hB, hst⟩ := henc
      subst hB
      subst hst
      have hub : utf8Bytes [c] = utf8EncodeChar c := by
        rw [utf8Bytes_cons]
        simp [utf8Bytes]
      have hu8 : utf8Decode (utf8EncodeChar c) = .ok [c] := by
        rw [← hub]
        exact utf8Decode_utf8Bytes [c] (by
          intro x hx
          simp only [List.mem_singleton] at hx
          subst hx
          exact hsc x (by simp))
      refine pobj_leaf_conclude db structs R (.ostr i [c]) 20 (utf8Bytes [c]) est dst hinv
        (by omega) (by omega) ?_
      intro f rest dst2 hf
      rw [dp20, hub]
      by_cases hc1 : c < 0x80
      · have hec : utf8EncodeChar c = [c] := by
          unfold utf8EncodeChar
          rw [if_pos hc1]
        rw [hec]
        have hr : readN 1 ([c] ++ rest) = .ok ([c], rest) := readN_exact [c] rest
        rw [hr]
        simp only [ok_bind, List.headD_cons]
        rw [if_pos hc1]
        simp only [ok_bind]
        rw [hec] at hu8
        rw [hu8]
        simp only [ok_map]
        rw [show (([c] : List Nat) ++ rest).length - rest.length = ([c] : List Nat).length from
          len_sub_rest [c] rest]
        rfl
      · by_cases hc2 : c < 0x800
        · have hec : utf8EncodeChar c = [0xC0 + c / 64, 0x80 + c % 64] := by
            unfold utf8EncodeChar
            rw [if_neg hc1, if_pos hc2]
          rw [hec]
          simp only [List.cons_append, List.nil_append]
          have hr : readN 1 ((0xC0 + c / 64) :: (0x80 + c % 64) :: rest) =
              .ok ([0xC0 + c / 64], (0x80 + c % 64) :: rest) :=
            readN_exact [0xC0 + c / 64] ((0x80 + c % 64) :: rest)
          rw [hr]
          simp only [ok_bind, List.headD_cons]
          rw [if_neg (by omega), if_neg (by omega), if_pos (by omega)]
          have hr2 : readN 1 ((0x80 + c % 64) :: rest) = .ok ([0x80 + c % 64], rest) :=
            readN_exact [0x80 + c % 64] rest
          rw [hr2]
          simp only [ok_map, ok_bind]
          rw [hec] at hu8
          rw [hu8]
          simp only [ok_map]
          rw [show ((0xC0 + c / 64) :: (0x80 + c % 64) :: rest).length - rest.length = 2 from by
            simp
            omega]
          rfl
        · by_cases hc3 : c < 0x10000
          · have hec : utf8EncodeChar c =
                [0xE0 + c / 4096, 0x80 + c / 64 % 64, 0x80 + c % 64] := by
              unfold utf8EncodeChar
              rw [if_neg hc1, if_neg hc2, if_pos hc3]
            rw [hec]
            simp only [List.cons_append, List.nil_append]
            have hr : readN 1 ((0xE0 + c / 4096) :: (0x80 + c / 64 % 64) ::
                (0x80 + c % 64) :: rest) =
                .ok ([0xE0 + c / 4096], (0x80 + c / 64 % 64) :: (0x80 + c % 64) :: rest) :=
              readN_exact [0xE0 + c / 4096] ((0x80 + c / 64 % 64) :: (0x80 + c % 64) :: rest)
            rw [hr]
            simp only [ok_bind, List.headD_cons]
            rw [if_neg (by omega), if_neg (by omega), if_neg (by omega), if_pos (by omega)]
            have hr2 : readN 2 ((0x80 + c / 64 % 64) :: (0x80 + c % 64) :: rest) =
                .ok ([0x80 + c / 64 % 64, 0x80 + c % 64], rest) :=
              readN_exact [0x80 + c / 64 % 64, 0x80 + c % 64] rest
            rw [hr2]
            simp only [ok_map, ok_bind]
            rw [hec] at hu8
            rw [hu8]
            simp only [ok_map]
            rw [show ((0xE0 + c / 4096) :: (0x80 + c / 64 % 64) ::
                (0x80 + c % 64) :: rest).length - rest.length = 3 from by
              simp
              omega]
            rfl
          · have hec : utf8EncodeChar c =
                [0xF0 + c / 262144, 0x80 + c / 4096 % 64, 0x80 + c / 64 % 64, 0x80 + c % 64] := by
              unfold utf8EncodeChar
              rw [if_neg hc1, if_neg hc2, if_neg hc3]
            rw [hec]
            simp only [List.cons_append, List.nil_append]
            have hr : readN 1 ((0xF0 + c / 262144) :: (0x80 + c / 4096 % 64) ::
                (0x80 + c / 64 % 64) :: (0x80 + c % 64) :: rest) =
                .ok ([0xF0 + c / 262144], (0x80 + c / 4096 % 64) ::
                  (0x80 + c / 64 % 64) :: (0x80 + c % 64) :: rest) :=
              readN_exact [0xF0 + c / 262144]
                ((0x80 + c / 4096 % 64) :: (0x80 + c / 64 % 64) :: (0x80 + c % 64) :: rest)
            rw [hr]
            simp only [ok_bind, List.headD_cons]
            rw [if_neg (by omega), if_neg (by omega), if_neg (by omega), if_neg (by omega),
              if_pos (by omega)]
            have hr2 : readN 3 ((0x80 + c / 4096 % 64) :: (0x80 + c / 64 % 64) ::
                (0x80 + c % 64) :: rest) =
                .ok ([0x80 + c / 4096 % 64, 0x80 + c / 64 % 64, 0x80 + c % 64], rest) :=
              readN_exact [0x80 + c / 4096 % 64, 0x80 + c / 64 % 64, 0x80 + c % 64] rest
            rw [hr2]
            simp only [ok_map, ok_bind]
            rw [hec] at hu8
            rw [hu8]
            simp only [ok_map]
            rw [show ((0xF0 + c / 262144) :: (0x80 + c / 4096 % 64) ::
                (0x80 + c / 64 % 64) :: (0x80 + c % 64) :: rest).length - rest.length = 4 from by
              simp
              omega]
            rfl
    · rw [if_neg h1] at henc
      cases hlk : alookup est.backrefs i with
      | some p =>
        rw [hlk] at henc
        simp only [backrefBytes] at henc
        cases hob : encode_variable_int (est.pos - p) with
        | error e =>
          rw [hob] at henc
          exact absurd henc (by simp [Except.map])
        | ok ob =>
          rw [hob] at henc
          simp only [ok_map, Except.ok.injEq, Prod.mk.injEq] at henc
          obtain ⟨hB, hst⟩ := henc
          subst hB
          subst hst
          exact pobj_backref_hit db structs R (.ostr i s) p est dst hinv hcoh hmem hlk ob hob
      | none =>
        rw [hlk] at henc
        cases hsb : encode_string s with
        | error e =>
          rw [hsb] at henc
          exact absurd henc (by simp [Except.map])
        | ok sb =>
          rw [hsb] at henc
          simp only [ok_map, Except.ok.injEq, Prod.mk.injEq] at henc
          obtain ⟨hB, hst⟩ := henc
          subst hB
          subst hst
          refine pobj_leafref_conclude db structs R (.ostr i s) 22 sb est dst hinv
            (by omega) (by omega) (by simp [backrefOk]; omega) hmem ?_
          intro f rest dst2 hf
          rw [dp22, decode_string_of_encode s sb hsb rest]
          simp only [ok_map]
          rw [len_sub_rest]
          rfl

theorem dadv_dadv (st : DecSt) (a b : Nat) : dadv (dadv st a) b = dadv st (a + b) := by
  simp only [dadv]
  rw [Nat.add_assoc]

/-- Recording the back-reference of a just-finished container on both
sides: the encoder keys it by identity, the decoder by the container's
start position, which is fresh among the decoder's keys. -/
theorem inv_add_backref (structs : List (Nat × List Nat × List (List Nat))) (R : Obj)
    (est : EncSt) (dst : DecSt) (hinv : SyncInv structs R est dst) (v : Obj) (p : Nat)
    (hv : v ∈ subObjs R) (hok : backrefOk v = true)
    (hplt : p < est.pos) (hkeys : ∀ q ∈ dst.backrefs, q.1 ≠ p) :
    SyncInv structs R { est with backrefs := (oidOf v, p) :: est.backrefs }
      ⟨dst.pos, (p, erase v) :: dst.backrefs, dst.codeTable⟩ := by
  obtain ⟨hpos, hmax, hsc, hbr, hdk⟩ := hinv
  refine ⟨hpos, hmax, hsc, ?_, ?_⟩
  · intro q hq
    rcases List.mem_cons.mp hq with rfl | hq
    · refine ⟨hplt, v, hv, rfl, hok, ?_⟩
      show alookup ((p, erase v) :: dst.backrefs) p = some (erase v)
      unfold alookup
      rw [if_pos rfl]
    · obtain ⟨hqlt, w, hw, hoid, hok2, hlook⟩ := hbr q hq
      refine ⟨hqlt, w, hw, hoid, hok2, ?_⟩
      show alookup ((p, erase v) :: dst.backrefs) q.2 = some (erase w)
      unfold alookup
      rw [if_neg (hkeys (q.2, erase w) (alookup_mem _ _ _ hlook)), hlook]
  · intro q hq
    rcases List.mem_cons.mp hq with rfl | hq
    · show p < dst.pos
      omega
    · exact hdk q hq

theorem pobj_otuple (db : TzDb) (structs : List (Nat × List Nat × List (List Nat)))
    (R : Obj) (hcoh : Coherent R) (i : Nat) (xs : Obj)
    (hsp : PSpine db structs R xs) : PObj db structs R (.otuple i xs) := by
  intro est dst B est2 hwf hmem henc hinv
  simp only [wfObj, Bool.and_eq_true, decide_eq_true_eq] at hwf
  obtain ⟨⟨hL, hlen⟩, hwfxs⟩ := hwf
  have hsub : ∀ u ∈ subObjs xs, u ∈ subObjs R := fun u hu =>
    subObjs_trans R (.otuple i xs) u hmem (by
      simp only [subObjs, List.mem_cons]
      exact Or.inr hu)
  simp only [encObj] at henc
  cases hlk : alookup est.backrefs i with
  | some p =>
    rw [hlk] at henc
    simp only [backrefBytes] at henc
    cases hob : encode_variable_int (est.pos - p) with
    | error e =>
      rw [hob] at henc
      exact absurd henc (by simp [Except.map])
    | ok ob =>
      rw [hob] at henc
      simp only [ok_map, Except.ok.injEq, Prod.mk.injEq] at henc
      obtain ⟨hB, hst⟩ := henc
      subst hB
      subst hst
      exact pobj_backref_hit db structs R (.otuple i xs) p est dst hinv hcoh hmem hlk ob hob
  | none =>
    rw [hlk] at henc
    cases hlb : encode_variable_int (objLen xs) with
    | error e =>
      rw [hlb] at henc
      exact absurd henc (by simp [Except.bind])
    | ok lb =>
      rw [hlb] at henc
      simp only [ok_bind] at henc
      cases hxs : encObj db structs xs (advance est (1 + lb.length)) with
      | error e =>
        rw [hxs] at henc
        exact absurd henc (by simp [Except.map])
      | ok r =>
        rw [hxs] at henc
        simp only [ok_map, Except.ok.injEq, Prod.mk.injEq] at henc
        obtain ⟨hB, hst⟩ := henc
        subst hB
        subst hst
        obtain ⟨hpos2, dst2, hinv2, hfresh2, hdec2⟩ :=
          hsp hL (advance est (1 + lb.length)) (dadv dst (1 + lb.length)) r.1 r.2 hwfxs hsub
            hxs (inv_step_adv structs R est dst hinv (1 + lb.length))
        have hposd : dst.pos = est.pos := hinv.1
        have hBlen : (28 :: lb ++ r.1).length = 1 + lb.length + r.1.length := by
          simp
          omega
        refine ⟨by simp, by
          show r.2.pos + 0 = est.pos + (28 :: lb ++ r.1).length
          rw [hBlen]
          simp [advance] at hpos2
          omega, ?_⟩
        refine ⟨⟨dst2.pos, (dst.pos, erase (.otuple i xs)) :: dst2.backrefs, dst2.codeTable⟩,
          ?_, ?_, ?_⟩
        · have hk : ∀ q ∈ dst2.backrefs, q.1 ≠ dst.pos := by
            intro q hq
            rcases hfresh2 q hq with hq2 | hq2
            · have := hinv.2.2.2.2 q hq2
              omega
            · simp [dadv] at hq2
              omega
          have hkeys : ∀ q ∈ dst2.backrefs, q.1 ≠ est.pos := by
            intro q hq
            have := hk q hq
            omega
          have := inv_add_backref structs R r.2 dst2 hinv2 (.otuple i xs) est.pos hmem
            (by simp [backrefOk]) (by simp [advance] at hpos2; omega) hkeys
          rw [hposd]
          exact this
        · intro q hq
          rcases List.mem_cons.mp hq with rfl | hq
          · exact Or.inr (le_refl _)
          · rcases hfresh2 q hq with hq2 | hq2
            · exact Or.inl hq2
            · simp [dadv] at hq2
              exact Or.inr (by omega)
        · intro fuel hfuel rest
          rw [hBlen] at hfuel
          obtain ⟨f2, rfl⟩ : ∃ k, fuel = k + 2 := ⟨fuel - 2, by omega⟩
          rw [show (28 :: lb ++ r.1) ++ rest = 28 :: (lb ++ (r.1 ++ rest)) from by simp]
          rw [decodeObjF_code db structs (f2 + 1) true 28 (lb ++ (r.1 ++ rest)) dst
            (by omega) (by omega) (by omega)]
          rw [dp28, decode_variable_int_encode _ _ _ hlb]
          simp only [ok_bind]
          rw [len_sub_rest lb (r.1 ++ rest), dadv_dadv]
          rw [hdec2 f2 (by omega) rest]
          simp only [ok_map]
          rfl

theorem pobj_olist (db : TzDb) (structs : List (Nat × List Nat × List (List Nat)))
    (R : Obj) (hcoh : Coherent R) (i : Nat) (xs : Obj)
    (hsp : PSpine db structs R xs) : PObj db structs R (.olist i xs) := by
  intro est dst B est2 hwf hmem henc hinv
  simp only [wfObj, Bool.and_eq_true, decide_eq_true_eq] at hwf
  obtain ⟨⟨hL, hlen⟩, hwfxs⟩ := hwf
  have hsub : ∀ u ∈ subObjs xs, u ∈ subObjs R := fun u hu =>
    subObjs_trans R (.olist i xs) u hmem (by
      simp only [subObjs, List.mem_cons]
      exact Or.inr hu)
  simp only [encObj] at henc
  cases hlk : alookup est.backrefs i with
  | some p =>
    rw [hlk] at henc
    simp only [backrefBytes] at henc
    cases hob : encode_variable_int (est.pos - p) with
    | error e =>
      rw [hob] at henc
      exact absurd henc (by simp [Except.map])
    | ok ob =>
      rw [hob] at henc
      simp only [ok_map, Except.ok.injEq, Prod.mk.injEq] at henc
      obtain ⟨hB, hst⟩ := henc
      subst hB
      subst hst
      exact pobj_backref_hit db structs R (.olist i xs) p est dst hinv hcoh hmem hlk ob hob
  | none =>
    rw [hlk] at henc
    cases hlb : encode_variable_int (objLen xs) with
    | error e =>
      rw [hlb] at henc
      exact absurd henc (by simp [Except.bind])
    | ok lb =>
      rw [hlb] at henc
      simp only [ok_bind] at henc
      cases hxs : encObj db structs xs (advance est (1 + lb.length)) with
      | error e =>
        rw [hxs] at henc
        exact absurd henc (by simp [Except.map])
      | ok r =>
        rw [hxs] at henc
        simp only [ok_map, Except.ok.injEq, Prod.mk.injEq] at henc
        obtain ⟨hB, hst⟩ := henc
        subst hB
        subst hst
        obtain ⟨hpos2, dst2, hinv2, hfresh2, hdec2⟩ :=
          hsp hL (advance est (1 + lb.length)) (dadv dst (1 + lb.length)) r.1 r.2 hwfxs hsub
            hxs (inv_step_adv structs R est dst hinv (1 + lb.length))
        have hposd : dst.pos = est.pos := hinv.1
        have hBlen : (29 :: lb ++ r.1).length = 1 + lb.length + r.1.length := by
          simp
          omega
        refine ⟨by simp, by
          show r.2.pos + 0 = est.pos + (29 :: lb ++ r.1).length
          rw [hBlen]
          simp [advance] at hpos2
          omega, ?_⟩
        refine ⟨⟨dst2.pos, (dst.pos, erase (.olist i xs)) :: dst2.backrefs, dst2.codeTable⟩,
          ?_, ?_, ?_⟩
        · have hk : ∀ q ∈ dst2.backrefs, q.1 ≠ dst.pos := by
            intro q hq
            rcases hfresh2 q hq with hq2 | hq2
            · have := hinv.2.2.2.2 q hq2
              omega
            · simp [dadv] at hq2
              omega
          have hkeys : ∀ q ∈ dst2.backrefs, q.1 ≠ est.pos := by
            intro q hq
            have := hk q hq
            omega
          have := inv_add_backref structs R r.2 dst2 hinv2 (.olist i xs) est.pos hmem
            (by simp [backrefOk]) (by simp [advance] at hpos2; omega) hkeys
          rw [hposd]
          exact this
        · intro q hq
          rcases List.mem_cons.mp hq with rfl | hq
          · exact Or.inr (le_refl _)
          · rcases hfresh2 q hq with hq2 | hq2
            · exact Or.inl hq2
            · simp [dadv] at hq2
              exact Or.inr (by omega)
        · intro fuel hfuel rest
          rw [hBlen] at hfuel
          obtain ⟨f2, rfl⟩ : ∃ k, fuel = k + 2 := ⟨fuel - 2, by omega⟩
          rw [show (29 :: lb ++ r.1) ++ rest = 29 :: (lb ++ (r.1 ++ rest)) from by simp]
          rw [decodeObjF_code db structs (f2 + 1) true 29 (lb ++ (r.1 ++ rest)) dst
            (by omega) (by omega) (by omega)]
          rw [dp29, decode_variable_int_encode _ _ _ hlb]
          simp only [ok_bind]
          rw [len_sub_rest lb (r.1 ++ rest), dadv_dadv]
          rw [hdec2 f2 (by omega) rest]
          simp only [ok_map]
          rfl

theorem pobj_oset (db : TzDb) (structs : List (Nat × List Nat × List (List Nat)))
    (R : Obj) (hcoh : Coherent R) (i : Nat) (xs : Obj)
    (hsp : PSpine db structs R xs) : PObj db structs R (.oset i xs) := by
  intro est dst B est2 hwf hmem henc hinv
  simp only [wfObj, Bool.and_eq_true, decide_eq_true_eq] at hwf
  obtain ⟨⟨hL, hlen⟩, hwfxs⟩ := hwf
  have hsub : ∀ u ∈ subObjs xs, u ∈ subObjs R := fun u hu =>
    subObjs_trans R (.oset i xs) u hmem (by
      simp only [subObjs, List.mem_cons]
      exact Or.inr hu)
  simp only [encObj] at henc
  cases hlk : alookup est.backrefs i with
  | some p =>
    rw [hlk] at henc
    simp only [backrefBytes] at henc
    cases hob : encode_variable_int (est.pos - p) with
    | error e =>
      rw [hob] at henc
      exact absurd henc (by simp [Except.map])
    | ok ob =>
      rw [hob] at henc
      simp only [ok_map, Except.ok.injEq, Prod.mk.injEq] at henc
      obtain ⟨hB, hst⟩ := henc
      subst hB
      subst hst
      exact pobj_backref_hit db structs R (.oset i xs) p est dst hinv hcoh hmem hlk ob hob
  | none =>
    rw [hlk] at henc
    cases hlb : encode_variable_int (objLen xs) with
    | error e =>
      rw [hlb] at henc
      exact absurd henc (by simp [Except.bind])
    | ok lb =>
      rw [hlb] at henc
      simp only [ok_bind] at henc
      cases hxs : encObj db structs xs (advance est (1 + lb.length)) with
      | error e =>
        rw [hxs] at henc
        exact absurd henc (by simp [Except.map])
      | ok r =>
        rw [hxs] at henc
        simp only [ok_map, Except.ok.injEq, Prod.mk.injEq] at henc
        obtain ⟨hB, hst⟩ := henc
        subst hB
        subst hst
        obtain ⟨hpos2, dst2, hinv2, hfresh2, hdec2⟩ :=
          hsp hL (advance est (1 + lb.length)) (dadv dst (1 + lb.length)) r.1 r.2 hwfxs hsub
            hxs (inv_step_adv structs R est dst hinv (1 + lb.length))
        have hposd : dst.pos = est.pos := hinv.1
        have hBlen : (30 :: lb ++ r.1).length = 1 + lb.length + r.1.length := by
          simp
          omega
        refine ⟨by simp, by
          show r.2.pos + 0 = est.pos + (30 :: lb ++ r.1).length
          rw [hBlen]
          simp [advance] at hpos2
          omega, ?_⟩
        refine ⟨⟨dst2.pos, (dst.pos, erase (.oset i xs)) :: dst2.backrefs, dst2.codeTable⟩,
          ?_, ?_, ?_⟩
        · have hk : ∀ q ∈ dst2.backrefs, q.1 ≠ dst.pos := by
            intro q hq
            rcases hfresh2 q hq with hq2 | hq2
            · have := hinv.2.2.2.2 q hq2
              omega
            · simp [dadv] at hq2
              omega
          have hkeys : ∀ q ∈ dst2.backrefs, q.1 ≠ est.pos := by
            intro q hq
            have := hk q hq
            omega
          have := inv_add_backref structs R r.2 dst2 hinv2 (.oset i xs) est.pos hmem
            (by simp [backrefOk]) (by simp [advance] at hpos2; omega) hkeys
          rw [hposd]
          exact this
        · intro q hq
          rcases List.mem_cons.mp hq with rfl | hq
          · exact Or.inr (le_refl _)
          · rcases hfresh2 q hq with hq2 | hq2
            · exact Or.inl hq2
            · simp [dadv] at hq2
              exact Or.inr (by omega)
        · intro fuel hfuel rest
          rw [hBlen] at hfuel
          obtain ⟨f2, rfl⟩ : ∃ k, fuel = k + 2 := ⟨fuel - 2, by omega⟩
          rw [show (30 :: lb ++ r.1) ++ rest = 30 :: (lb ++ (r.1 ++ rest)) from by simp]
          rw [decodeObjF_code db structs (f2 + 1) true 30 (lb ++ (r.1 ++ rest)) dst
            (by omega) (by omega) (by omega)]
          rw [dp30, decode_variable_int_encode _ _ _ hlb]
          simp only [ok_bind]
          rw [len_sub_rest lb (r.1 ++ rest), dadv_dadv]
          rw [hdec2 f2 (by omega) rest]
          simp only [ok_map]
          rfl

theorem pobj_odict (db : TzDb) (structs : List (Nat × List Nat × List (List Nat)))
    (R : Obj) (hcoh : Coherent R) (i : Nat) (xs : Obj)
    (hsp : PPSpine db structs R xs) : PObj db structs R (.odict i xs) := by
  intro est dst B est2 hwf hmem henc hinv
  simp only [wfObj, Bool.and_eq_true, decide_eq_true_eq] at hwf
  obtain ⟨⟨hL, hlen⟩, hwfxs⟩ := hwf
  have hsub : ∀ u ∈ subObjs xs, u ∈ subObjs R := fun u hu =>
    subObjs_trans R (.odict i xs) u hmem (by
      simp only [subObjs, List.mem_cons]
      exact Or.inr hu)
  simp only [encObj] at henc
  cases hlk : alookup est.backrefs i with
  | some p =>
    rw [hlk] at henc
    simp only [backrefBytes] at henc
    cases hob : encode_variable_int (est.pos - p) with
    | error e =>
      rw [hob] at henc
      exact absurd henc (by simp [Except.map])
    | ok ob =>
      rw [hob] at henc
      simp only [ok_map, Except.ok.injEq, Prod.mk.injEq] at henc
      obtain ⟨hB, hst⟩ := henc
      subst hB
      subst hst
      exact pobj_backref_hit db structs R (.odict i xs) p est dst hinv hcoh hmem hlk ob hob
  | none =>
    rw [hlk] at henc
    cases hlb : encode_variable_int (objLen xs) with
    | error e =>
      rw [hlb] at henc
      exact absurd henc (by simp [Except.bind])
    | ok lb =>
      rw [hlb] at henc
      simp only [ok_bind] at henc
      cases hxs : encObj db structs xs (advance est (1 + lb.length)) with
      | error e =>
        rw [hxs] at henc
        exact absurd henc (by simp [Except.map])
      | ok r =>
        rw [hxs] at henc
        simp only [ok_map, Except.ok.injEq, Prod.mk.injEq] at henc
        obtain ⟨hB, hst⟩ := henc
        subst hB
        subst hst
        obtain ⟨hpos2, dst2, hinv2, hfresh2, hdec2⟩ :=
          hsp hL (advance est (1 + lb.length)) (dadv dst (1 + lb.length)) r.1 r.2 hwfxs hsub
            hxs (inv_step_adv structs R est dst hinv (1 + lb.length))
        have hposd : dst.pos = est.pos := hinv.1
        have hBlen : (31 :: lb ++ r.1).length = 1 + lb.length + r.1.length := by
          simp
          omega
        refine ⟨by simp, by
          show r.2.pos + 0 = est.pos + (31 :: lb ++ r.1).length
          rw [hBlen]
          simp [advance] at hpos2
          omega, ?_⟩
        refine ⟨⟨dst2.pos, (dst.pos, erase (.odict i xs)) :: dst2.backrefs, dst2.codeTable⟩,
          ?_, ?_, ?_⟩
        · have hk : ∀ q ∈ dst2.backrefs, q.1 ≠ dst.pos := by
            intro q hq
            rcases hfresh2 q hq with hq2 | hq2
            · have := hinv.2.2.2.2 q hq2
              omega
            · simp [dadv] at hq2
              omega
          have hkeys : ∀ q ∈ dst2.backrefs, q.1 ≠ est.pos := by
            intro q hq
            have := hk q hq
            omega
          have := inv_add_backref structs R r.2 dst2 hinv2 (.odict i xs) est.pos hmem
            (by simp [backrefOk]) (by simp [advance] at hpos2; omega) hkeys
          rw [hposd]
          exact this
        · intro q hq
          rcases List.mem_cons.mp hq with rfl | hq
          · exact Or.inr (le_refl _)
          · rcases hfresh2 q hq with hq2 | hq2
            · exact Or.inl hq2
            · simp [dadv] at hq2
              exact Or.inr (by omega)
        · intro fuel hfuel rest
          rw [hBlen] at hfuel
          obtain ⟨f2, rfl⟩ : ∃ k, fuel = k + 2 := ⟨fuel - 2, by omega⟩
          rw [show (31 :: lb ++ r.1) ++ rest = 31 :: (lb ++ (r.1 ++ rest)) from by simp]
          rw [decodeObjF_code db structs (f2 + 1) true 31 (lb ++ (r.1 ++ rest)) dst
            (by omega) (by omega) (by omega)]
          rw [dp31, decode_variable_int_encode _ _ _ hlb]
          simp only [ok_bind]
          rw [len_sub_rest lb (r.1 ++ rest), dadv_dadv]
          rw [hdec2 f2 (by omega) rest]
          simp only [ok_map]
          rfl

/-- A value node occurs among its own subobjects. -/
theorem self_mem_subObjs : ∀ v : Obj, isValObj v = true → v ∈ subObjs v := by
  intro v hv
  cases v <;> first
    | exact List.mem_cons_self _ _
    | simp [isValObj] at hv

/-- The empty element spine encodes to no bytes and decodes as a run of
zero objects. -/
theorem psp_onil (db : TzDb) (structs : List (Nat × List Nat × List (List Nat)))
    (R : Obj) : PSpine db structs R .onil := by
  intro hL est dst B est2 hwf hsub henc hinv
  simp only [encObj, Except.ok.injEq, Prod.mk.injEq] at henc
  obtain ⟨hB, hst⟩ := henc
  subst hB
  subst hst
  refine ⟨by simp, dst, hinv, fun q hq => Or.inl hq, ?_⟩
  intro fuel hfuel rest
  obtain ⟨f2, rfl⟩ : ∃ k, fuel = k + 1 := ⟨fuel - 1, by omega⟩
  rw [show objLen Obj.onil = 0 from rfl, show ([] : List Nat) ++ rest = rest from rfl,
    show eraseL Obj.onil = [] from rfl]
  simp only [decodeManyF]

/-- A cons cell of the element spine: the head object then the remaining
run. -/
theorem psp_ocons (db : TzDb) (structs : List (Nat × List Nat × List (List Nat)))
    (R : Obj) (a tl : Obj) (hPa : isValObj a = true → PObj db structs R a)
    (hPtl : PSpine db structs R tl) :
    PSpine db structs R (.ocons a tl) := by
  intro hL est dst B est2 hwf hsub henc hinv
  have hLtl : isLSpine tl = true := hL
  simp only [wfObj, Bool.and_eq_true] at hwf
  obtain ⟨⟨hva, hwa⟩, hwtl⟩ := hwf
  have hma : a ∈ subObjs R :=
    hsub a (List.mem_append_left _ (self_mem_subObjs a hva))
  have hsubtl : ∀ u ∈ subObjs tl, u ∈ subObjs R := fun u hu =>
    hsub u (List.mem_append_right _ hu)
  simp only [encObj] at henc
  cases hra : encObj db structs a est with
  | error e =>
    rw [hra] at henc
    exact absurd henc (by simp [Except.bind])
  | ok ra =>
    rw [hra] at henc
    simp only [ok_bind] at henc
    cases hrt : encObj db structs tl ra.2 with
    | error e =>
      rw [hrt] at henc
      exact absurd henc (by simp [Except.map])
    | ok rt =>
      rw [hrt] at henc
      simp only [ok_map, Except.ok.injEq, Prod.mk.injEq] at henc
      obtain ⟨hB, hst⟩ := henc
      subst hB
      subst hst
      obtain ⟨h1a, hposA, dstA, hinvA, hfreshA, hdecA⟩ :=
        hPa hva est dst ra.1 ra.2 hwa hma hra hinv
      obtain ⟨hposT, dst2, hinvT, hfreshT, hdecT⟩ :=
        hPtl hLtl ra.2 dstA rt.1 rt.2 hwtl hsubtl hrt hinvA
      have hdp : dst.pos = est.pos := hinv.1
      have hdpA : dstA.pos = ra.2.pos := hinvA.1
      refine ⟨by rw [List.length_append]; omega, dst2, hinvT, ?_, ?_⟩
      · intro q hq
        rcases hfreshT q hq with hq2 | hq2
        · rcases hfreshA q hq2 with hq3 | hq3
          · exact Or.inl hq3
          · exact Or.inr hq3
        · exact Or.inr (by omega)
      · intro fuel hfuel rest
        rw [List.length_append] at hfuel
        obtain ⟨f2, rfl⟩ : ∃ k, fuel = k + 1 := ⟨fuel - 1, by omega⟩
        rw [show objLen (Obj.ocons a tl) = objLen tl + 1 from rfl]
        rw [show eraseL (Obj.ocons a tl) = erase a :: eraseL tl from rfl]
        rw [show (ra.1 ++ rt.1) ++ rest = ra.1 ++ (rt.1 ++ rest) from by simp]
        simp only [decodeManyF]
        rw [hdecA f2 (by omega) (rt.1 ++ rest)]
        simp only [ok_bind]
        rw [hdecT f2 (by omega) rest]
        simp only [ok_map]

/-- The empty key-value spine encodes to no bytes and decodes as a run
of zero pairs. -/
theorem ppsp_odnil (db : TzDb) (structs : List (Nat × List Nat × List (List Nat)))
    (R : Obj) : PPSpine db structs R .odnil := by
  intro hP est dst B est2 hwf hsub henc hinv
  simp only [encObj, Except.ok.injEq, Prod.mk.injEq] at henc
  obtain ⟨hB, hst⟩ := henc
  subst hB
  subst hst
  refine ⟨by simp, dst, hinv, fun q hq => Or.inl hq, ?_⟩
  intro fuel hfuel rest
  obtain ⟨f2, rfl⟩ : ∃ k, fuel = k + 1 := ⟨fuel - 1, by omega⟩
  rw [show objLen Obj.odnil = 0 from rfl, show ([] : List Nat) ++ rest = rest from rfl,
    show eraseP Obj.odnil = [] from rfl]
  simp only [decodePairsF]

/-- A cons cell of the key-value spine: the key object, the value
object, then the remaining run. -/
theorem ppsp_odcons (db : TzDb) (structs : List (Nat × List Nat × List (List Nat)))
    (R : Obj) (k v tl : Obj) (hPk : isValObj k = true → PObj db structs R k)
    (hPv : isValObj v = true → PObj db structs R v)
    (hPtl : PPSpine db structs R tl) : PPSpine db structs R (.odcons k v tl) := by
  intro hP est dst B est2 hwf hsub henc hinv
  have hPtl2 : isPSpine tl = true := hP
  simp only [wfObj, Bool.and_eq_true] at hwf
  obtain ⟨⟨⟨⟨hvk, hvv⟩, hwk⟩, hwv⟩, hwtl⟩ := hwf
  have hmk : k ∈ subObjs R :=
    hsub k (List.mem_append_left _ (List.mem_append_left _ (self_mem_subObjs k hvk)))
  have hmv : v ∈ subObjs R :=
    hsub v (List.mem_append_left _ (List.mem_append_right _ (self_mem_subObjs v hvv)))
  have hsubtl : ∀ u ∈ subObjs tl, u ∈ subObjs R := fun u hu =>
    hsub u (List.mem_append_right _ hu)
  simp only [encObj] at henc
  cases hrk : encObj db structs k est with
  | error e =>
    rw [hrk] at henc
    exact absurd henc (by simp [Except.bind])
  | ok rk =>
    rw [hrk] at henc
    simp only [ok_bind] at henc
    cases hrv : encObj db structs v rk.2 with
    | error e =>
      rw [hrv] at henc
      exact absurd henc (by simp [Except.bind])
    | ok rv =>
      rw [hrv] at henc
      simp only [ok_bind] at henc
      cases hrt : encObj db structs tl rv.2 with
      | error e =>
        rw [hrt] at henc
        exact absurd henc (by simp [Except.map])
      | ok rt =>
        rw [hrt] at henc
        simp only [ok_map, Except.ok.injEq, Prod.mk.injEq] at henc
        obtain ⟨hB, hst⟩ := henc
        subst hB
        subst hst
        obtain ⟨h1k, hposK, dstK, hinvK, hfreshK, hdecK⟩ :=
          hPk hvk est dst rk.1 rk.2 hwk hmk hrk hinv
        obtain ⟨h1v, hposV, dstV, hinvV, hfreshV, hdecV⟩ :=
          hPv hvv rk.2 dstK rv.1 rv.2 hwv hmv hrv hinvK
        obtain ⟨hposT, dst2, hinvT, hfreshT, hdecT⟩ :=
          hPtl hPtl2 rv.2 dstV rt.1 rt.2 hwtl hsubtl hrt hinvV
        have hdp : dst.pos = est.pos := hinv.1
        have hdpK : dstK.pos = rk.2.pos := hinvK.1
        have hdpV : dstV.pos = rv.2.pos := hinvV.1
        refine ⟨by simp only [List.length_append]; omega, dst2, hinvT, ?_, ?_⟩
        · intro q hq
          rcases hfreshT q hq with hq2 | hq2
          · rcases hfreshV q hq2 with hq3 | hq3
            · rcases hfreshK q hq3 with hq4 | hq4
              · exact Or.inl hq4
              · exact Or.inr hq4
            · exact Or.inr (by omega)
          · exact Or.inr (by omega)
        · intro fuel hfuel rest
          simp only [List.length_append] at hfuel
          obtain ⟨f2, rfl⟩ : ∃ kk, fuel = kk + 1 := ⟨fuel - 1, by omega⟩
          rw [show objLen (Obj.odcons k v tl) = objLen tl + 1 from rfl]
          rw [show eraseP (Obj.odcons k v tl) = (erase k, erase v) :: eraseP tl from rfl]
          rw [show (rk.1 ++ rv.1 ++ rt.1) ++ rest = rk.1 ++ (rv.1 ++ (rt.1 ++ rest)) from by
            simp]
          simp only [decodePairsF]
          rw [hdecK f2 (by omega) (rv.1 ++ (rt.1 ++ rest))]
          simp only [ok_bind]
          rw [hdecV f2 (by omega) (rt.1 ++ rest)]
          simp only [ok_bind]
          rw [hdecT f2 (by omega) rest]
          simp only [ok_map]

/-- The varint encoder always produces at least one byte. -/
theorem encode_variable_int_pos (v : Nat) (bs : List Nat)
    (h : encode_variable_int v = .ok bs) : 1 ≤ bs.length := by
  unfold encode_variable_int at h
  split at h
  · cases h; simp
  · split at h
    · cases h; simp
    · split at h
      · cases h; simp
      · split at h
        · cases h; simp
        · cases h

/-- `encode_string` always produces at least one byte (the length
varint). -/
theorem encode_string_pos (s B : List Nat) (h : encode_string s = .ok B) : 1 ≤ B.length := by
  unfold encode_string at h
  cases hv : pyStrEncodeUtf8 s with
  | error e => rw [hv] at h; cases h
  | ok v =>
    rw [hv] at h
    simp only [ok_bind] at h
    cases hlb : encode_variable_int v.length with
    | error e => rw [hlb] at h; cases h
    | ok lb =>
      rw [hlb] at h
      simp only [ok_map] at h
      cases h
      have := encode_variable_int_pos v.length lb hlb
      simp only [List.length_append]
      omega

/-- Payload dispatch on a control code installed for a structure known
to the decoder's schema. -/
theorem dpKnown (db : TzDb) (s : List (Nat × List Nat × List (List Nat)))
    (f code : Nat) (rem : List Nat) (st : DecSt) (sid : Nat) (targets : List (List Nat))
    (hc : 31 < code) (ht : alookup st.codeTable code = some (.known sid targets)) :
    decodePayload db s (f + 1) code rem st =
      (decodeManyF db s f targets.length rem st).bind fun r =>
        if r.1.any Val.isSkip then .error .typeError
        else .ok (.vstruct sid r.1, r.2) := by
  rw [dpTable db s f code rem st hc, ht]

/-- Payload dispatch on a control code installed for a structure the
decoder's schema does not know: the generic dict fallback. -/
theorem dpGeneric (db : TzDb) (s : List (Nat × List Nat × List (List Nat)))
    (f code : Nat) (rem : List Nat) (st : DecSt) (name : List Nat) (fields : List (List Nat))
    (hc : 31 < code) (ht : alookup st.codeTable code = some (.generic name fields)) :
    decodePayload db s (f + 1) code rem st =
      (decodeManyF db s f fields.length rem st).map fun r =>
        (.vmap name ((List.zip fields r.1).filter fun p => ! p.2.isSkip), r.2) := by
  rw [dpTable db s f code rem st hc, ht]

/-- Unfolding of a one-entry variant list read. -/
theorem decodeVariantsF_one (db : TzDb) (structs : List (Nat × List Nat × List (List Nat)))
    (f : Nat) (rem : List Nat) (st : DecSt) :
    decodeVariantsF db structs (f + 1) 1 rem st =
      (decode_variable_int rem).bind fun cr =>
      (decodeObjF db structs f false cr.2 (dadv st (rem.length - cr.2.length))).bind fun vr =>
      (decodeVariantsF db structs f 0 vr.2.1 vr.2.2).map fun rr =>
        ((cr.1, vr.1) :: rr.1, rr.2) := by
  show decodeVariantsF db structs (f + 1) (0 + 1) rem st = _
  simp only [decodeVariantsF]

/-- Running the decoder's `_declare_structure` over the bytes the
encoder's `_declare_structure` wrote for a structure the decoding schema
also knows: the field names match themselves, a `known` codec is
installed under the declared control code, and the `None` variant value
read along the way is recorded as a back-reference. -/
theorem declDecode_run (db : TzDb) (structs : List (Nat × List Nat × List (List Nat)))
    (hnd : (structs.map (fun s => s.2.1)).Nodup)
    (sid : Nat) (nf : List Nat × List (List Nat)) (hnf : alookup structs sid = some nf)
    (code : Nat) (nb cb fb fsb : List Nat)
    (hnb : encode_string nf.1 = .ok nb)
    (hcb : encode_variable_int code = .ok cb)
    (hfb : encode_variable_int nf.2.length = .ok fb)
    (hfsb : encStrList nf.2 = .ok fsb)
    (dst : DecSt) (tail : List Nat) (fuel : Nat) (hfuel : 5 ≤ fuel) :
    declDecode db structs fuel (nb ++ 1 :: (cb ++ 10 :: (fb ++ (fsb ++ tail)))) dst =
      .ok (tail,
        ⟨dst.pos + (nb.length + 1 + cb.length + 1 + (fb.length + fsb.length)),
         (dst.pos + (nb.length + 1) + cb.length, Val.vnone) :: dst.backrefs,
         aupd dst.codeTable code (.known sid nf.2)⟩) := by
  obtain ⟨f3, rfl⟩ : ∃ k2, fuel = k2 + 4 := ⟨fuel - 4, by omega⟩
  simp only [declDecode]
  rw [decode_string_of_encode nf.1 nb hnb (1 :: (cb ++ 10 :: (fb ++ (fsb ++ tail))))]
  simp only [ok_bind]
  rw [decode_variable_int_small 1 (cb ++ 10 :: (fb ++ (fsb ++ tail))) (by norm_num)]
  simp only [ok_bind]
  rw [show (nb ++ 1 :: (cb ++ 10 :: (fb ++ (fsb ++ tail)))).length
      - (cb ++ 10 :: (fb ++ (fsb ++ tail))).length = nb.length + 1 from by
    rw [List.length_append, List.length_cons]
    omega]
  rw [decodeVariantsF_one db structs (f3 + 2)]
  rw [decode_variable_int_encode _ _ _ hcb]
  simp only [ok_bind]
  rw [len_sub_rest cb (10 :: (fb ++ (fsb ++ tail)))]
  rw [dadv_dadv]
  rw [decodeObjF_code db structs (f3 + 1) false 10 (fb ++ (fsb ++ tail))
    (dadv dst (nb.length + 1 + cb.length)) (by omega) (by omega) (by omega)]
  rw [dp10 db structs f3 (fb ++ (fsb ++ tail))]
  simp only [ok_map, ok_bind]
  simp only [decodeVariantsF]
  simp only [ok_map, ok_bind]
  rw [decode_variable_int_encode _ _ _ hfb]
  simp only [ok_bind]
  rw [readStrings_encStrList nf.2 fsb hfsb tail]
  simp only [ok_bind]
  have hmem2 : (sid, nf.1, nf.2) ∈ structs := alookup_mem structs sid nf hnf
  rw [slookupName_of_mem structs sid nf.1 nf.2 hmem2 hnd]
  split
  · rename_i sf heq
    obtain ⟨s1, s2⟩ := sf
    simp only [Option.some.injEq, Prod.mk.injEq] at heq
    obtain ⟨h1s, h2s⟩ := heq
    subst h1s
    subst h2s
    rw [matchFields_self nf.2 nf.2 (fun g hg => hg)]
    simp only [ok_map, ok_bind]
    simp only [dadv, List.foldl_cons, List.foldl_nil]
    simp only [Except.ok.injEq, Prod.mk.injEq, DecSt.mk.injEq, List.cons.injEq, and_true,
      true_and]
    simp only [List.length_append, List.length_cons]
    omega
  · rename_i heq
    exact absurd heq (by simp)

/-- The struct-encoding path for a structure whose control code is
already allocated: the code's varint, then the field objects; the
decoder dispatches through its installed `known` codec and rebuilds the
record, storing a back-reference at the entry position. -/
theorem pobj_struct_known (db : TzDb) (structs : List (Nat × List Nat × List (List Nat)))
    (R : Obj) (i sid : Nat) (xs : Obj) (nf : List Nat × List (List Nat))
    (hsp : PSpine db structs R xs) (hnf : alookup structs sid = some nf)
    (hflen : objLen xs = nf.2.length) (hL : isLSpine xs = true)
    (hskip : spineNoSkip xs = true) (hwfxs : wfObj db structs xs = true)
    (hmem : Obj.ostruct i sid xs ∈ subObjs R)
    (est : EncSt) (dst : DecSt) (hinv : SyncInv structs R est dst)
    (code : Nat) (hcode : alookup est.structCodes sid = some code)
    (cb : List Nat) (hcb : encode_variable_int code = .ok cb)
    (r : List Nat × EncSt)
    (hxs : encObj db structs xs (advance est cb.length) = .ok r) :
    1 ≤ (cb ++ r.1).length ∧
    ({ r.2 with backrefs := (i, est.pos) :: r.2.backrefs } : EncSt).pos =
      est.pos + (cb ++ r.1).length ∧
    ∃ dst2, SyncInv structs R { r.2 with backrefs := (i, est.pos) :: r.2.backrefs } dst2 ∧
      (∀ q ∈ dst2.backrefs, q ∈ dst.backrefs ∨ dst.pos ≤ q.1) ∧
      ∀ fuel, 5 * (cb ++ r.1).length + 2 ≤ fuel → ∀ rest,
        decodeObjF db structs fuel true ((cb ++ r.1) ++ rest) dst =
          .ok (erase (.ostruct i sid xs), rest, dst2) := by
  have hcb1 : 1 ≤ cb.length := encode_variable_int_pos code cb hcb
  obtain ⟨h31, hle, nf2, hnf2, htbl⟩ := hinv.2.2.1 (sid, code) (alookup_mem _ _ _ hcode)
  rw [hnf] at hnf2
  injection hnf2 with hnf2
  subst hnf2
  have hsub : ∀ u ∈ subObjs xs, u ∈ subObjs R := fun u hu =>
    subObjs_trans R (.ostruct i sid xs) u hmem (by
      simp only [subObjs, List.mem_cons]
      exact Or.inr hu)
  obtain ⟨hpos2, dst2, hinv2, hfresh2, hdec2⟩ :=
    hsp hL (advance est cb.length) (dadv dst cb.length) r.1 r.2 hwfxs hsub hxs
      (inv_step_adv structs R est dst hinv cb.length)
  have hposd : dst.pos = est.pos := hinv.1
  refine ⟨by simp only [List.length_append]; omega, by
    show r.2.pos = est.pos + (cb ++ r.1).length
    simp only [List.length_append]
    simp [advance] at hpos2
    omega, ?_⟩
  refine ⟨⟨dst2.pos, (dst.pos, erase (.ostruct i sid xs)) :: dst2.backrefs, dst2.codeTable⟩,
    ?_, ?_, ?_⟩
  · have hk : ∀ q ∈ dst2.backrefs, q.1 ≠ dst.pos := by
      intro q hq
      rcases hfresh2 q hq with hq2 | hq2
      · have := hinv.2.2.2.2 q hq2
        omega
      · simp [dadv] at hq2
        omega
    have hkeys : ∀ q ∈ dst2.backrefs, q.1 ≠ est.pos := by
      intro q hq
      have := hk q hq
      omega
    have := inv_add_backref structs R r.2 dst2 hinv2 (.ostruct i sid xs) est.pos hmem
      (by simp [backrefOk]) (by simp [advance] at hpos2; omega) hkeys
    rw [hposd]
    exact this
  · intro q hq
    rcases List.mem_cons.mp hq with rfl | hq
    · exact Or.inr (le_refl _)
    · rcases hfresh2 q hq with hq2 | hq2
      · exact Or.inl hq2
      · simp [dadv] at hq2
        exact Or.inr (by omega)
  · intro fuel hfuel rest
    simp only [List.length_append] at hfuel
    obtain ⟨f2, rfl⟩ : ∃ k2, fuel = k2 + 2 := ⟨fuel - 2, by omega⟩
    rw [show (cb ++ r.1) ++ rest = cb ++ (r.1 ++ rest) from by simp]
    simp only [decodeObjF]
    rw [decode_variable_int_encode _ _ _ hcb]
    simp only [ok_bind]
    rw [if_neg (by omega), if_neg (by omega)]
    rw [len_sub_rest cb (r.1 ++ rest)]
    rw [dpKnown db structs f2 code (r.1 ++ rest) (dadv dst cb.length) sid nf.2 h31
      (show alookup (dadv dst cb.length).codeTable code = some (.known sid nf.2) from htbl)]
    rw [← hflen]
    rw [hdec2 f2 (by omega) rest]
    simp only [ok_bind]
    rw [if_neg (by simp [eraseL_no_skip xs hL hskip])]
    simp only [ok_map]
    rfl

theorem pobj_ostruct (db : TzDb) (structs : List (Nat × List Nat × List (List Nat)))
    (R : Obj) (hcoh : Coherent R) (hws : wfStructs structs)
    (i sid : Nat) (xs : Obj) (hsp : PSpine db structs R xs) :
    PObj db structs R (.ostruct i sid xs) := by
  intro est dst B est2 hwf hmem henc hinv
  simp only [wfObj, Bool.and_eq_true] at hwf
  obtain ⟨⟨⟨hmatch, hL⟩, hskip⟩, hwfxs⟩ := hwf
  cases hnf : alookup structs sid with
  | none =>
    rw [hnf] at hmatch
    simp at hmatch
  | some nf =>
    rw [hnf] at hmatch
    have hflen : objLen xs = nf.2.length := by simpa using hmatch
    simp only [encObj] at henc
    cases hsc2 : alookup est.structCodes sid with
    | some code =>
      rw [hsc2] at henc
      cases hlk : alookup est.backrefs i with
      | some p =>
        rw [hlk] at henc
        simp only [backrefBytes] at henc
        cases hob : encode_variable_int (est.pos - p) with
        | error e =>
          rw [hob] at henc
          exact absurd henc (by simp [Except.map])
        | ok ob =>
          rw [hob] at henc
          simp only [ok_map, Except.ok.injEq, Prod.mk.injEq] at henc
          obtain ⟨hB, hst⟩ := henc
          subst hB
          subst hst
          exact pobj_backref_hit db structs R (.ostruct i sid xs) p est dst hinv hcoh hmem
            hlk ob hob
      | none =>
        rw [hlk] at henc
        simp only [] at henc
        cases hcb : encode_variable_int code with
        | error e =>
          rw [hcb] at henc
          exact absurd henc (by simp [Except.bind])
        | ok cb =>
          rw [hcb] at henc
          simp only [ok_bind] at henc
          cases hxs : encObj db structs xs (advance est cb.length) with
          | error e =>
            rw [hxs] at henc
            exact absurd henc (by simp [Except.map])
          | ok r =>
            rw [hxs] at henc
            simp only [ok_map, Except.ok.injEq, Prod.mk.injEq] at henc
            obtain ⟨hB, hst⟩ := henc
            subst hB
            subst hst
            exact pobj_struct_known db structs R i sid xs nf hsp hnf hflen hL hskip hwfxs
              hmem est dst hinv code hsc2 cb hcb r hxs
    | none =>
      rw [hsc2, hnf] at henc
      simp only [] at henc
      cases hdcl : declBytes nf.1 (est.maxCode + 1) nf.2 with
      | error e =>
        rw [hdcl] at henc
        exact absurd henc (by simp [Except.bind])
      | ok dcl =>
        rw [hdcl] at henc
        simp only [ok_bind] at henc
        cases hcb : encode_variable_int (est.maxCode + 1) with
        | error e =>
          rw [hcb] at henc
          exact absurd henc (by simp [Except.bind])
        | ok cb =>
          rw [hcb] at henc
          simp only [ok_bind] at henc
          cases hxs : encObj db structs xs
              (advance { advance est dcl.length with
                structCodes := (sid, est.maxCode + 1) :: est.structCodes,
                maxCode := est.maxCode + 1 } cb.length) with
          | error e =>
            rw [hxs] at henc
            exact absurd henc (by simp [Except.map])
          | ok r =>
            rw [hxs] at henc
            simp only [ok_map, Except.ok.injEq, Prod.mk.injEq] at henc
            obtain ⟨hB, hst⟩ := henc
            subst hB
            subst hst
            -- split the declaration bytes into their parts
            simp only [declBytes] at hdcl
            cases hnb : encode_string nf.1 with
            | error e =>
              rw [hnb] at hdcl
              exact absurd hdcl (by simp [Except.bind])
            | ok nb =>
              rw [hnb, hcb] at hdcl
              simp only [ok_bind] at hdcl
              cases hfb : encode_variable_int nf.2.length with
              | error e =>
                rw [hfb] at hdcl
                exact absurd hdcl (by simp [Except.bind])
              | ok fb =>
                rw [hfb] at hdcl
                simp only [ok_bind] at hdcl
                cases hfsb : encStrList nf.2 with
                | error e =>
                  rw [hfsb] at hdcl
                  exact absurd hdcl (by simp [Except.map])
                | ok fsb =>
                  rw [hfsb] at hdcl
                  simp only [ok_map, Except.ok.injEq] at hdcl
                  subst hdcl
                  have hassoc : (0 :: nb ++ 1 :: cb ++ 10 :: fb ++ fsb : List Nat)
                      = 0 :: (nb ++ 1 :: (cb ++ 10 :: (fb ++ fsb))) := by simp
                  rw [hassoc] at hxs ⊢
                  have hnb1 : 1 ≤ nb.length := encode_string_pos nf.1 nb hnb
                  have hcb1 : 1 ≤ cb.length := encode_variable_int_pos _ cb hcb
                  have hfb1 : 1 ≤ fb.length := encode_variable_int_pos _ fb hfb
                  have hmax : 31 ≤ est.maxCode := hinv.2.1
                  have hposd : dst.pos = est.pos := hinv.1
                  have hdcll : (0 :: (nb ++ 1 :: (cb ++ 10 :: (fb ++ fsb)))).length
                      = 1 + (nb.length + 1 + cb.length + 1 + (fb.length + fsb.length)) := by
                    simp only [List.length_append, List.length_cons]
                    omega
                  have hinvD : SyncInv structs R
                      { advance est (0 :: (nb ++ 1 :: (cb ++ 10 :: (fb ++ fsb)))).length with
                        structCodes := (sid, est.maxCode + 1) :: est.structCodes,
                        maxCode := est.maxCode + 1 }
                      ⟨dst.pos + 1 + (nb.length + 1 + cb.length + 1
                          + (fb.length + fsb.length)),
                       (dst.pos + 1 + (nb.length + 1) + cb.length, Val.vnone) :: dst.backrefs,
                       aupd dst.codeTable (est.maxCode + 1) (.known sid nf.2)⟩ := by
                    obtain ⟨hpos0, hmax0, hsc0, hbr0, hdk0⟩ := hinv
                    refine ⟨?_, by simp; omega, ?_, ?_, ?_⟩
                    · simp [advance, hdcll]
                      omega
                    · intro p hp
                      rcases List.mem_cons.mp hp with rfl | hp
                      · refine ⟨by omega, by simp [advance] <;> omega, nf, hnf, ?_⟩
                        exact alookup_aupd_self _ _ _
                      · obtain ⟨h31p, hlep, nfp, hnfp, htblp⟩ := hsc0 p hp
                        refine ⟨h31p, by simp [advance] <;> omega, nfp, hnfp, ?_⟩
                        show alookup (aupd dst.codeTable (est.maxCode + 1)
                          (.known sid nf.2)) p.2 = some (.known p.1 nfp.2)
                        rw [alookup_aupd_ne _ _ _ _ (by omega)]
                        exact htblp
                    · intro q hq
                      obtain ⟨hqlt, w, hw, hoid, hok, hlook⟩ := hbr0 q hq
                      refine ⟨by simp [advance] <;> omega, w, hw, hoid, hok, ?_⟩
                      show alookup ((dst.pos + 1 + (nb.length + 1) + cb.length, Val.vnone)
                        :: dst.backrefs) q.2 = some (erase w)
                      unfold alookup
                      rw [if_neg (by omega), hlook]
                    · intro q hq
                      rcases List.mem_cons.mp hq with rfl | hq
                      · show dst.pos + 1 + (nb.length + 1) + cb.length
                          < dst.pos + 1 + (nb.length + 1 + cb.length + 1
                            + (fb.length + fsb.length))
                        omega
                      · have := hdk0 q hq
                        show q.1 < dst.pos + 1 + (nb.length + 1 + cb.length + 1
                          + (fb.length + fsb.length))
                        omega
                  have hcodeD : alookup ({ advance est
                        (0 :: (nb ++ 1 :: (cb ++ 10 :: (fb ++ fsb)))).length with
                      structCodes := (sid, est.maxCode + 1) :: est.structCodes,
                      maxCode := est.maxCode + 1 } : EncSt).structCodes sid
                      = some (est.maxCode + 1) := by
                    show alookup ((sid, est.maxCode + 1) :: est.structCodes) sid = _
                    unfold alookup
                    rw [if_pos rfl]
                  obtain ⟨hB1, hposK, dst2, hinvK, hfreshK, hdecK⟩ :=
                    pobj_struct_known db structs R i sid xs nf hsp hnf hflen hL hskip hwfxs
                      hmem _ _ hinvD (est.maxCode + 1) hcodeD cb hcb r hxs
                  refine ⟨by simp, ?_, dst2, hinvK, ?_, ?_⟩
                  · show r.2.pos = est.pos
                      + (((0 :: (nb ++ 1 :: (cb ++ 10 :: (fb ++ fsb)))) ++ cb) ++ r.1).length
                    have h2 := hposK
                    simp only [List.length_append, List.length_cons] at h2 ⊢
                    simp [advance] at h2
                    omega
                  · intro q hq
                    rcases hfreshK q hq with hq2 | hq2
                    · rcases List.mem_cons.mp hq2 with rfl | hq3
                      · exact Or.inr (by
                          show dst.pos ≤ dst.pos + 1 + (nb.length + 1) + cb.length
                          omega)
                      · exact Or.inl hq3
                    · refine Or.inr ?_
                      have h3 : dst.pos + 1 + (nb.length + 1 + cb.length + 1
                          + (fb.length + fsb.length)) ≤ q.1 := hq2
                      omega
                  · intro fuel hfuel rest
                    have hlenB : (((0 :: (nb ++ 1 :: (cb ++ 10 :: (fb ++ fsb)))) ++ cb)
                        ++ r.1).length = 1 + (nb.length + 1 + cb.length + 1
                          + (fb.length + fsb.length)) + cb.length + r.1.length := by
                      simp only [List.length_append, List.length_cons]
                      omega
                    rw [hlenB] at hfuel
                    obtain ⟨f, rfl⟩ : ∃ k2, fuel = k2 + 1 := ⟨fuel - 1, by omega⟩
                    rw [show (((0 :: (nb ++ 1 :: (cb ++ 10 :: (fb ++ fsb)))) ++ cb) ++ r.1)
                        ++ rest = 0 :: (nb ++ 1 :: (cb ++ 10 :: (fb
                          ++ (fsb ++ (cb ++ (r.1 ++ rest)))))) from by simp]
                    rw [decodeObjF_zero db structs f _ dst]
                    rw [declDecode_run db structs hws.2.1 sid nf hnf (est.maxCode + 1)
                      nb cb fb fsb hnb hcb hfb hfsb (dadv dst 1) (cb ++ (r.1 ++ rest))
                      f (by omega)]
                    simp only [ok_bind, dadv]
                    rw [show cb ++ (r.1 ++ rest) = (cb ++ r.1) ++ rest from by simp]
                    rw [hdecK f (by rw [List.length_append]; omega) rest]

/-- A non-spine node vacuously satisfies the element-spine property. -/
theorem pspine_not (db : TzDb) (structs : List (Nat × List Nat × List (List Nat)))
    (R v : Obj) (h : isLSpine v = false) : PSpine db structs R v := by
  intro hL
  rw [h] at hL
  simp at hL

/-- A non-pair-spine node vacuously satisfies the pair-spine property. -/
theorem ppspine_not (db : TzDb) (structs : List (Nat × List Nat × List (List Nat)))
    (R v : Obj) (h : isPSpine v = false) : PPSpine db structs R v := by
  intro hP
  rw [h] at hP
  simp at hP

/-- A spine node vacuously satisfies the guarded object property. -/
theorem pobj_not (db : TzDb) (structs : List (Nat × List Nat × List (List Nat)))
    (R v : Obj) (h : isValObj v = false) : isValObj v = true → PObj db structs R v := by
  intro h2
  rw [h] at h2
  simp at h2

/-- The synchronization soundness of every object, by strong induction on
the structural size: each value node satisfies `PObj`, and every spine
satisfies its run property. -/
theorem sync_main (db : TzDb) (structs : List (Nat × List Nat × List (List Nat)))
    (R : Obj) (hcoh : Coherent R) (hws : wfStructs structs) :
    ∀ n v, objSize v ≤ n →
      (isValObj v = true → PObj db structs R v) ∧
      PSpine db structs R v ∧ PPSpine db structs R v := by
  intro n
  induction n with
  | zero =>
    intro v hv
    exact absurd hv (by cases v <;> simp [objSize])
  | succ n ih =>
    intro v hv
    cases v with
    | oskip i =>
      exact ⟨fun _ => pobj_oskip db structs R i, pspine_not db structs R _ rfl,
        ppspine_not db structs R _ rfl⟩
    | onone i =>
      exact ⟨fun _ => pobj_onone db structs R i, pspine_not db structs R _ rfl,
        ppspine_not db structs R _ rfl⟩
    | oellipsis i =>
      exact ⟨fun _ => pobj_oellipsis db structs R i, pspine_not db structs R _ rfl,
        ppspine_not db structs R _ rfl⟩
    | obool i b =>
      exact ⟨fun _ => pobj_obool db structs R i b, pspine_not db structs R _ rfl,
        ppspine_not db structs R _ rfl⟩
    | oint i m =>
      exact ⟨fun _ => pobj_oint db structs R hcoh i m, pspine_not db structs R _ rfl,
        ppspine_not db structs R _ rfl⟩
    | obytes i bs =>
      exact ⟨fun _ => pobj_obytes db structs R hcoh i bs, pspine_not db structs R _ rfl,
        ppspine_not db structs R _ rfl⟩
    | ostr i s =>
      exact ⟨fun _ => pobj_ostr db structs R hcoh i s, pspine_not db structs R _ rfl,
        ppspine_not db structs R _ rfl⟩
    | ofloat i bits =>
      exact ⟨fun _ => pobj_ofloat db structs R hcoh i bits, pspine_not db structs R _ rfl,
        ppspine_not db structs R _ rfl⟩
    | odec i d =>
      exact ⟨fun _ => pobj_odec db structs R i d, pspine_not db structs R _ rfl,
        ppspine_not db structs R _ rfl⟩
    | odt i dt =>
      exact ⟨fun _ => pobj_odt db structs R hcoh i dt, pspine_not db structs R _ rfl,
        ppspine_not db structs R _ rfl⟩
    | otuple i xs =>
      have hxs := ih xs (by have h2 : objSize xs + 1 ≤ n + 1 := hv; omega)
      exact ⟨fun _ => pobj_otuple db structs R hcoh i xs hxs.2.1,
        pspine_not db structs R _ rfl, ppspine_not db structs R _ rfl⟩
    | olist i xs =>
      have hxs := ih xs (by have h2 : objSize xs + 1 ≤ n + 1 := hv; omega)
      exact ⟨fun _ => pobj_olist db structs R hcoh i xs hxs.2.1,
        pspine_not db structs R _ rfl, ppspine_not db structs R _ rfl⟩
    | oset i xs =>
      have hxs := ih xs (by have h2 : objSize xs + 1 ≤ n + 1 := hv; omega)
      exact ⟨fun _ => pobj_oset db structs R hcoh i xs hxs.2.1,
        pspine_not db structs R _ rfl, ppspine_not db structs R _ rfl⟩
    | odict i xs =>
      have hxs := ih xs (by have h2 : objSize xs + 1 ≤ n + 1 := hv; omega)
      exact ⟨fun _ => pobj_odict db structs R hcoh i xs hxs.2.2,
        pspine_not db structs R _ rfl, ppspine_not db structs R _ rfl⟩
    | ostruct i sid xs =>
      have hxs := ih xs (by have h2 : objSize xs + 1 ≤ n + 1 := hv; omega)
      exact ⟨fun _ => pobj_ostruct db structs R hcoh hws i sid xs hxs.2.1,
        pspine_not db structs R _ rfl, ppspine_not db structs R _ rfl⟩
    | onil =>
      exact ⟨pobj_not db structs R _ rfl, psp_onil db structs R,
        ppspine_not db structs R _ rfl⟩
    | ocons a tl =>
      have ha := ih a (by have h2 : objSize a + objSize tl + 1 ≤ n + 1 := hv; omega)
      have htl := ih tl (by have h2 : objSize a + objSize tl + 1 ≤ n + 1 := hv; omega)
      exact ⟨pobj_not db structs R _ rfl, psp_ocons db structs R a tl ha.1 htl.2.1,
        ppspine_not db structs R _ rfl⟩
    | odnil =>
      exact ⟨pobj_not db structs R _ rfl, pspine_not db structs R _ rfl,
        ppsp_odnil db structs R⟩
    | odcons k w tl =>
      have hk := ih k (by
        have h2 : objSize k + objSize w + objSize tl + 1 ≤ n + 1 := hv
        omega)
      have hw := ih w (by
        have h2 : objSize k + objSize w + objSize tl + 1 ≤ n + 1 := hv
        omega)
      have htl := ih tl (by
        have h2 : objSize k + objSize w + objSize tl + 1 ≤ n + 1 := hv
        omega)
      exact ⟨pobj_not db structs R _ rfl, pspine_not db structs R _ rfl,
        ppsp_odcons db structs R k w tl hk.1 hw.1 htl.2.2⟩

/-- `Schema.dump_bytes`: encode one object with a fresh `EncoderContext`
(write position 0, no back-references, no structure codes,
`_max_control_code` 31 after the default registrations) and return the
bytes written. -/
def dumpBytesM (db : TzDb) (structs : List (Nat × List Nat × List (List Nat)))
    (v : Obj) : Except PyErr (List Nat) :=
  (encObj db structs v ⟨0, [], [], 31⟩).map fun r => r.1

/-- `Schema.load_bytes`: decode one object with a fresh `DecoderContext`
and raise ValueError when any input bytes remain unconsumed.  The fuel
`5 * length + 2` covers any stream of that length. -/
def loadBytesM (db : TzDb) (structs : List (Nat × List Nat × List (List Nat)))
    (bytes : List Nat) : Except PyErr Val :=
  (decodeObjF db structs (5 * bytes.length + 2) true bytes ⟨0, [], []⟩).bind fun r =>
    if r.2.1 = [] then .ok r.1 else .error .valueError

/-- A timezone database with no IANA zones, for concrete instances. -/
def tdb0 : TzDb := ⟨fun _ => false, fun _ _ => 0⟩

/-- The fresh encoder and decoder contexts are synchronized. -/
theorem syncInv_init (structs : List (Nat × List Nat × List (List Nat))) (R : Obj) :
    SyncInv structs R ⟨0, [], [], 31⟩ ⟨0, [], []⟩ := by
  refine ⟨rfl, le_refl _, ?_, ?_, ?_⟩ <;> intro q hq <;> simp at hq

/-- What `dump_bytes` wrote, a fresh decoder reads back as the erasure of
the object, for any sufficient fuel and trailing bytes. -/
theorem dump_sound (db : TzDb) (structs : List (Nat × List Nat × List (List Nat)))
    (v : Obj) (hws : wfStructs structs) (hcoh : Coherent v)
    (hval : isValObj v = true) (hwf : wfObj db structs v = true)
    (B : List Nat) (hdump : dumpBytesM db structs v = .ok B) :
    ∃ dst2, ∀ fuel, 5 * B.length + 2 ≤ fuel → ∀ rest,
      decodeObjF db structs fuel true (B ++ rest) ⟨0, [], []⟩ =
        .ok (erase v, rest, dst2) := by
  unfold dumpBytesM at hdump
  cases henc : encObj db structs v ⟨0, [], [], 31⟩ with
  | error e => rw [henc] at hdump; cases hdump
  | ok r =>
    rw [henc] at hdump
    simp only [ok_map, Except.ok.injEq] at hdump
    subst hdump
    obtain ⟨h1, hpos, dst2, hinv2, hfresh, hdec⟩ :=
      (sync_main db structs v hcoh hws (objSize v) v (le_refl _)).1 hval
        ⟨0, [], [], 31⟩ ⟨0, [], []⟩ r.1 r.2 hwf (self_mem_subObjs v hval) henc
        (syncInv_init structs v)
    exact ⟨dst2, hdec⟩

/-- The restricted round-trip: `load_bytes` of `dump_bytes` returns the
erasure of the encoded object. -/
theorem dump_load_ok (db : TzDb) (structs : List (Nat × List Nat × List (List Nat)))
    (v : Obj) (hws : wfStructs structs) (hcoh : Coherent v)
    (hval : isValObj v = true) (hwf : wfObj db structs v = true)
    (B : List Nat) (hdump : dumpBytesM db structs v = .ok B) :
    loadBytesM db structs B = .ok (erase v) := by
  obtain ⟨dst2, hdec⟩ := dump_sound db structs v hws hcoh hval hwf B hdump
  unfold loadBytesM
  have h := hdec (5 * B.length + 2) (le_refl _) []
  rw [List.append_nil] at h
  rw [h]
  simp only [ok_bind]
  rfl

/-- Extract the intermediate of a successful `Except.map`. -/
theorem map_ok {α β : Type} (E : Except PyErr α) (f : α → β) (r : β)
    (h : E.map f = .ok r) : ∃ x, E = .ok x ∧ f x = r := by
  cases E with
  | error e => simp [Except.map] at h
  | ok x => exact ⟨x, rfl, by simpa [Except.map] using h⟩

/-- Extract the intermediate of a successful `Except.bind`. -/
theorem bind_ok {α β : Type} (E : Except PyErr α) (f : α → Except PyErr β) (r : β)
    (h : E.bind f = .ok r) : ∃ x, E = .ok x ∧ f x = .ok r := by
  cases E with
  | error e => simp [Except.bind] at h
  | ok x => exact ⟨x, rfl, by simpa [Except.bind] using h⟩

/-- Encoding never removes a structure's allocated control code. -/
theorem encObj_structCodes_mono (db : TzDb)
    (structs : List (Nat × List Nat × List (List Nat))) (v : Obj) :
    ∀ st r, encObj db structs v st = .ok r →
      ∀ sd cc, alookup st.structCodes sd = some cc →
        alookup r.2.structCodes sd = some cc := by
  induction v with
  | oskip i =>
    intro st r h sd cc hc
    simp only [encObj, Except.ok.injEq] at h
    subst h
    exact hc
  | onone i =>
    intro st r h sd cc hc
    simp only [encObj, Except.ok.injEq] at h
    subst h
    exact hc
  | oellipsis i =>
    intro st r h sd cc hc
    simp only [encObj, Except.ok.injEq] at h
    subst h
    exact hc
  | obool i b =>
    intro st r h sd cc hc
    simp only [encObj, Except.ok.injEq] at h
    subst h
    exact hc
  | oint i n =>
    intro st r h sd cc hc
    simp only [encObj] at h
    split at h
    · simp only [Except.ok.injEq] at h
      subst h
      exact hc
    · split at h
      · simp only [Except.ok.injEq] at h
        subst h
        exact hc
      · split at h
        · simp only [Except.ok.injEq] at h
          subst h
          exact hc
        · split at h
          · simp only [Except.ok.injEq] at h
            subst h
            exact hc
          · split at h
            · obtain ⟨x, hx, hr⟩ := map_ok _ _ _ h
              subst hr
              exact hc
            · obtain ⟨x, hx, hr⟩ := map_ok _ _ _ h
              subst hr
              exact hc
  | obytes i bs =>
    intro st r h sd cc hc
    simp only [encObj] at h
    split at h
    · obtain ⟨x, hx, hr⟩ := map_ok _ _ _ h
      subst hr
      exact hc
    · obtain ⟨x, hx, hr⟩ := map_ok _ _ _ h
      subst hr
      exact hc
  | ostr i s =>
    intro st r h sd cc hc
    simp only [encObj] at h
    split at h
    · simp only [Except.ok.injEq] at h
      subst h
      exact hc
    · split at h
      · obtain ⟨x, hx, hr⟩ := map_ok _ _ _ h
        subst hr
        exact hc
      · split at h
        · obtain ⟨x, hx, hr⟩ := map_ok _ _ _ h
          subst hr
          exact hc
        · obtain ⟨x, hx, hr⟩ := map_ok _ _ _ h
          subst hr
          exact hc
  | ofloat i bits =>
    intro st r h sd cc hc
    simp only [encObj] at h
    split at h
    · obtain ⟨x, hx, hr⟩ := map_ok _ _ _ h
      subst hr
      exact hc
    · simp only [Except.ok.injEq] at h
      subst h
      exact hc
  | odec i d =>
    intro st r h sd cc hc
    simp only [encObj] at h
    obtain ⟨x, hx, hr⟩ := map_ok _ _ _ h
    subst hr
    exact hc
  | odt i dt =>
    intro st r h sd cc hc
    simp only [encObj] at h
    split at h
    · obtain ⟨x, hx, hr⟩ := map_ok _ _ _ h
      subst hr
      exact hc
    · obtain ⟨x, hx, hr⟩ := map_ok _ _ _ h
      subst hr
      exact hc
  | otuple i xs ih =>
    intro st r h sd cc hc
    simp only [encObj] at h
    split at h
    · obtain ⟨x, hx, hr⟩ := map_ok _ _ _ h
      subst hr
      exact hc
    · obtain ⟨lb, hlb, h2⟩ := bind_ok _ _ _ h
      obtain ⟨y, hy, hr⟩ := map_ok _ _ _ h2
      subst hr
      exact ih _ y hy sd cc hc
  | olist i xs ih =>
    intro st r h sd cc hc
    simp only [encObj] at h
    split at h
    · obtain ⟨x, hx, hr⟩ := map_ok _ _ _ h
      subst hr
      exact hc
    · obtain ⟨lb, hlb, h2⟩ := bind_ok _ _ _ h
      obtain ⟨y, hy, hr⟩ := map_ok _ _ _ h2
      subst hr
      exact ih _ y hy sd cc hc
  | oset i xs ih =>
    intro st r h sd cc hc
    simp only [encObj] at h
    split at h
    · obtain ⟨x, hx, hr⟩ := map_ok _ _ _ h
      subst hr
      exact hc
    · obtain ⟨lb, hlb, h2⟩ := bind_ok _ _ _ h
      obtain ⟨y, hy, hr⟩ := map_ok _ _ _ h2
      subst hr
      exact ih _ y hy sd cc hc
  | odict i xs ih =>
    intro st r h sd cc hc
    simp only [encObj] at h
    split at h
    · obtain ⟨x, hx, hr⟩ := map_ok _ _ _ h
      subst hr
      exact hc
    · obtain ⟨lb, hlb, h2⟩ := bind_ok _ _ _ h
      obtain ⟨y, hy, hr⟩ := map_ok _ _ _ h2
      subst hr
      exact ih _ y hy sd cc hc
  | ostruct i sid xs ih =>
    intro st r h sd cc hc
    simp only [encObj] at h
    split at h
    · split at h
      · obtain ⟨x, hx, hr⟩ := map_ok _ _ _ h
        subst hr
        exact hc
      · obtain ⟨cb, hcb, h2⟩ := bind_ok _ _ _ h
        obtain ⟨y, hy, hr⟩ := map_ok _ _ _ h2
        subst hr
        exact ih _ y hy sd cc hc
    · rename_i hsc
      split at h
      · simp at h
      · obtain ⟨dcl, hdcl, h2⟩ := bind_ok _ _ _ h
        obtain ⟨cb, hcb, h3⟩ := bind_ok _ _ _ h2
        obtain ⟨y, hy, hr⟩ := map_ok _ _ _ h3
        subst hr
        refine ih _ y hy sd cc ?_
        have hne : sd ≠ sid := by
          intro he
          rw [← he] at hsc
          rw [hc] at hsc
          cases hsc
        show alookup ((sid, st.maxCode + 1) :: st.structCodes) sd = some cc
        unfold alookup
        rw [if_neg hne]
        exact hc
  | onil =>
    intro st r h sd cc hc
    simp only [encObj, Except.ok.injEq] at h
    subst h
    exact hc
  | ocons a tl iha ihtl =>
    intro st r h sd cc hc
    simp only [encObj] at h
    obtain ⟨ra, hra, h2⟩ := bind_ok _ _ _ h
    obtain ⟨rt, hrt, hr⟩ := map_ok _ _ _ h2
    subst hr
    exact ihtl _ rt hrt sd cc (iha _ ra hra sd cc hc)
  | odnil =>
    intro st r h sd cc hc
    simp only [encObj, Except.ok.injEq] at h
    subst h
    exact hc
  | odcons k w tl ihk ihw ihtl =>
    intro st r h sd cc hc
    simp only [encObj] at h
    obtain ⟨rk, hrk, h2⟩ := bind_ok _ _ _ h
    obtain ⟨rw2, hrw, h3⟩ := bind_ok _ _ _ h2
    obtain ⟨rt, hrt, hr⟩ := map_ok _ _ _ h3
    subst hr
    exact ihtl _ rt hrt sd cc (ihw _ rw2 hrw sd cc (ihk _ rk hrk sd cc hc))

/-- A successful encoding of a structure leaves its control code
allocated. -/
theorem encObj_declares (db : TzDb) (structs : List (Nat × List Nat × List (List Nat)))
    (i sid : Nat) (xs : Obj) (st : EncSt) (r : List Nat × EncSt)
    (henc : encObj db structs (.ostruct i sid xs) st = .ok r) :
    ∃ c, alookup r.2.structCodes sid = some c := by
  simp only [encObj] at henc
  split at henc
  · rename_i code hsc
    split at henc
    · obtain ⟨x, hx, hr⟩ := map_ok _ _ _ henc
      subst hr
      exact ⟨code, hsc⟩
    · obtain ⟨cb, hcb, h2⟩ := bind_ok _ _ _ henc
      obtain ⟨y, hy, hr⟩ := map_ok _ _ _ h2
      subst hr
      exact ⟨code, encObj_structCodes_mono db structs xs _ y hy sid code hsc⟩
  · split at henc
    · simp at henc
    · obtain ⟨dcl, hdcl, h2⟩ := bind_ok _ _ _ henc
      obtain ⟨cb, hcb, h3⟩ := bind_ok _ _ _ h2
      obtain ⟨y, hy, hr⟩ := map_ok _ _ _ h3
      subst hr
      refine ⟨st.maxCode + 1, encObj_structCodes_mono db structs xs _ y hy sid _ ?_⟩
      show alookup ((sid, st.maxCode + 1) :: st.structCodes) sid = some (st.maxCode + 1)
      unfold alookup
      rw [if_pos rfl]

/-- Freshly encoding a back-referable value pushes its identity, mapped
to a position at or after the entry position, on top of the
back-reference table. -/
theorem encObj_backref_push (db : TzDb) (structs : List (Nat × List Nat × List (List Nat)))
    (v : Obj) (st : EncSt) (r : List Nat × EncSt) (hok : backrefOk v = true)
    (hlk : alookup st.backrefs (oidOf v) = none)
    (henc : encObj db structs v st = .ok r) :
    ∃ p tl, st.pos ≤ p ∧ r.2.backrefs = (oidOf v, p) :: tl := by
  cases v with
  | oskip i => cases hok
  | onone i => cases hok
  | oellipsis i => cases hok
  | obool i b => cases hok
  | odec i d => cases hok
  | onil => cases hok
  | ocons a tl => cases hok
  | odnil => cases hok
  | odcons k w tl => cases hok
  | oint i n =>
    have hbig : 8 < (7 + pyBitLength n) / 8 := by simpa [backrefOk] using hok
    have hlk2 : alookup st.backrefs i = none := hlk
    simp only [encObj] at henc
    rw [if_neg (by omega), if_neg (by omega), if_neg (by omega), if_neg (by omega)] at henc
    split at henc
    · rename_i p hp
      rw [hlk2] at hp
      simp at hp
    · obtain ⟨x, hx, hr⟩ := map_ok _ _ _ henc
      subst hr
      exact ⟨st.pos, st.backrefs, le_refl _, rfl⟩
  | obytes i bs =>
    have hlk2 : alookup st.backrefs i = none := hlk
    simp only [encObj] at henc
    split at henc
    · rename_i p hp
      rw [hlk2] at hp
      simp at hp
    · obtain ⟨x, hx, hr⟩ := map_ok _ _ _ henc
      subst hr
      exact ⟨st.pos, st.backrefs, le_refl _, rfl⟩
  | ostr i s =>
    have hs2 : 2 ≤ s.length := by simpa [backrefOk] using hok
    have hlk2 : alookup st.backrefs i = none := hlk
    simp only [encObj] at henc
    rw [if_neg (by omega), if_neg (by omega)] at henc
    split at henc
    · rename_i p hp
      rw [hlk2] at hp
      simp at hp
    · obtain ⟨x, hx, hr⟩ := map_ok _ _ _ henc
      subst hr
      exact ⟨st.pos, st.backrefs, le_refl _, rfl⟩
  | ofloat i bits =>
    have hlk2 : alookup st.backrefs i = none := hlk
    simp only [encObj] at henc
    split at henc
    · rename_i p hp
      rw [hlk2] at hp
      simp at hp
    · simp only [Except.ok.injEq] at henc
      subst henc
      exact ⟨st.pos, st.backrefs, le_refl _, rfl⟩
  | odt i dt =>
    have hlk2 : alookup st.backrefs i = none := hlk
    simp only [encObj] at henc
    split at henc
    · rename_i p hp
      rw [hlk2] at hp
      simp at hp
    · obtain ⟨x, hx, hr⟩ := map_ok _ _ _ henc
      subst hr
      exact ⟨st.pos, st.backrefs, le_refl _, rfl⟩
  | otuple i xs =>
    have hlk2 : alookup st.backrefs i = none := hlk
    simp only [encObj] at henc
    split at henc
    · rename_i p hp
      rw [hlk2] at hp
      simp at hp
    · obtain ⟨lb, hlb, h2⟩ := bind_ok _ _ _ henc
      obtain ⟨y, hy, hr⟩ := map_ok _ _ _ h2
      subst hr
      exact ⟨st.pos, y.2.backrefs, le_refl _, rfl⟩
  | olist i xs =>
    have hlk2 : alookup st.backrefs i = none := hlk
    simp only [encObj] at henc
    split at henc
    · rename_i p hp
      rw [hlk2] at hp
      simp at hp
    · obtain ⟨lb, hlb, h2⟩ := bind_ok _ _ _ henc
      obtain ⟨y, hy, hr⟩ := map_ok _ _ _ h2
      subst hr
      exact ⟨st.pos, y.2.backrefs, le_refl _, rfl⟩
  | oset i xs =>
    have hlk2 : alookup st.backrefs i = none := hlk
    simp only [encObj] at henc
    split at henc
    · rename_i p hp
      rw [hlk2] at hp
      simp at hp
    · obtain ⟨lb, hlb, h2⟩ := bind_ok _ _ _ henc
      obtain ⟨y, hy, hr⟩ := map_ok _ _ _ h2
      subst hr
      exact ⟨st.pos, y.2.backrefs, le_refl _, rfl⟩
  | odict i xs =>
    have hlk2 : alookup st.backrefs i = none := hlk
    simp only [encObj] at henc
    split at henc
    · rename_i p hp
      rw [hlk2] at hp
      simp at hp
    · obtain ⟨lb, hlb, h2⟩ := bind_ok _ _ _ henc
      obtain ⟨y, hy, hr⟩ := map_ok _ _ _ h2
      subst hr
      exact ⟨st.pos, y.2.backrefs, le_refl _, rfl⟩
  | ostruct i sid xs =>
    have hlk2 : alookup st.backrefs i = none := hlk
    simp only [encObj] at henc
    split at henc
    · split at henc
      · rename_i p hp
        rw [hlk2] at hp
        simp at hp
      · obtain ⟨cb, hcb, h2⟩ := bind_ok _ _ _ henc
        obtain ⟨y, hy, hr⟩ := map_ok _ _ _ h2
        subst hr
        exact ⟨st.pos, y.2.backrefs, le_refl _, rfl⟩
    · split at henc
      · simp at henc
      · obtain ⟨dcl, hdcl, h2⟩ := bind_ok _ _ _ henc
        obtain ⟨cb, hcb, h3⟩ := bind_ok _ _ _ h2
        obtain ⟨y, hy, hr⟩ := map_ok _ _ _ h3
        subst hr
        refine ⟨(advance st dcl.length).pos, y.2.backrefs, ?_, rfl⟩
        show st.pos ≤ st.pos + dcl.length
        omega

/-- Encoding a back-referable value whose identity is recorded writes
exactly the control code 1 and the varint offset. -/
theorem encObj_backref_short (db : TzDb) (structs : List (Nat × List Nat × List (List Nat)))
    (v : Obj) (st : EncSt) (p : Nat) (hok : backrefOk v = true)
    (hlk : alookup st.backrefs (oidOf v) = some p)
    (hstruct : ∀ i sid xs, v = .ostruct i sid xs → alookup st.structCodes sid ≠ none)
    (ob : List Nat) (hob : encode_variable_int (st.pos - p) = .ok ob) :
    encObj db structs v st = .ok (1 :: ob, advance st (1 :: ob).length) := by
  have hbb : backrefBytes p st.pos = .ok (1 :: ob) := by
    unfold backrefBytes
    rw [hob]
    rfl
  cases v with
  | oskip i => cases hok
  | onone i => cases hok
  | oellipsis i => cases hok
  | obool i b => cases hok
  | odec i d => cases hok
  | onil => cases hok
  | ocons a tl => cases hok
  | odnil => cases hok
  | odcons k w tl => cases hok
  | oint i n =>
    have hbig : 8 < (7 + pyBitLength n) / 8 := by simpa [backrefOk] using hok
    have hlk2 : alookup st.backrefs i = some p := hlk
    simp only [encObj]
    rw [if_neg (by omega), if_neg (by omega), if_neg (by omega), if_neg (by omega), hlk2]
    simp only [hbb, ok_map]
  | obytes i bs =>
    have hlk2 : alookup st.backrefs i = some p := hlk
    simp only [encObj]
    rw [hlk2]
    simp only [hbb, ok_map]
  | ostr i s =>
    have hs2 : 2 ≤ s.length := by simpa [backrefOk] using hok
    have hlk2 : alookup st.backrefs i = some p := hlk
    simp only [encObj]
    rw [if_neg (by omega), if_neg (by omega), hlk2]
    simp only [hbb, ok_map]
  | ofloat i bits =>
    have hlk2 : alookup st.backrefs i = some p := hlk
    simp only [encObj]
    rw [hlk2]
    simp only [hbb, ok_map]
  | odt i dt =>
    have hlk2 : alookup st.backrefs i = some p := hlk
    simp only [encObj]
    rw [hlk2]
    simp only [hbb, ok_map]
  | otuple i xs =>
    have hlk2 : alookup st.backrefs i = some p := hlk
    simp only [encObj]
    rw [hlk2]
    simp only [hbb, ok_map]
  | olist i xs =>
    have hlk2 : alookup st.backrefs i = some p := hlk
    simp only [encObj]
    rw [hlk2]
    simp only [hbb, ok_map]
  | oset i xs =>
    have hlk2 : alookup st.backrefs i = some p := hlk
    simp only [encObj]
    rw [hlk2]
    simp only [hbb, ok_map]
  | odict i xs =>
    have hlk2 : alookup st.backrefs i = some p := hlk
    simp only [encObj]
    rw [hlk2]
    simp only [hbb, ok_map]
  | ostruct i sid xs =>
    have hlk2 : alookup st.backrefs i = some p := hlk
    cases hsc : alookup st.structCodes sid with
    | none => exact absurd hsc (hstruct i sid xs rfl)
    | some code =>
      simp only [encObj]
      rw [hsc, hlk2]
      simp only [hbb, ok_map]

end MessageFlow
